import Mathlib

/-! tgzetup: a verification development.

A shallow embedding of the archive installer `tgzetup` (Go) and proofs about
its path-safety predicates, its install / uninstall orchestration, its
structure verifier, its mapping validation and its ownership correction.

Go strings are modelled as `List Char`.  The functions of Go's standard
library that the program calls (`path/filepath`, `strings`, `strconv`) are
modelled for Unix, where the separator is `/` and there is no volume name.
Effects on the operating system are modelled by explicit state passing: the
primitive operations are parameters that take a world state and return an
outcome together with the next state, and every function returns the list of
effectful calls it made.
-/

set_option autoImplicit false

namespace Tgzetup

/-! ## Strings and paths -/

/-- A Go string. -/
abbrev Path := List Char

/-- Model of Go's `strings.HasPrefix(s, prefix)`. -/
def HasPrefix (s pre : Path) : Bool := pre.isPrefixOf s

/-- Split a string at every `/`; the result always has at least one element. -/
def splitSlash : Path → List Path
  | [] => [[]]
  | c :: cs =>
    if c = '/' then [] :: splitSlash cs
    else
      match splitSlash cs with
      | [] => [[c]]
      | h :: t => (c :: h) :: t

/-- One step of the lexical clean-up of `filepath.Clean`, on a stack of the
elements kept so far (last element first): an empty element and `.` are
dropped, `..` removes the preceding element when that is not itself `..`, is
dropped at the root, and is kept otherwise; any other element is kept. -/
def cleanStep (rooted : Bool) (stack : List Path) (c : Path) : List Path :=
  if c = [] ∨ c = ['.'] then stack
  else if c = ['.', '.'] then
    match stack with
    | [] => if rooted then [] else [c]
    | t :: rest => if t = ['.', '.'] then c :: stack else rest
  else c :: stack

/-- The elements of a path that `filepath.Clean` keeps, in their order. -/
def cleanComps (rooted : Bool) (comps : List Path) : List Path :=
  (comps.foldl (cleanStep rooted) []).reverse

/-- Write every element with a leading `/`: `[a, b]` gives `/a/b`. -/
def joinAbs : List Path → Path
  | [] => []
  | c :: cs => '/' :: (c ++ joinAbs cs)

/-- The rooted path with the given elements; the root itself is `/`. -/
def absRender (cs : List Path) : Path :=
  if cs = [] then ['/'] else joinAbs cs

/-- The relative path with the given elements; with no element it is `.`. -/
def relRender (cs : List Path) : Path :=
  if cs = [] then ['.'] else (joinAbs cs).tail

/-- Model of Go's `filepath.Clean` on Unix: the empty string becomes `.`,
multiple separators collapse, `.` elements disappear, an inner `..` removes
the element before it, and `..` at the root disappears. -/
def Clean (s : Path) : Path :=
  if s = [] then ['.']
  else if s.head? = some '/' then absRender (cleanComps true (splitSlash s))
  else relRender (cleanComps false (splitSlash s))

/-- Model of Go's `filepath.Join` for two elements: empty elements before the
first non-empty one are ignored, the rest is joined with `/` and cleaned; when
both are empty the result is the empty string. -/
def Join (a b : Path) : Path :=
  if a ≠ [] then Clean (a ++ '/' :: b)
  else if b ≠ [] then Clean b
  else []

/-- The part of a path up to and including its last `/` (`path[:i+1]` in
`filepath.Dir`); empty when the path has no `/`. -/
def lastSlashPrefix (p : Path) : Path :=
  (p.reverse.dropWhile (fun c => c ≠ '/')).reverse

/-- Model of Go's `filepath.Dir` on Unix. -/
def Dir (p : Path) : Path := Clean (lastSlashPrefix p)

/-- Model of Go's `filepath.IsAbs` on Unix. -/
def IsAbs (p : Path) : Bool := HasPrefix p ['/']

/-- The non-empty elements of a path, in order. -/
def pathComponents (p : Path) : List Path :=
  (splitSlash p).filter (fun c => c ≠ [])

/-- A path element as `filepath.Clean` leaves it in a rooted path: non-empty,
without separator, and neither `.` nor `..`. -/
def NormalComp (c : Path) : Prop :=
  c ≠ [] ∧ '/' ∉ c ∧ c ≠ ['.'] ∧ c ≠ ['.', '.']

/-- A path element as `filepath.Clean` leaves it in a relative path:
non-empty, without separator, and not `.`; it may be `..`. -/
def RelComp (c : Path) : Prop := c ≠ [] ∧ '/' ∉ c ∧ c ≠ ['.']

/-- The elements of a cleaned relative path: some `..` elements followed by
normal elements. -/
def RelForm (cs : List Path) : Prop :=
  ∃ k n, cs = List.replicate k ['.', '.'] ++ n ∧ ∀ c ∈ n, NormalComp c

/-- Total length of a list of elements, counting one separator per element. -/
def weight (cs : List Path) : Nat := (cs.map (fun c => c.length + 1)).sum

/-- Weight of the non-empty elements. -/
def weightNE (cs : List Path) : Nat := weight (cs.filter (fun c => c ≠ []))

/-! ## Process environment and errors -/

/-- An entry of the user database, as returned by `user.Lookup`. -/
structure User where
  Uid : Path
  Gid : Path
  HomeDir : Path

/-- What the program reads from its process environment: the variable
`SUDO_USER`, the user database (`user.Lookup`, `none` when the lookup fails),
`os.UserHomeDir` and `os.Getwd` (`none` when they fail). -/
structure Env where
  SUDO_USER : Path
  lookup : Path → Option User
  userHomeDir : Option Path
  getwd : Option Path

/-- An error of the operating system, by the classes the program tells apart
(`os.IsNotExist`, `os.IsPermission`, anything else). -/
inductive OsErr where
  | notExist
  | permission
  | other
  deriving DecidableEq, Fintype

deriving instance DecidableEq for Except

/-- The errors the program returns; `os` is an error of the operating system
passed through unwrapped, the others are its `fmt.Errorf` messages. -/
inductive Error where
  | os (e : OsErr)
  | openArchive
  | gzipReader
  | tarHeader
  | invalidFilePath (name : Path)
  | failedStat (e : OsErr)
  | tempDir (e : OsErr)
  | failedInstall (source : Path) (cause : Error)
  | failedCheck (source : Path) (e : OsErr)
  | structureMismatch
  | readMapping (e : OsErr)
  | parseYAML
  | noMappings
  | fromEmpty (i : Nat)
  | toEmpty (i : Nat)
  | lookupUser (name : Path)
  | parseUID
  | parseGID
  deriving DecidableEq

/-- What `os.Stat` reports about an existing path (`info.IsDir()`). -/
inductive FileKind where
  | dir
  | file
  deriving DecidableEq

/-- `Mapping` of mapping.go. -/
structure Mapping where
  From : Path
  To : Path
  deriving DecidableEq

/-- `Config` of mapping.go. -/
structure Config where
  Mappings : List Mapping
  deriving DecidableEq

/-! ## utils.go -/

/-- Model of `os.UserHomeDir()` with its error dropped: the empty string on
failure. -/
def userHomeDirOrEmpty (env : Env) : Path :=
  match env.userHomeDir with
  | some h => h
  | none => []

/-- `getRealHomeDir` of utils.go. -/
def getRealHomeDir (env : Env) : Path :=
  if env.SUDO_USER ≠ [] then
    match env.lookup env.SUDO_USER with
    | some u => u.HomeDir
    | none => userHomeDirOrEmpty env
  else userHomeDirOrEmpty env

/-- `expandPath` of utils.go. -/
def expandPath (env : Env) (path : Path) : Path :=
  if HasPrefix path ['~', '/'] then
    let homeDir := getRealHomeDir env
    let homeDir := if homeDir = [] then userHomeDirOrEmpty env else homeDir
    Join homeDir (path.drop 2)
  else path

/-- Model of Go's `filepath.Abs` on Unix: a rooted path is cleaned, any other
path is joined to the working directory; it fails when `os.Getwd` fails. -/
def Abs (env : Env) (p : Path) : Option Path :=
  if IsAbs p then some (Clean p)
  else
    match env.getwd with
    | none => none
    | some wd => some (Join wd p)

/-! ## extract.go: the containment test -/

/-- `isPathWithinDir` of extract.go. -/
def isPathWithinDir (path dir : Path) : Bool :=
  let cleanPath := Clean path
  let cleanDir := Clean dir
  HasPrefix cleanPath (cleanDir ++ ['/']) || decide (cleanPath = cleanDir)

/-! ## uninstall.go -/

/-- `canRemoveDirectory` of uninstall.go. -/
def canRemoveDirectory (env : Env) (path : Path) : Bool :=
  let homeDir := getRealHomeDir env
  if homeDir = [] then false
  else
    match Abs env (Clean path) with
    | none => false
    | some cleanPath =>
      match Abs env (Clean homeDir) with
      | none => false
      | some cleanHome =>
        if cleanPath = cleanHome then false
        else HasPrefix cleanPath (cleanHome ++ ['/'])

/-- The primitive operations of uninstall.go on a world state `σ`: `os.Stat`,
`os.RemoveAll` and `os.Remove`. -/
structure RemoveOps (σ : Type) where
  stat : σ → Path → Except OsErr FileKind
  removeAll : σ → Path → Option OsErr × σ
  remove : σ → Path → Option OsErr × σ

/-- A removal call made by uninstall.go. -/
inductive RmOp where
  | removeAll (p : Path)
  | remove (p : Path)
  deriving DecidableEq

/-- `uninstallDirectory` of uninstall.go: its error, the next state and the
removal calls it made. -/
def uninstallDirectory {σ : Type} (env : Env) (ops : RemoveOps σ) (s : σ) (path : Path) :
    Option Error × σ × List RmOp :=
  if !canRemoveDirectory env path then (none, s, [])
  else
    match ops.removeAll s path with
    | (some e, s1) => (some (Error.os e), s1, [RmOp.removeAll path])
    | (none, s1) => (none, s1, [RmOp.removeAll path])

/-- `uninstallFile` of uninstall.go. -/
def uninstallFile {σ : Type} (ops : RemoveOps σ) (s : σ) (path : Path) :
    Option Error × σ × List RmOp :=
  match ops.remove s path with
  | (some e, s1) => (some (Error.os e), s1, [RmOp.remove path])
  | (none, s1) => (none, s1, [RmOp.remove path])

/-- `uninstallPath` of uninstall.go. -/
def uninstallPath {σ : Type} (env : Env) (ops : RemoveOps σ) (s : σ) (mappingPath : Path) :
    Option Error × σ × List RmOp :=
  let targetPath := expandPath env mappingPath
  match ops.stat s targetPath with
  | Except.error e =>
    if e = OsErr.notExist then (none, s, [])
    else (some (Error.failedStat e), s, [])
  | Except.ok info =>
    if info = FileKind.dir then uninstallDirectory env ops s targetPath
    else uninstallFile ops s targetPath

/-- What a run of `Uninstall` did: the error it returned, the final state,
the calls of `uninstallPath` in the order made (argument and returned error),
and all removal calls. -/
structure UninstallRun (σ : Type) where
  err : Option Error
  st : σ
  calls : List (Path × Option Error)
  removals : List RmOp

/-- The loop of `Uninstall` over the mappings. -/
def uninstallLoop {σ : Type} (env : Env) (ops : RemoveOps σ) :
    σ → List Mapping → σ × List (Path × Option Error) × List RmOp
  | s, [] => (s, [], [])
  | s, m :: ms =>
    match uninstallPath env ops s m.To with
    | (e, s1, rm) =>
      match uninstallLoop env ops s1 ms with
      | (s2, calls, rms) => (s2, (m.To, e) :: calls, rm ++ rms)

/-- `Uninstall` of uninstall.go. -/
def Uninstall {σ : Type} (env : Env) (ops : RemoveOps σ) (s : σ) (config : Config) :
    UninstallRun σ :=
  match uninstallLoop env ops s config.Mappings with
  | (s1, calls, rms) => ⟨none, s1, calls, rms⟩

/-! ## verify.go -/

/-- The scan of `VerifyArchiveStructure` from a given value of `allValid`: the
error that aborted it or the final `allValid`, and the lines it printed (the
source of each entry it examined and whether that was found). -/
def verifyScan {σ : Type} (stat : σ → Path → Except OsErr FileKind) (s : σ)
    (extractedDir : Path) : List Mapping → Bool → Except Error Bool × List (Path × Bool)
  | [], allValid => (Except.ok allValid, [])
  | m :: ms, allValid =>
    match stat s (Join extractedDir m.From) with
    | Except.error e =>
      if e = OsErr.notExist then
        match verifyScan stat s extractedDir ms false with
        | (r, log) => (r, (m.From, false) :: log)
      else (Except.error (Error.failedCheck m.From e), [])
    | Except.ok _ =>
      match verifyScan stat s extractedDir ms allValid with
      | (r, log) => (r, (m.From, true) :: log)

/-- `VerifyArchiveStructure` of verify.go. -/
def VerifyArchiveStructure {σ : Type} (stat : σ → Path → Except OsErr FileKind) (s : σ)
    (extractedDir : Path) (config : Config) : Option Error × List (Path × Bool) :=
  match verifyScan stat s extractedDir config.Mappings true with
  | (Except.error e, log) => (some e, log)
  | (Except.ok allValid, log) =>
    if !allValid then (some Error.structureMismatch, log) else (none, log)

/-! ## mapping.go -/

/-- The validation loop of `LoadMapping`, from index `i`. -/
def validateMappings : List Mapping → Nat → Option Error
  | [], _ => none
  | m :: ms, i =>
    if m.From = [] then some (Error.fromEmpty i)
    else if m.To = [] then some (Error.toEmpty i)
    else validateMappings ms (i + 1)

/-- `LoadMapping` of mapping.go; `readFile` models `os.ReadFile` and
`unmarshal` models `yaml.Unmarshal` into a `Config` (`none` when the document
does not parse). -/
def LoadMapping (readFile : Path → Except OsErr (List Char))
    (unmarshal : List Char → Option Config) (path : Path) : Except Error Config :=
  match readFile path with
  | Except.error e => Except.error (Error.readMapping e)
  | Except.ok data =>
    match unmarshal data with
    | none => Except.error Error.parseYAML
    | some config =>
      if config.Mappings.length = 0 then Except.error Error.noMappings
      else
        match validateMappings config.Mappings 0 with
        | some e => Except.error e
        | none => Except.ok config

/-! ## extract.go -/

/-- The type flag of a tar header, by the cases the extractor tells apart:
`tar.TypeDir`, `tar.TypeReg`, anything else. -/
inductive Typeflag where
  | dir
  | reg
  | other
  deriving DecidableEq

/-- The fields of a `tar.Header` that the extractor reads. -/
structure Header where
  Name : Path
  Typeflag : Typeflag
  Mode : Int

/-- The content of an archive as the tar reader delivers it: the headers that
`tr.Next()` returns in order and whether the stream then ends with an error
instead of `io.EOF`. -/
structure Archive where
  entries : List Header
  truncated : Bool

/-- The primitive operations of extract.go on a world state `σ`: opening the
archive (`os.Open` and `gzip.NewReader`), `os.MkdirAll`, `os.OpenFile` with
`O_CREATE|O_RDWR|O_TRUNC`, and `io.Copy` of the entry into the opened file. -/
structure ExtractOps (σ : Type) where
  readArchive : σ → Path → Except Error Archive
  mkdirAll : σ → Path → Nat → Option OsErr × σ
  openFile : σ → Path → Nat → Option OsErr × σ
  copy : σ → Path → Option OsErr × σ

/-- A creating or writing call made by the extractor, with the path it names. -/
inductive FsOp where
  | mkdirAll (p : Path) (mode : Nat)
  | openFile (p : Path) (mode : Nat)
  | copy (p : Path)
  deriving DecidableEq

/-- The path a call creates or writes. -/
def FsOp.path : FsOp → Path
  | FsOp.mkdirAll p _ => p
  | FsOp.openFile p _ => p
  | FsOp.copy p => p

/-- The conversion `os.FileMode(header.Mode)` of an `int64` to a `uint32`. -/
def fileMode (m : Int) : Nat := (m % 4294967296).toNat

/-- `extractRegularFile` of extract.go. -/
def extractRegularFile {σ : Type} (ops : ExtractOps σ) (s : σ) (header : Header)
    (target : Path) : Option OsErr × σ × List FsOp :=
  match ops.mkdirAll s (Dir target) 493 with
  | (some e, s1) => (some e, s1, [FsOp.mkdirAll (Dir target) 493])
  | (none, s1) =>
    match ops.openFile s1 target (fileMode header.Mode) with
    | (some e, s2) =>
      (some e, s2, [FsOp.mkdirAll (Dir target) 493, FsOp.openFile target (fileMode header.Mode)])
    | (none, s2) =>
      match ops.copy s2 target with
      | (r, s3) =>
        (r, s3, [FsOp.mkdirAll (Dir target) 493, FsOp.openFile target (fileMode header.Mode),
          FsOp.copy target])

/-- The extraction loop of `ExtractTarGz` over the headers of the archive. -/
def extractEntries {σ : Type} (ops : ExtractOps σ) (destDir : Path) (truncated : Bool) :
    σ → List Header → Option Error × σ × List FsOp
  | s, [] => (if truncated then some Error.tarHeader else none, s, [])
  | s, header :: rest =>
    let target := Join destDir header.Name
    if !isPathWithinDir target destDir then (some (Error.invalidFilePath header.Name), s, [])
    else
      match header.Typeflag with
      | Typeflag.dir =>
        match ops.mkdirAll s target (fileMode header.Mode) with
        | (_, s1) =>
          match extractEntries ops destDir truncated s1 rest with
          | (r, s2, log) => (r, s2, FsOp.mkdirAll target (fileMode header.Mode) :: log)
      | Typeflag.reg =>
        match extractRegularFile ops s header target with
        | (_, s1, log1) =>
          match extractEntries ops destDir truncated s1 rest with
          | (r, s2, log) => (r, s2, log1 ++ log)
      | Typeflag.other => extractEntries ops destDir truncated s rest

/-- `ExtractTarGz` of extract.go: its error, the next state and the creating
and writing calls it made, in order. -/
def ExtractTarGz {σ : Type} (ops : ExtractOps σ) (s : σ) (archivePath destDir : Path) :
    Option Error × σ × List FsOp :=
  match ops.readArchive s archivePath with
  | Except.error e => (some e, s, [])
  | Except.ok archive => extractEntries ops destDir archive.truncated s archive.entries

/-! ## install.go: the orchestrator -/

/-- The operations `Install` is built from, on a world state `σ`:
`os.MkdirTemp`, `DownloadArchive`, the primitives of the extractor, `os.Stat`,
`installMapping` (the deployment of one entry) and the deferred
`os.RemoveAll` of the temporary directory. -/
structure InstallOps (σ : Type) where
  mkdirTemp : σ → Except OsErr Path × σ
  DownloadArchive : σ → Path → Path → Option Error × σ
  extract : ExtractOps σ
  stat : σ → Path → Except OsErr FileKind
  installMapping : σ → Path → Mapping → Option Error × σ
  removeAll : σ → Path → σ

/-- The deployment loop of `Install`: its error, the next state and the
entries whose deployment was attempted, in order. -/
def installLoop {σ : Type} (installMapping : σ → Path → Mapping → Option Error × σ)
    (extractDir : Path) : σ → List Mapping → Option Error × σ × List Mapping
  | s, [] => (none, s, [])
  | s, m :: ms =>
    match installMapping s extractDir m with
    | (some e, s1) => (some (Error.failedInstall m.From e), s1, [m])
    | (none, s1) =>
      match installLoop installMapping extractDir s1 ms with
      | (r, s2, attempted) => (r, s2, m :: attempted)

/-- The steps of `Install` after the temporary directory exists. -/
def installSteps {σ : Type} (ops : InstallOps σ) (s : σ) (url tempDir : Path)
    (config : Config) : Option Error × σ × List Mapping :=
  let archivePath := Join tempDir "archive.tar.gz".toList
  match ops.DownloadArchive s url archivePath with
  | (some e, s1) => (some e, s1, [])
  | (none, s1) =>
    let extractDir := Join tempDir "extracted".toList
    match ExtractTarGz ops.extract s1 archivePath extractDir with
    | (some e, s2, _) => (some e, s2, [])
    | (none, s2, _) =>
      match VerifyArchiveStructure ops.stat s2 extractDir config with
      | (some e, _) => (some e, s2, [])
      | (none, _) => installLoop ops.installMapping extractDir s2 config.Mappings

/-- `Install` of install.go: its error, the final state and the mapping
entries whose deployment was attempted, in order. -/
def Install {σ : Type} (ops : InstallOps σ) (s : σ) (url : Path) (config : Config)
    (keepTemp : Bool) : Option Error × σ × List Mapping :=
  match ops.mkdirTemp s with
  | (Except.error e, s1) => (some (Error.tempDir e), s1, [])
  | (Except.ok tempDir, s1) =>
    match installSteps ops s1 url tempDir config with
    | (r, s2, attempted) =>
      (r, if !keepTemp then ops.removeAll s2 tempDir else s2, attempted)

/-! ## install.go: ownership correction -/

/-- Value of a string of decimal digits, `none` when a character is no digit. -/
def parseDigits : List Char → Nat → Option Nat
  | [], acc => some acc
  | c :: cs, acc =>
    if '0' ≤ c ∧ c ≤ '9' then parseDigits cs (acc * 10 + (c.toNat - 48)) else none

/-- Model of Go's `strconv.Atoi` for a 64-bit `int`: an optional sign, then
at least one decimal digit, and a value in range. -/
def Atoi (s : Path) : Option Int :=
  match s with
  | '-' :: ds =>
    if ds = [] then none
    else
      match parseDigits ds 0 with
      | none => none
      | some n => if n ≤ 9223372036854775808 then some (-(n : Int)) else none
  | '+' :: ds =>
    if ds = [] then none
    else
      match parseDigits ds 0 with
      | none => none
      | some n => if n < 9223372036854775808 then some (n : Int) else none
  | ds =>
    if ds = [] then none
    else
      match parseDigits ds 0 with
      | none => none
      | some n => if n < 9223372036854775808 then some (n : Int) else none

/-- A call of `os.Chown`. -/
structure ChownCall where
  path : Path
  uid : Int
  gid : Int
  deriving DecidableEq

/-- The block shared by the three ownership operations: `user.Lookup` of the
named user, then `strconv.Atoi` of its `Uid` and of its `Gid`. -/
def lookupIds (env : Env) (sudoUser : Path) : Except Error (Int × Int) :=
  match env.lookup sudoUser with
  | none => Except.error (Error.lookupUser sudoUser)
  | some u =>
    match Atoi u.Uid with
    | none => Except.error Error.parseUID
    | some uid =>
      match Atoi u.Gid with
      | none => Except.error Error.parseGID
      | some gid => Except.ok (uid, gid)

/-- `isInHomeDirectory` of install.go. -/
def isInHomeDirectory (env : Env) (path : Path) : Bool :=
  let homeDir := getRealHomeDir env
  if homeDir = [] then false
  else
    match Abs env (Clean path) with
    | none => false
    | some cleanPath =>
      match Abs env (Clean homeDir) with
      | none => false
      | some cleanHome =>
        HasPrefix cleanPath (cleanHome ++ ['/']) || decide (cleanPath = cleanHome)

/-- `fixOwnership` of install.go; `chown` models `os.Chown` on a world state.
The result is the error, the next state and the `os.Chown` calls made. -/
def fixOwnership {σ : Type} (env : Env) (chown : σ → Path → Int → Int → Option OsErr × σ)
    (s : σ) (path : Path) : Option Error × σ × List ChownCall :=
  if env.SUDO_USER = [] then (none, s, [])
  else if !isInHomeDirectory env path then (none, s, [])
  else
    match lookupIds env env.SUDO_USER with
    | Except.error e => (some e, s, [])
    | Except.ok (uid, gid) =>
      match chown s path uid gid with
      | (r, s1) => (r.map Error.os, s1, [⟨path, uid, gid⟩])

/-- The callback of `fixOwnershipRecursive` run over the entries that
`filepath.Walk` presents, each with the error the walk reports for it: the
callback returns that error, or else the result of `os.Chown`, and the walk
stops at the first error the callback returns. -/
def walkChown {σ : Type} (chown : σ → Path → Int → Int → Option OsErr × σ) (uid gid : Int) :
    σ → List (Path × Option OsErr) → Option Error × σ × List ChownCall
  | s, [] => (none, s, [])
  | s, (_, some e) :: _ => (some (Error.os e), s, [])
  | s, (p, none) :: rest =>
    match chown s p uid gid with
    | (some e, s1) => (some (Error.os e), s1, [⟨p, uid, gid⟩])
    | (none, s1) =>
      match walkChown chown uid gid s1 rest with
      | (r, s2, log) => (r, s2, ⟨p, uid, gid⟩ :: log)

/-- `fixOwnershipRecursive` of install.go; `walk` gives the entries that
`filepath.Walk` presents to the callback for a root, in order. -/
def fixOwnershipRecursive {σ : Type} (env : Env)
    (chown : σ → Path → Int → Int → Option OsErr × σ)
    (walk : σ → Path → List (Path × Option OsErr)) (s : σ) (path : Path) :
    Option Error × σ × List ChownCall :=
  if env.SUDO_USER = [] then (none, s, [])
  else if !isInHomeDirectory env path then (none, s, [])
  else
    match lookupIds env env.SUDO_USER with
    | Except.error e => (some e, s, [])
    | Except.ok (uid, gid) => walkChown chown uid gid s (walk s path)

/-- The guarded call in the loop of `fixOwnershipPath`: `os.Chown` on the
current path when that is within the home directory, nothing otherwise. -/
def chownStep {σ : Type} (env : Env) (chown : σ → Path → Int → Int → Option OsErr × σ)
    (uid gid : Int) (s : σ) (current : Path) : Option OsErr × σ × List ChownCall :=
  if isInHomeDirectory env current then
    match chown s current uid gid with
    | (e, s1) => (e, s1, [⟨current, uid, gid⟩])
  else (none, s, [])

/-- The loop of `fixOwnershipPath`, with a bound on the number of iterations;
`none` means the bound was reached. -/
def ownershipWalk {σ : Type} (env : Env) (chown : σ → Path → Int → Int → Option OsErr × σ)
    (homeDir : Path) (uid gid : Int) :
    Nat → σ → Path → Option (Option Error × σ × List ChownCall)
  | 0, _, _ => none
  | n + 1, s, current =>
    match chownStep env chown uid gid s current with
    | (e, s1, log) =>
      if e ≠ none ∧ e ≠ some OsErr.permission then some (e.map Error.os, s1, log)
      else if current = homeDir then some (none, s1, log)
      else if Dir current = current then some (none, s1, log)
      else
        match ownershipWalk env chown homeDir uid gid n s1 (Dir current) with
        | none => none
        | some (r2, s2, log2) => some (r2, s2, log ++ log2)

/-- `fixOwnershipPath` of install.go.  The loop is run with a bound of the
length of the path plus two iterations; `none` means the bound was reached. -/
def fixOwnershipPath {σ : Type} (env : Env) (chown : σ → Path → Int → Int → Option OsErr × σ)
    (s : σ) (path : Path) : Option (Option Error × σ × List ChownCall) :=
  if env.SUDO_USER = [] then some (none, s, [])
  else
    let homeDir := getRealHomeDir env
    if homeDir = [] then some (none, s, [])
    else
      match lookupIds env env.SUDO_USER with
      | Except.error e => some (some e, s, [])
      | Except.ok (uid, gid) => ownershipWalk env chown homeDir uid gid (path.length + 2) s path

/-! ## install.go: deployment of one mapping entry -/

/-- Model of Go's `filepath.Ext`: the suffix of the last element of the path
that begins at its last dot; empty when there is no dot. -/
def Ext (path : Path) : Path :=
  let suffix := path.reverse.takeWhile (fun c => c ≠ '/' ∧ c ≠ '.')
  match path.reverse.drop suffix.length with
  | '.' :: _ => '.' :: suffix.reverse
  | _ => []

/-- What is left of two lists of elements after their common beginning. -/
def stripCommon : List Path → List Path → List Path × List Path
  | b :: bs, t :: ts => if b = t then stripCommon bs ts else (b :: bs, t :: ts)
  | bs, ts => (bs, ts)

/-- Model of Go's `filepath.Rel` on Unix: both paths are cleaned; equal paths
give `.`; a base or a target that is `.` has no element; a rooted and a
relative path give an error; otherwise the common leading elements are
dropped, an error results when the first element left of the base is `..`
(the target cannot then be reached lexically), and the result is one `..` for
each element left of the base followed by the elements left of the target. -/
def Rel (basepath targpath : Path) : Option Path :=
  let base := Clean basepath
  let targ := Clean targpath
  if targ = base then some ['.']
  else
    let base := if base = ['.'] then [] else base
    let targ := if targ = ['.'] then [] else targ
    if IsAbs base ≠ IsAbs targ then none
    else
      match stripCommon (pathComponents base) (pathComponents targ) with
      | (rb, rt) =>
        if rb.head? = some ['.', '.'] then none
        else some (joinAbs (List.replicate rb.length ['.', '.'] ++ rt)).tail

/-- `isBinary` of install.go. -/
def isBinary (path : Path) : Bool := decide (Dir path = "/usr/local/bin".toList)

/-- The primitive operations of the deployment on a world state `σ`:
`os.Stat`, `os.MkdirAll`, `os.Chmod`, `os.Chown`, the copy of a file's content
(`os.Open`, `os.Create`, `io.Copy`), the decompression of a gzip file into a
new file (`os.Open`, `gzip.NewReader`, `os.Create`, `io.Copy`), and the
entries that `filepath.Walk` presents for a root, each with the error
reported or else whether it is a directory and its mode. -/
structure DeployOps (σ : Type) where
  stat : σ → Path → Except OsErr FileKind
  mkdirAll : σ → Path → Nat → Option OsErr × σ
  chmod : σ → Path → Nat → Option OsErr × σ
  chown : σ → Path → Int → Int → Option OsErr × σ
  copyContents : σ → Path → Path → Option OsErr × σ
  gunzip : σ → Path → Path → Option OsErr × σ
  walk : σ → Path → List (Path × Except OsErr (FileKind × Nat))

/-- An effectful call made during a deployment. -/
inductive DeployOp where
  | mkdirAll (p : Path) (mode : Nat)
  | chmod (p : Path) (mode : Nat)
  | chown (c : ChownCall)
  | copyContents (src dst : Path)
  | gunzip (src dst : Path)
  deriving DecidableEq

/-- The errors of a deployment: `raw` is an error passed through unwrapped (of
the operating system, of the gzip reader, or of an ownership operation), `rel`
is the error of `filepath.Rel`, the others are the `fmt.Errorf` wrappers. -/
inductive DeployError where
  | raw (e : Error)
  | rel
  | statSource (e : OsErr)
  | extractGzip (cause : DeployError)
  | setExecutable (e : OsErr)
  | fixOwnership (cause : DeployError)
  | copyFile (cause : DeployError)
  | copyDirectory (cause : DeployError)
  deriving DecidableEq

/-- The result of `fixOwnershipPath`: the value of its bounded loop, which
always exists. -/
def fixOwnershipPathRun {σ : Type} (env : Env)
    (chown : σ → Path → Int → Int → Option OsErr × σ) (s : σ) (path : Path) :
    Option Error × σ × List ChownCall :=
  match fixOwnershipPath env chown s path with
  | some r => r
  | none => (none, s, [])

/-- `copyFile` of install.go. -/
def copyFile {σ : Type} (env : Env) (ops : DeployOps σ) (s : σ) (src dst : Path) :
    Option DeployError × σ × List DeployOp :=
  let dstDir := Dir dst
  match ops.mkdirAll s dstDir 493 with
  | (some e, s1) => (some (DeployError.raw (Error.os e)), s1, [DeployOp.mkdirAll dstDir 493])
  | (none, s1) =>
    match fixOwnershipPathRun env ops.chown s1 dstDir with
    | (some e, s2, calls) =>
      (some (DeployError.raw e), s2, DeployOp.mkdirAll dstDir 493 :: calls.map DeployOp.chown)
    | (none, s2, calls) =>
      match ops.copyContents s2 src dst with
      | (r, s3) =>
        (r.map (fun e => DeployError.raw (Error.os e)), s3,
          DeployOp.mkdirAll dstDir 493 :: calls.map DeployOp.chown ++
            [DeployOp.copyContents src dst])

/-- `extractGzipFile` of install.go. -/
def extractGzipFile {σ : Type} (ops : DeployOps σ) (s : σ) (src dst : Path) :
    Option DeployError × σ × List DeployOp :=
  match ops.mkdirAll s (Dir dst) 493 with
  | (some e, s1) => (some (DeployError.raw (Error.os e)), s1, [DeployOp.mkdirAll (Dir dst) 493])
  | (none, s1) =>
    match ops.gunzip s1 src dst with
    | (r, s2) =>
      (r.map (fun e => DeployError.raw (Error.os e)), s2,
        [DeployOp.mkdirAll (Dir dst) 493, DeployOp.gunzip src dst])

/-- A call of `fixOwnership` inside a deployment, its error wrapped as
`failed to fix ownership` when `wrap` is set and passed through otherwise. -/
def deployFixOwnership {σ : Type} (env : Env) (ops : DeployOps σ) (wrap : Bool) (s : σ)
    (path : Path) : Option DeployError × σ × List DeployOp :=
  match fixOwnership env ops.chown s path with
  | (r, s1, calls) =>
    (r.map (fun e => if wrap then DeployError.fixOwnership (DeployError.raw e)
      else DeployError.raw e), s1, calls.map DeployOp.chown)

/-- `installFile` of install.go. -/
def installFile {σ : Type} (env : Env) (ops : DeployOps σ) (s : σ)
    (sourcePath targetPath : Path) : Option DeployError × σ × List DeployOp :=
  if Ext sourcePath = ".gz".toList then
    match extractGzipFile ops s sourcePath targetPath with
    | (some e, s1, log) => (some (DeployError.extractGzip e), s1, log)
    | (none, s1, log) =>
      match ops.chmod s1 targetPath 493 with
      | (some e, s2) =>
        (some (DeployError.setExecutable e), s2, log ++ [DeployOp.chmod targetPath 493])
      | (none, s2) =>
        match deployFixOwnership env ops true s2 targetPath with
        | (r, s3, log3) => (r, s3, log ++ [DeployOp.chmod targetPath 493] ++ log3)
  else
    match copyFile env ops s sourcePath targetPath with
    | (some e, s1, log) => (some (DeployError.copyFile e), s1, log)
    | (none, s1, log) =>
      if isBinary targetPath then
        match ops.chmod s1 targetPath 493 with
        | (some e, s2) =>
          (some (DeployError.setExecutable e), s2, log ++ [DeployOp.chmod targetPath 493])
        | (none, s2) =>
          match deployFixOwnership env ops true s2 targetPath with
          | (r, s3, log3) => (r, s3, log ++ [DeployOp.chmod targetPath 493] ++ log3)
      else
        match deployFixOwnership env ops true s1 targetPath with
        | (r, s3, log3) => (r, s3, log ++ log3)

/-- The callback of `copyDirectory` run over the entries that `filepath.Walk`
presents for the source directory; the walk stops at the first error the
callback returns. -/
def copyEntries {σ : Type} (env : Env) (ops : DeployOps σ) (src dst : Path) :
    σ → List (Path × Except OsErr (FileKind × Nat)) → Option DeployError × σ × List DeployOp
  | s, [] => (none, s, [])
  | s, (_, Except.error e) :: _ => (some (DeployError.raw (Error.os e)), s, [])
  | s, (path, Except.ok (kind, mode)) :: rest =>
    match Rel src path with
    | none => (some DeployError.rel, s, [])
    | some relPath =>
      let dstPath := Join dst relPath
      if kind = FileKind.dir then
        match ops.mkdirAll s dstPath mode with
        | (some e, s1) =>
          (some (DeployError.raw (Error.os e)), s1, [DeployOp.mkdirAll dstPath mode])
        | (none, s1) =>
          match deployFixOwnership env ops false s1 dstPath with
          | (some e, s2, log2) => (some e, s2, DeployOp.mkdirAll dstPath mode :: log2)
          | (none, s2, log2) =>
            match copyEntries env ops src dst s2 rest with
            | (r, s3, log3) => (r, s3, DeployOp.mkdirAll dstPath mode :: log2 ++ log3)
      else
        match copyFile env ops s path dstPath with
        | (some e, s1, log1) => (some e, s1, log1)
        | (none, s1, log1) =>
          match deployFixOwnership env ops false s1 dstPath with
          | (some e, s2, log2) => (some e, s2, log1 ++ log2)
          | (none, s2, log2) =>
            match copyEntries env ops src dst s2 rest with
            | (r, s3, log3) => (r, s3, log1 ++ log2 ++ log3)

/-- `copyDirectory` of install.go. -/
def copyDirectory {σ : Type} (env : Env) (ops : DeployOps σ) (s : σ) (src dst : Path) :
    Option DeployError × σ × List DeployOp :=
  match ops.mkdirAll s dst 493 with
  | (some e, s1) => (some (DeployError.raw (Error.os e)), s1, [DeployOp.mkdirAll dst 493])
  | (none, s1) =>
    match deployFixOwnership env ops false s1 dst with
    | (some e, s2, log2) => (some e, s2, DeployOp.mkdirAll dst 493 :: log2)
    | (none, s2, log2) =>
      match copyEntries env ops src dst s2 (ops.walk s2 src) with
      | (r, s3, log3) => (r, s3, DeployOp.mkdirAll dst 493 :: log2 ++ log3)

/-- The entries of a walk with the error reported for each, as the callback of
`fixOwnershipRecursive` reads them. -/
def walkErrors (evs : List (Path × Except OsErr (FileKind × Nat))) :
    List (Path × Option OsErr) :=
  evs.map (fun x =>
    match x.2 with
    | Except.error e => (x.1, some e)
    | Except.ok _ => (x.1, none))

/-- `installDirectory` of install.go. -/
def installDirectory {σ : Type} (env : Env) (ops : DeployOps σ) (s : σ)
    (sourcePath targetPath : Path) : Option DeployError × σ × List DeployOp :=
  match copyDirectory env ops s sourcePath targetPath with
  | (some e, s1, log) => (some (DeployError.copyDirectory e), s1, log)
  | (none, s1, log) =>
    match fixOwnershipRecursive env ops.chown (fun s p => walkErrors (ops.walk s p)) s1
        targetPath with
    | (r, s2, calls) =>
      (r.map (fun e => DeployError.fixOwnership (DeployError.raw e)), s2,
        log ++ calls.map DeployOp.chown)

/-- `installMapping` of install.go: its error, the next state and the
effectful calls it made, in order. -/
def installMapping {σ : Type} (env : Env) (ops : DeployOps σ) (s : σ) (extractDir : Path)
    (mapping : Mapping) : Option DeployError × σ × List DeployOp :=
  let sourcePath := Join extractDir mapping.From
  let targetPath := expandPath env mapping.To
  match ops.stat s sourcePath with
  | Except.error e => (some (DeployError.statSource e), s, [])
  | Except.ok info =>
    if info = FileKind.dir then installDirectory env ops s sourcePath targetPath
    else installFile env ops s sourcePath targetPath

/-! ## Notions of the specification -/

/-- Whether `os.Stat` finds the source of a mapping entry in the extracted
directory. -/
def sourceFound {σ : Type} (stat : σ → Path → Except OsErr FileKind) (s : σ)
    (extractedDir : Path) (m : Mapping) : Bool :=
  match stat s (Join extractedDir m.From) with
  | Except.ok _ => true
  | Except.error _ => false

/-- The claim that a directory is strictly inside the real home directory and
is not the home directory itself, in the words of the specification: the real
home directory is known, both paths resolve to absolute cleaned paths, the
path elements of the home directory are a prefix of those of the directory,
and the two resolved paths differ. -/
def strictlyInsideHome (env : Env) (path : Path) : Bool :=
  if getRealHomeDir env = [] then false
  else
    match Abs env (Clean path), Abs env (Clean (getRealHomeDir env)) with
    | some absPath, some absHome =>
      decide (pathComponents absHome <+: pathComponents absPath) && decide (absPath ≠ absHome)
    | _, _ => false

/-- The rooted path with the given elements, listed last element first, and
its ancestors up to the root, nearest first. -/
def chainRev : List Path → List Path
  | [] => [['/']]
  | c :: rs => absRender ((c :: rs).reverse) :: chainRev rs

/-- A path and its ancestors up to the root, nearest first: for `/home/u/x`
these are `/home/u/x`, `/home/u`, `/home` and `/`. -/
def ancestorChain (p : Path) : List Path := chainRev (pathComponents p).reverse

/-- The `os.Chown` calls, with the given ids, on those of the listed paths
that are within the real home directory. -/
def chownCallsFor (env : Env) (uid gid : Int) (paths : List Path) : List ChownCall :=
  (paths.filter (isInHomeDirectory env)).map (fun q => ⟨q, uid, gid⟩)

/-! ## Concrete worlds and inputs used in the examples -/

/-- Extraction primitives that always succeed, on an empty archive. -/
def demoExtractOps : ExtractOps (List Path) :=
  ⟨fun _ _ => Except.ok ⟨[], false⟩, fun s _ _ => (none, s), fun s _ _ => (none, s),
    fun s _ => (none, s)⟩

/-- A world whose state is the list of sources that `installMapping` was
called on; the deployment of the entry with source `a` fails, every other
deployment succeeds. -/
def demoInstallOps : InstallOps (List Path) :=
  ⟨fun s => (Except.ok "/tmp/t".toList, s), fun s _ _ => (none, s), demoExtractOps,
    fun _ _ => Except.ok FileKind.file,
    fun s _ m =>
      if m.From = "a".toList then (some (Error.os OsErr.permission), s ++ [m.From])
      else (none, s ++ [m.From]),
    fun s _ => s⟩

/-- Three mapping entries; the second is the one whose deployment fails. -/
def demoConfig : Config :=
  ⟨[⟨"c".toList, "/x/c".toList⟩, ⟨"a".toList, "/x/a".toList⟩, ⟨"b".toList, "/x/b".toList⟩]⟩

/-- A directory listing for the verifier: `ok` exists, `missing` does not,
and the stat of anything else fails with another error. -/
def demoStat : Unit → Path → Except OsErr FileKind :=
  fun _ p =>
    if p = "/x/ok".toList then Except.ok FileKind.file
    else if p = "/x/missing".toList then Except.error OsErr.notExist
    else Except.error OsErr.other

/-- A mapping entry with the given source. -/
def entryFrom (src : String) : Mapping := ⟨src.toList, "/dst".toList⟩

/-- A reader that returns the text `doc` for every file. -/
def demoReadFile : Path → Except OsErr (List Char) := fun _ => Except.ok "doc".toList

/-- A mapping set whose second entry has no destination and whose third
entry has no source. -/
def demoBadConfig : Config :=
  ⟨[⟨"bin/tool".toList, "/usr/local/bin/tool".toList⟩, ⟨"share/x".toList, []⟩,
    ⟨[], "~/.x".toList⟩]⟩

/-- A process that is not elevated, with the given home directory, in the
working directory `/work`. -/
def plainEnv (home : String) : Env :=
  ⟨[], fun _ => none, some home.toList, some "/work".toList⟩

/-- Removal primitives on a world that records the removal calls: every path
is an existing directory and every removal succeeds. -/
def demoRemoveOps : RemoveOps (List RmOp) :=
  ⟨fun _ _ => Except.ok FileKind.dir, fun s p => (none, s ++ [RmOp.removeAll p]),
    fun s p => (none, s ++ [RmOp.remove p])⟩

/-- A process elevated on behalf of `alice` (uid and gid 1000) with the given
home directory and working directory; the elevated user's own home directory
is `/root`. -/
def sudoEnv (home wd : String) : Env :=
  ⟨"alice".toList,
    fun n => if n = "alice".toList then some ⟨"1000".toList, "1000".toList, home.toList⟩ else none,
    some "/root".toList, some wd.toList⟩

/-- A process whose `SUDO_USER` names a user that the user database does not
know; the home directory of the current user is `/root`. -/
def ghostEnv : Env :=
  ⟨"ghost".toList, fun _ => none, some "/root".toList, some "/work".toList⟩

/-- An `os.Chown` that always succeeds, on a world that records the calls. -/
def demoChown : List ChownCall → Path → Int → Int → Option OsErr × List ChownCall :=
  fun s p uid gid => (none, s ++ [⟨p, uid, gid⟩])

/-- An `os.Chown` that always fails with an error other than a permission
error. -/
def failingChown : List ChownCall → Path → Int → Int → Option OsErr × List ChownCall :=
  fun s p uid gid => (some OsErr.other, s ++ [⟨p, uid, gid⟩])

/-- A walk that presents the root only. -/
def demoWalk : List ChownCall → Path → List (Path × Option OsErr) :=
  fun _ p => [(p, none)]

/-- Extraction primitives on a world that records the creating and writing
calls; the archive read has the given entries and every call succeeds. -/
def recordingExtractOps (entries : List Header) : ExtractOps (List FsOp) :=
  ⟨fun _ _ => Except.ok ⟨entries, false⟩, fun s p m => (none, s ++ [FsOp.mkdirAll p m]),
    fun s p m => (none, s ++ [FsOp.openFile p m]), fun s p => (none, s ++ [FsOp.copy p])⟩

/-! ## Directory trees and `filepath.Walk` -/

/-- A directory tree as `filepath.Walk` meets it: a file, an entry whose
`os.Lstat` fails, or a directory with the error of reading its entries (if
any) and its entries by name, in lexical order. -/
inductive DirTree where
  | file : DirTree
  | unreadable (e : OsErr) : DirTree
  | dir (readErr : Option OsErr) (children : List (Path × DirTree)) : DirTree

mutual
/-- Model of Go's `filepath.Walk`: the calls of the callback for the tree at
`path`, each with the path and the error passed, when the callback returns
`nil` every time.  A file is presented without error, an entry whose lstat
fails with that error, a directory with the error of reading it, and the
entries of a directory that was read follow it in order. -/
def walkTree (path : Path) : DirTree → List (Path × Option OsErr)
  | DirTree.file => [(path, none)]
  | DirTree.unreadable e => [(path, some e)]
  | DirTree.dir (some e) _ => [(path, some e)]
  | DirTree.dir none children => (path, none) :: walkChildren path children
/-- The calls of the callback for the entries of the directory at `path`. -/
def walkChildren (path : Path) : List (Path × DirTree) → List (Path × Option OsErr)
  | [] => []
  | (name, t) :: rest => walkTree (Join path name) t ++ walkChildren path rest
end

/-- The call of `os.Chown` on the path of a walk entry. -/
def chownCallOf (uid gid : Int) (x : Path × Option OsErr) : ChownCall := ⟨x.1, uid, gid⟩

/-- A directory with an entry `a` that cannot be read and a file `b`. -/
def treeWithUnreadable : DirTree :=
  DirTree.dir none [("a".toList, DirTree.unreadable OsErr.permission), ("b".toList, DirTree.file)]

/-- A directory with a file `a` and a directory `b` that holds a file `c`. -/
def readableTree : DirTree :=
  DirTree.dir none [("a".toList, DirTree.file),
    ("b".toList, DirTree.dir none [("c".toList, DirTree.file)])]

/-- A world for the deployment examples: the existing paths, each with the uid
of its owner. -/
abbrev Owners := List (Path × Int)

/-- `os.MkdirAll` by the elevated process on a world of owners: the path and
each of its ancestors that does not exist yet is created, owned by uid 0. -/
def ownersMkdirAll (s : Owners) (p : Path) : Owners :=
  (ancestorChain (Clean p)).reverse.foldl
    (fun acc q => if (acc.lookup q).isSome then acc else acc ++ [(q, 0)]) s

/-- `os.Chown` on a world of owners: the owner of an existing path is set. -/
def ownersChown (s : Owners) (p : Path) (uid : Int) : Option OsErr × Owners :=
  if (s.lookup p).isSome then (none, s.map (fun x => if x.1 = p then (x.1, uid) else x))
  else (some OsErr.notExist, s)

/-- Creation of a file by the elevated process on a world of owners: a new
file is owned by uid 0, an existing one keeps its owner. -/
def ownersCreate (s : Owners) (p : Path) : Owners :=
  if (s.lookup p).isSome then s else s ++ [(p, 0)]

/-- The deployment primitives on a world of owners.  The extracted archive
holds the gzip file `tool.gz`, the plain file `tool`, the directory `emptydir`
without entries and the directory `withfile` with the one file `f`; a walk of
any other root presents the existing paths at or under it. -/
def ownersDeployOps : DeployOps Owners :=
  ⟨fun _ p =>
      if p = "/tmp/t/extracted/emptydir".toList ∨ p = "/tmp/t/extracted/withfile".toList then
        Except.ok FileKind.dir
      else if p = "/tmp/t/extracted/tool.gz".toList ∨ p = "/tmp/t/extracted/tool".toList then
        Except.ok FileKind.file
      else Except.error OsErr.notExist,
    fun s p _ => (none, ownersMkdirAll s p),
    fun s _ _ => (none, s),
    fun s p uid _ => ownersChown s p uid,
    fun s _ dst => (none, ownersCreate s dst),
    fun s _ dst => (none, ownersCreate s dst),
    fun s p =>
      if p = "/tmp/t/extracted/emptydir".toList then [(p, Except.ok (FileKind.dir, 493))]
      else if p = "/tmp/t/extracted/withfile".toList then
        [(p, Except.ok (FileKind.dir, 493)),
          ("/tmp/t/extracted/withfile/f".toList, Except.ok (FileKind.file, 420))]
      else
        (s.filter (fun x => decide (x.1 = p) || HasPrefix x.1 (p ++ ['/']))).map
          (fun x => (x.1, Except.ok (FileKind.dir, 493)))⟩

/-- The world before a deployment: the home directory `/home/alice` exists and
is owned by uid 1000, its ancestors by uid 0. -/
def homeOnly : Owners := [("/".toList, 0), ("/home".toList, 0), ("/home/alice".toList, 1000)]

/-- A small file system for the removal primitives: the state lists the
existing paths with their kind.  `os.Stat` finds the listed paths only;
`os.RemoveAll` deletes the path and everything under it; `os.Remove` deletes
the path, except that it fails with a permission error on
`/home/u/.locked`. -/
def diskRemoveOps : RemoveOps (List (Path × FileKind)) :=
  ⟨fun s p =>
      match s.find? (fun e => decide (e.1 = p)) with
      | some e => Except.ok e.2
      | none => Except.error OsErr.notExist,
    fun s p => (none, s.filter (fun e => !(decide (e.1 = p) || HasPrefix e.1 (p ++ ['/'])))),
    fun s p =>
      if p = "/home/u/.locked".toList then (some OsErr.permission, s)
      else (none, s.filter (fun e => decide (e.1 ≠ p)))⟩

/-- A disk with two files and a directory in the home directory `/home/u`,
and the system directory `/etc`. -/
def demoDisk : List (Path × FileKind) :=
  [("/home/u/.a".toList, FileKind.file), ("/home/u/.locked".toList, FileKind.file),
    ("/home/u/.d".toList, FileKind.dir), ("/home/u/.d/x".toList, FileKind.file),
    ("/etc".toList, FileKind.dir), ("/etc/hosts".toList, FileKind.file)]

/-- Five mapping entries: a file, a file whose removal fails, a directory in
the home directory, a system directory, and a path that does not exist. -/
def demoUninstallConfig : Config :=
  ⟨[⟨"a".toList, "~/.a".toList⟩, ⟨"l".toList, "~/.locked".toList⟩, ⟨"d".toList, "~/.d".toList⟩,
    ⟨"e".toList, "/etc".toList⟩, ⟨"g".toList, "~/.gone".toList⟩]⟩

/-- The absolute path that a process in the working directory `wd` reaches by
the path `p`. -/
def resolveFrom (wd p : Path) : Path := if IsAbs p then Clean p else Join wd p

/-- A small file system for the extraction primitives, for a process in the
working directory `wd`: the state lists the existing paths.  The archive read
has the given entries; `os.MkdirAll` creates the directory and those of its
ancestors that are missing; `os.OpenFile` with `O_CREATE` fails when the
parent directory is missing and otherwise creates the file when it is missing;
`io.Copy` succeeds. -/
def diskExtractOps (wd : Path) (entries : List Header) : ExtractOps (List Path) :=
  ⟨fun _ _ => Except.ok ⟨entries, false⟩,
    fun s p _ =>
      (none, s ++ (ancestorChain (resolveFrom wd p)).reverse.filter (fun q => decide (q ∉ s))),
    fun s p _ =>
      if Dir (resolveFrom wd p) ∈ s then
        (none, if resolveFrom wd p ∈ s then s else s ++ [resolveFrom wd p])
      else (some OsErr.notExist, s),
    fun s _ => (none, s)⟩

/-- A disk on which `/etc` and `/srv/app/run` exist. -/
def demoTree : List Path :=
  ["/".toList, "/etc".toList, "/srv".toList, "/srv/app".toList, "/srv/app/run".toList]

/-! ## End of definitions -/

/-! ## Lemmas on the path model -/

theorem HasPrefix_iff (s pre : Path) : HasPrefix s pre = true ↔ pre <+: s := by
  unfold HasPrefix
  exact List.isPrefixOf_iff_prefix

theorem splitSlash_ne_nil (s : Path) : splitSlash s ≠ [] := by
  cases s with
  | nil => simp [splitSlash]
  | cons c cs =>
    unfold splitSlash
    split
    · simp
    · split <;> simp

theorem splitSlash_cons_slash (s : Path) : splitSlash ('/' :: s) = [] :: splitSlash s := by
  simp [splitSlash]

theorem splitSlash_cons_other (c : Char) (s : Path) (hc : c ≠ '/') :
    ∃ h t, splitSlash s = h :: t ∧ splitSlash (c :: s) = (c :: h) :: t := by
  rcases hs : splitSlash s with _ | ⟨h, t⟩
  · exact absurd hs (splitSlash_ne_nil s)
  · refine ⟨h, t, rfl, ?_⟩
    rw [splitSlash, if_neg hc, hs]

theorem splitSlash_noSlash (s : Path) : ∀ c ∈ splitSlash s, '/' ∉ c := by
  induction s with
  | nil => simp [splitSlash]
  | cons a s ih =>
    by_cases ha : a = '/'
    · subst ha
      rw [splitSlash_cons_slash]
      intro c hc
      rcases List.mem_cons.1 hc with rfl | hc
      · simp
      · exact ih c hc
    · obtain ⟨h, t, hs, hcs⟩ := splitSlash_cons_other a s ha
      rw [hcs]
      rw [hs] at ih
      intro c hc
      rcases List.mem_cons.1 hc with rfl | hc
      · intro hmem
        rcases List.mem_cons.1 hmem with heq | hmem
        · exact ha heq.symm
        · exact ih h (List.mem_cons_self _ _) hmem
      · exact ih c (List.mem_cons_of_mem _ hc)

/-- Splitting distributes over a separator that follows a separator-free
element. -/
theorem splitSlash_append_slash (c r : Path) (hc : '/' ∉ c) :
    splitSlash (c ++ '/' :: r) = c :: splitSlash r := by
  induction c with
  | nil => simp [splitSlash]
  | cons a c ih =>
    have ha : a ≠ '/' := fun h => hc (by simp [h])
    have hc2 : '/' ∉ c := fun h => hc (List.mem_cons_of_mem _ h)
    have e : splitSlash (a :: (c ++ '/' :: r)) = (a :: c) :: splitSlash r := by
      rw [splitSlash, if_neg ha, ih hc2]
    simpa using e

theorem splitSlash_of_noSlash (c : Path) (hc : '/' ∉ c) : splitSlash c = [c] := by
  induction c with
  | nil => simp [splitSlash]
  | cons a c ih =>
    have ha : a ≠ '/' := fun h => hc (by simp [h])
    have hc2 : '/' ∉ c := fun h => hc (List.mem_cons_of_mem _ h)
    rw [splitSlash, if_neg ha, ih hc2]

theorem splitSlash_append_joinAbs (c : Path) (cs : List Path) (hc : '/' ∉ c)
    (hcs : ∀ x ∈ cs, '/' ∉ x) : splitSlash (c ++ joinAbs cs) = c :: cs := by
  induction cs generalizing c with
  | nil => simpa [joinAbs] using splitSlash_of_noSlash c hc
  | cons d ds ih =>
    rw [joinAbs, splitSlash_append_slash c _ hc,
      ih d (hcs d (List.mem_cons_self _ _)) (fun x hx => hcs x (List.mem_cons_of_mem _ hx))]

theorem splitSlash_joinAbs (cs : List Path) (hcs : ∀ x ∈ cs, '/' ∉ x) :
    splitSlash (joinAbs cs) = [] :: cs := by
  simpa using splitSlash_append_joinAbs [] cs (by simp) hcs

theorem splitSlash_append_joinAbs_slash (c : Path) (cs : List Path) (hc : '/' ∉ c)
    (hcs : ∀ x ∈ cs, '/' ∉ x) :
    splitSlash (c ++ (joinAbs cs ++ ['/'])) = c :: (cs ++ [[]]) := by
  induction cs generalizing c with
  | nil =>
    have e := splitSlash_append_slash c [] hc
    simpa [joinAbs, splitSlash] using e
  | cons d ds ih =>
    have e : c ++ (joinAbs (d :: ds) ++ ['/']) = c ++ '/' :: (d ++ (joinAbs ds ++ ['/'])) := by
      simp [joinAbs]
    rw [e, splitSlash_append_slash c _ hc,
      ih d (hcs d (List.mem_cons_self _ _)) (fun x hx => hcs x (List.mem_cons_of_mem _ hx))]
    simp

theorem joinAbs_append (a b : List Path) : joinAbs (a ++ b) = joinAbs a ++ joinAbs b := by
  induction a with
  | nil => simp [joinAbs]
  | cons c cs ih => simp [joinAbs, ih]

theorem joinAbs_eq_nil (cs : List Path) : joinAbs cs = [] ↔ cs = [] := by
  cases cs <;> simp [joinAbs]

theorem foldl_cleanStep_normal (r : Bool) (cs st : List Path)
    (hcs : ∀ c ∈ cs, NormalComp c) :
    cs.foldl (cleanStep r) st = cs.reverse ++ st := by
  induction cs generalizing st with
  | nil => simp
  | cons c cs ih =>
    obtain ⟨h1, _, h3, h4⟩ := hcs c (List.mem_cons_self _ _)
    have hstep : cleanStep r st c = c :: st := by
      unfold cleanStep
      rw [if_neg (by simp [h1, h3]), if_neg h4]
    rw [List.foldl_cons, hstep, ih _ (fun x hx => hcs x (List.mem_cons_of_mem _ hx))]
    simp

theorem cleanStep_nil (r : Bool) (st : List Path) : cleanStep r st [] = st := by
  simp [cleanStep]

/-- Cleaning the elements of an already clean rooted path, with or without a
trailing separator, gives the same elements back. -/
theorem cleanComps_normal (r : Bool) (cs : List Path) (hcs : ∀ c ∈ cs, NormalComp c) :
    cleanComps r ([] :: cs) = cs ∧ cleanComps r ([] :: (cs ++ [[]])) = cs := by
  unfold cleanComps
  constructor
  · rw [List.foldl_cons, cleanStep_nil, foldl_cleanStep_normal r cs [] hcs]
    simp
  · rw [List.foldl_cons, cleanStep_nil, List.foldl_append,
      foldl_cleanStep_normal r cs [] hcs]
    simp [cleanStep_nil]

theorem cleanStep_true_normal (st : List Path) (c : Path) (hc : '/' ∉ c)
    (hst : ∀ x ∈ st, NormalComp x) : ∀ x ∈ cleanStep true st c, NormalComp x := by
  unfold cleanStep
  split
  · exact hst
  · rename_i h1
    split
    · cases st with
      | nil => simp
      | cons t rest =>
        have ht : t ≠ ['.', '.'] := (hst t (List.mem_cons_self _ _)).2.2.2
        simp only [if_neg ht]
        exact fun x hx => hst x (List.mem_cons_of_mem _ hx)
    · rename_i h2
      intro x hx
      rcases List.mem_cons.1 hx with rfl | hx
      · exact ⟨fun h => h1 (Or.inl h), hc, fun h => h1 (Or.inr h), h2⟩
      · exact hst x hx

theorem foldl_cleanStep_true_normal (cs st : List Path) (hcs : ∀ c ∈ cs, '/' ∉ c)
    (hst : ∀ x ∈ st, NormalComp x) :
    ∀ x ∈ cs.foldl (cleanStep true) st, NormalComp x := by
  induction cs generalizing st with
  | nil => simpa using hst
  | cons c cs ih =>
    rw [List.foldl_cons]
    exact ih _ (fun x hx => hcs x (List.mem_cons_of_mem _ hx))
      (cleanStep_true_normal st c (hcs c (List.mem_cons_self _ _)) hst)

theorem cleanComps_true_normal (s : Path) :
    ∀ x ∈ cleanComps true (splitSlash s), NormalComp x := by
  intro x hx
  unfold cleanComps at hx
  rw [List.mem_reverse] at hx
  exact foldl_cleanStep_true_normal _ [] (splitSlash_noSlash s) (by simp) x hx

theorem IsAbs_iff (p : Path) : IsAbs p = true ↔ ∃ t, p = '/' :: t := by
  unfold IsAbs
  rw [HasPrefix_iff]
  constructor
  · rintro ⟨t, ht⟩
    exact ⟨t, by simpa using ht.symm⟩
  · rintro ⟨t, rfl⟩
    exact ⟨t, by simp⟩

theorem Clean_of_IsAbs (p : Path) (hp : IsAbs p = true) :
    Clean p = absRender (cleanComps true (splitSlash p)) := by
  obtain ⟨t, rfl⟩ := (IsAbs_iff p).1 hp
  simp [Clean]

/-- A cleaned rooted path is the rendering of a list of normal elements. -/
theorem Clean_abs_form (p : Path) (hp : IsAbs p = true) :
    ∃ cs, (∀ c ∈ cs, NormalComp c) ∧ Clean p = absRender cs :=
  ⟨_, cleanComps_true_normal p, Clean_of_IsAbs p hp⟩

theorem absRender_head (cs : List Path) : ∃ t, absRender cs = '/' :: t := by
  cases cs with
  | nil => exact ⟨[], by simp [absRender]⟩
  | cons c cs => exact ⟨c ++ joinAbs cs, by simp [absRender, joinAbs]⟩

theorem IsAbs_absRender (cs : List Path) : IsAbs (absRender cs) = true := by
  obtain ⟨t, ht⟩ := absRender_head cs
  exact (IsAbs_iff _).2 ⟨t, ht⟩

theorem IsAbs_Clean (p : Path) (hp : IsAbs p = true) : IsAbs (Clean p) = true := by
  rw [Clean_of_IsAbs p hp]
  exact IsAbs_absRender _

theorem normal_noSlash {cs : List Path} (hcs : ∀ c ∈ cs, NormalComp c) :
    ∀ c ∈ cs, '/' ∉ c := fun c hc => (hcs c hc).2.1

theorem splitSlash_absRender (cs : List Path) (hcs : ∀ c ∈ cs, NormalComp c) :
    cs ≠ [] → splitSlash (absRender cs) = [] :: cs := by
  intro hne
  rw [absRender, if_neg hne]
  exact splitSlash_joinAbs cs (normal_noSlash hcs)

/-- Cleaning is the identity on a rendered list of normal elements. -/
theorem Clean_absRender (cs : List Path) (hcs : ∀ c ∈ cs, NormalComp c) :
    Clean (absRender cs) = absRender cs := by
  rw [Clean_of_IsAbs _ (IsAbs_absRender cs)]
  by_cases hne : cs = []
  · subst hne
    decide
  · rw [splitSlash_absRender cs hcs hne, (cleanComps_normal true cs hcs).1]

theorem pathComponents_absRender (cs : List Path) (hcs : ∀ c ∈ cs, NormalComp c) :
    pathComponents (absRender cs) = cs := by
  by_cases hne : cs = []
  · subst hne
    decide
  · unfold pathComponents
    rw [splitSlash_absRender cs hcs hne]
    rw [List.filter_cons_of_neg (by simp)]
    apply List.filter_eq_self.2
    intro c hc
    simpa using (hcs c hc).1

theorem absRender_injective (cs ds : List Path) (hcs : ∀ c ∈ cs, NormalComp c)
    (hds : ∀ c ∈ ds, NormalComp c) (h : absRender cs = absRender ds) : cs = ds := by
  rw [← pathComponents_absRender cs hcs, ← pathComponents_absRender ds hds, h]

/-- Two separator-free elements that are followed by a separator (or by the
end of the string on the right) match as a prefix only when they are equal. -/
theorem comp_prefix_iff (d c X Y : Path) (hd : '/' ∉ d) (hc : '/' ∉ c)
    (hY : Y = [] ∨ ∃ Z, Y = '/' :: Z) :
    d ++ '/' :: X <+: c ++ Y ↔ d = c ∧ '/' :: X <+: Y := by
  induction d generalizing c with
  | nil =>
    cases c with
    | nil => simp
    | cons a c =>
      have ha : a ≠ '/' := fun h => hc (by simp [h])
      constructor
      · intro h
        have := List.cons_prefix_cons.1 (by simpa using h)
        exact absurd this.1.symm ha
      · rintro ⟨h, _⟩
        cases h
  | cons b d ih =>
    have hb : b ≠ '/' := fun h => hd (by simp [h])
    have hd2 : '/' ∉ d := fun h => hd (List.mem_cons_of_mem _ h)
    cases c with
    | nil =>
      constructor
      · intro h
        rcases hY with rfl | ⟨Z, rfl⟩
        · simp at h
        · have := List.cons_prefix_cons.1 (by simpa using h)
          exact absurd this.1 hb
      · rintro ⟨h, _⟩
        cases h
    | cons a c =>
      have hc2 : '/' ∉ c := fun h => hc (List.mem_cons_of_mem _ h)
      have e : (b :: d) ++ '/' :: X <+: (a :: c) ++ Y ↔ b = a ∧ d ++ '/' :: X <+: c ++ Y := by
        simp [List.cons_prefix_cons]
      rw [e, ih c hd2 hc2]
      constructor
      · rintro ⟨rfl, rfl, h⟩
        exact ⟨rfl, h⟩
      · rintro ⟨h, h2⟩
        cases h
        exact ⟨rfl, rfl, h2⟩

theorem joinAbs_nil_or_slash (cs : List Path) : joinAbs cs = [] ∨ ∃ Z, joinAbs cs = '/' :: Z := by
  cases cs with
  | nil => exact Or.inl rfl
  | cons c cs => exact Or.inr ⟨_, rfl⟩

/-- The separator-aware prefix test on rendered element lists: `ds` followed by
a separator is a string prefix exactly when `ds` is a proper list prefix. -/
theorem joinAbs_slash_prefix_iff (ds cs : List Path) (hds : ∀ c ∈ ds, '/' ∉ c)
    (hcs : ∀ c ∈ cs, '/' ∉ c) :
    joinAbs ds ++ ['/'] <+: joinAbs cs ↔ ∃ e es, cs = ds ++ e :: es := by
  induction ds generalizing cs with
  | nil =>
    cases cs with
    | nil => simp [joinAbs]
    | cons c cs => simp [joinAbs]
  | cons d ds ih =>
    cases cs with
    | nil => simp [joinAbs]
    | cons c cs =>
      have hd := hds d (List.mem_cons_self _ _)
      have hc := hcs c (List.mem_cons_self _ _)
      have hds2 : ∀ x ∈ ds, '/' ∉ x := fun x hx => hds x (List.mem_cons_of_mem _ hx)
      have hcs2 : ∀ x ∈ cs, '/' ∉ x := fun x hx => hcs x (List.mem_cons_of_mem _ hx)
      have key : joinAbs (d :: ds) ++ ['/'] <+: joinAbs (c :: cs) ↔
          d ++ (joinAbs ds ++ ['/']) <+: c ++ joinAbs cs := by
        simp [joinAbs, List.cons_prefix_cons]
      rw [key]
      obtain ⟨X, hX⟩ : ∃ X, joinAbs ds ++ ['/'] = '/' :: X := by
        rcases joinAbs_nil_or_slash ds with h | ⟨Z, h⟩
        · exact ⟨[], by simp [h]⟩
        · exact ⟨Z ++ ['/'], by simp [h]⟩
      rw [hX, comp_prefix_iff d c X _ hd hc (joinAbs_nil_or_slash cs), ← hX, ih cs hds2 hcs2]
      constructor
      · rintro ⟨rfl, e, es, rfl⟩
        exact ⟨e, es, rfl⟩
      · rintro ⟨e, es, h⟩
        simp only [List.cons_append, List.cons.injEq] at h
        exact ⟨h.1.symm, e, es, h.2⟩

/-- The separator-aware prefix test on cleaned rooted paths, for a directory
other than the root. -/
theorem absRender_slash_prefix_iff (ds cs : List Path) (hds : ∀ c ∈ ds, NormalComp c)
    (hcs : ∀ c ∈ cs, NormalComp c) (hne : ds ≠ []) :
    HasPrefix (absRender cs) (absRender ds ++ ['/']) = true ↔ ∃ e es, cs = ds ++ e :: es := by
  rw [HasPrefix_iff]
  by_cases hc : cs = []
  · subst hc
    cases ds with
    | nil => exact absurd rfl hne
    | cons d ds =>
      constructor
      · intro h
        have hl := h.length_le
        simp [absRender, joinAbs] at hl
      · rintro ⟨e, es, h⟩
        simp at h
  · rw [absRender, if_neg hne, absRender, if_neg hc]
    exact joinAbs_slash_prefix_iff ds cs (normal_noSlash hds) (normal_noSlash hcs)

/-- Under the root directory the separator-aware prefix test never succeeds:
the string tested for is `//`. -/
theorem absRender_root_rejects (cs : List Path) (hcs : ∀ c ∈ cs, NormalComp c) :
    HasPrefix (absRender cs) (absRender [] ++ ['/']) = false := by
  rw [Bool.eq_false_iff]
  intro h
  rw [HasPrefix_iff] at h
  cases cs with
  | nil =>
    have hl := h.length_le
    simp [absRender] at hl
  | cons c cs =>
    obtain ⟨hne, hslash, _, _⟩ := hcs c (List.mem_cons_self _ _)
    cases c with
    | nil => exact hne rfl
    | cons a c =>
      have ha : a ≠ '/' := fun e => hslash (by simp [e])
      have h1 : ['/', '/'] <+: '/' :: a :: (c ++ joinAbs cs) := by
        simpa [absRender, joinAbs] using h
      have h2 := (List.cons_prefix_cons.1 h1).2
      have h3 := (List.cons_prefix_cons.1 h2).1
      exact ha h3.symm

theorem prefix_iff_eq_or_proper {α : Type} (ds cs : List α) :
    ds <+: cs ↔ cs = ds ∨ ∃ e es, cs = ds ++ e :: es := by
  constructor
  · rintro ⟨t, rfl⟩
    cases t with
    | nil => exact Or.inl (by simp)
    | cons e es => exact Or.inr ⟨e, es, rfl⟩
  · rintro (rfl | ⟨e, es, rfl⟩)
    · exact List.prefix_refl _
    · exact List.prefix_append _ _

/-! ### `filepath.Dir` on cleaned rooted paths -/

theorem dropWhile_append_of_all {α : Type} (p : α → Bool) (l r : List α)
    (h : ∀ x ∈ l, p x = true) : (l ++ r).dropWhile p = r.dropWhile p := by
  induction l with
  | nil => simp
  | cons a l ih =>
    have ha := h a (List.mem_cons_self _ _)
    simp [List.dropWhile_cons, ha, ih (fun x hx => h x (List.mem_cons_of_mem _ hx))]

theorem lastSlashPrefix_append (x c : Path) (hc : '/' ∉ c) :
    lastSlashPrefix (x ++ '/' :: c) = x ++ ['/'] := by
  unfold lastSlashPrefix
  have e : (x ++ '/' :: c).reverse = c.reverse ++ '/' :: x.reverse := by simp
  rw [e, dropWhile_append_of_all]
  · simp [List.dropWhile_cons]
  · intro a ha
    have : a ≠ '/' := fun h => hc (by simpa [h] using ha)
    simpa using this

theorem lastSlashPrefix_noSlash (c : Path) (hc : '/' ∉ c) : lastSlashPrefix c = [] := by
  unfold lastSlashPrefix
  have e := dropWhile_append_of_all (fun a => decide (a ≠ '/')) c.reverse []
    (by
      intro a ha
      have : a ≠ '/' := fun h => hc (by simpa [h] using ha)
      simpa using this)
  simp only [List.append_nil, List.dropWhile_nil] at e
  rw [e]
  rfl

/-- The parent of a cleaned rooted path: its last element is dropped. -/
theorem Dir_absRender_snoc (cs : List Path) (c : Path)
    (hcs : ∀ x ∈ cs, NormalComp x) (hc : NormalComp c) :
    Dir (absRender (cs ++ [c])) = absRender cs := by
  have e : absRender (cs ++ [c]) = joinAbs cs ++ '/' :: c := by
    rw [absRender, if_neg (by simp), joinAbs_append]
    simp [joinAbs]
  unfold Dir
  rw [e, lastSlashPrefix_append _ _ hc.2.1]
  obtain ⟨X, hX⟩ : ∃ X, joinAbs cs ++ ['/'] = '/' :: X := by
    rcases joinAbs_nil_or_slash cs with h | ⟨Z, h⟩
    · exact ⟨[], by simp [h]⟩
    · exact ⟨Z ++ ['/'], by simp [h]⟩
  rw [Clean_of_IsAbs _ ((IsAbs_iff _).2 ⟨X, hX⟩)]
  have hs := splitSlash_append_joinAbs_slash [] cs (by simp) (normal_noSlash hcs)
  simp only [List.nil_append] at hs
  rw [hs, (cleanComps_normal true cs hcs).2]

theorem Dir_root : Dir ['/'] = ['/'] := by decide

theorem Dir_dot : Dir ['.'] = ['.'] := by decide

/-! ### `filepath.Clean` never lengthens a path that ends in a separator -/

theorem weight_cons (c : Path) (cs : List Path) : weight (c :: cs) = c.length + 1 + weight cs := by
  simp [weight]

theorem weight_splitSlash (s : Path) : weight (splitSlash s) = s.length + 1 := by
  induction s with
  | nil => simp [splitSlash, weight]
  | cons a s ih =>
    by_cases ha : a = '/'
    · subst ha
      rw [splitSlash_cons_slash, weight_cons, ih]
      simp only [List.length_nil, List.length_cons]
      omega
    · obtain ⟨h, t, hs, hcs⟩ := splitSlash_cons_other a s ha
      rw [hcs, weight_cons]
      rw [hs, weight_cons] at ih
      simp only [List.length_cons]
      omega

theorem splitSlash_append (a b : Path) :
    splitSlash (a ++ '/' :: b) = splitSlash a ++ splitSlash b := by
  induction a with
  | nil => simp [splitSlash]
  | cons x a ih =>
    by_cases hx : x = '/'
    · subst hx
      have e : splitSlash ('/' :: (a ++ '/' :: b)) = [] :: (splitSlash a ++ splitSlash b) := by
        rw [splitSlash_cons_slash, ih]
      simpa [splitSlash_cons_slash] using e
    · obtain ⟨h, t, hs, hcs⟩ := splitSlash_cons_other x a hx
      have e : splitSlash (x :: (a ++ '/' :: b)) = (x :: h) :: (t ++ splitSlash b) := by
        rw [splitSlash, if_neg hx, ih, hs]
        simp
      simpa [hcs] using e

theorem weight_cleanStep (r : Bool) (st : List Path) (c : Path) :
    weight (cleanStep r st c) ≤ weight st + (if c = [] then 0 else c.length + 1) := by
  unfold cleanStep
  split
  · omega
  · rename_i h1
    have hne : c ≠ [] := fun h => h1 (Or.inl h)
    rw [if_neg hne]
    split
    · cases st with
      | nil =>
        cases r <;> simp [weight]
      | cons t rest =>
        simp only []
        split
        · rw [weight_cons]
          omega
        · rw [weight_cons]
          omega
    · rw [weight_cons]
      omega

theorem weightNE_le (cs : List Path) : weightNE cs ≤ weight cs := by
  induction cs with
  | nil => simp [weightNE]
  | cons c cs ih =>
    unfold weightNE at ih ⊢
    by_cases hc : c = []
    · subst hc
      rw [List.filter_cons_of_neg (by simp), weight_cons]
      omega
    · rw [List.filter_cons_of_pos (by simpa using hc), weight_cons, weight_cons]
      omega

theorem weightNE_cons (c : Path) (cs : List Path) :
    weightNE (c :: cs) = (if c = [] then 0 else c.length + 1) + weightNE cs := by
  unfold weightNE
  by_cases hc : c = []
  · subst hc
    simp
  · rw [List.filter_cons_of_pos (by simpa using hc), weight_cons, if_neg hc]

theorem weight_foldl_cleanStep (r : Bool) (cs st : List Path) :
    weight (cs.foldl (cleanStep r) st) ≤ weight st + weightNE cs := by
  induction cs generalizing st with
  | nil => simp [weightNE, weight]
  | cons c cs ih =>
    rw [List.foldl_cons, weightNE_cons]
    have h1 := ih (cleanStep r st c)
    have h2 := weight_cleanStep r st c
    omega

theorem weight_reverse (cs : List Path) : weight cs.reverse = weight cs := by
  simp [weight, List.sum_reverse]

theorem weight_cleanComps (r : Bool) (cs : List Path) :
    weight (cleanComps r cs) ≤ weightNE cs := by
  unfold cleanComps
  rw [weight_reverse]
  have := weight_foldl_cleanStep r cs []
  simpa [weight] using this

theorem length_joinAbs (cs : List Path) : (joinAbs cs).length = weight cs := by
  induction cs with
  | nil => simp [joinAbs, weight]
  | cons c cs ih =>
    rw [joinAbs, weight_cons]
    simp only [List.length_cons, List.length_append, ih]
    omega

theorem cleanComps_append_empty (r : Bool) (cs : List Path) :
    cleanComps r (cs ++ [[]]) = cleanComps r cs := by
  unfold cleanComps
  rw [List.foldl_append]
  simp [cleanStep_nil]

/-- A path that ends in a separator and is not the root gets strictly shorter
when cleaned. -/
theorem length_Clean_trailing_slash (q : Path) (hq : q ≠ []) :
    (Clean (q ++ ['/'])).length < (q ++ ['/']).length := by
  have hsplit : splitSlash (q ++ ['/']) = splitSlash q ++ [[]] := by
    simpa [splitSlash] using splitSlash_append q []
  cases q with
  | nil => exact absurd rfl hq
  | cons a q =>
    by_cases ha : a = '/'
    · subst ha
      have hc : Clean (('/' :: q) ++ ['/']) =
          absRender (cleanComps true (splitSlash (('/' :: q) ++ ['/']))) :=
        Clean_of_IsAbs _ ((IsAbs_iff _).2 ⟨q ++ ['/'], by simp⟩)
      rw [hc, hsplit, cleanComps_append_empty, splitSlash_cons_slash]
      have hw := weight_cleanComps true ([] :: splitSlash q)
      rw [weightNE_cons, if_pos rfl] at hw
      have hw2 := weightNE_le (splitSlash q)
      rw [weight_splitSlash] at hw2
      unfold absRender
      split
      · simp
      · rw [length_joinAbs]
        simp only [List.cons_append, List.length_cons, List.length_append, List.length_singleton,
          List.length_nil]
        omega
    · have hc : Clean ((a :: q) ++ ['/']) =
          relRender (cleanComps false (splitSlash ((a :: q) ++ ['/']))) := by
        simp [Clean, ha]
      rw [hc, hsplit, cleanComps_append_empty]
      have hw := weight_cleanComps false (splitSlash (a :: q))
      have hw2 := weightNE_le (splitSlash (a :: q))
      rw [weight_splitSlash] at hw2
      unfold relRender
      split
      · simp
      · rw [List.length_tail, length_joinAbs]
        simp only [List.cons_append, List.length_cons, List.length_append, List.length_singleton,
          List.length_nil] at hw2 ⊢
        omega

theorem lastSlashPrefix_cases (p : Path) :
    lastSlashPrefix p = [] ∨
      ∃ q, lastSlashPrefix p = q ++ ['/'] ∧ (q ++ ['/']).length ≤ p.length := by
  unfold lastSlashPrefix
  have hsuf : p.reverse.dropWhile (fun c => decide (c ≠ '/')) <:+ p.reverse :=
    List.dropWhile_suffix _
  rcases h : p.reverse.dropWhile (fun c => decide (c ≠ '/')) with _ | ⟨x, t⟩
  · exact Or.inl rfl
  · right
    have hx : x = '/' := by
      have := List.head_dropWhile_not (fun c => decide (c ≠ '/')) p.reverse
        (by rw [h]; simp)
      simp only [h, List.head_cons] at this
      simpa using this
    subst hx
    refine ⟨t.reverse, by simp, ?_⟩
    have hl := hsuf.length_le
    rw [h] at hl
    simpa using hl

/-- Taking the parent either leaves the path unchanged, gives `.`, or gives a
strictly shorter path. -/
theorem Dir_cases (p : Path) :
    Dir p = p ∨ Dir p = ['.'] ∨ (Dir p).length < p.length := by
  unfold Dir
  rcases lastSlashPrefix_cases p with h | ⟨q, h, hl⟩
  · right; left
    rw [h]
    rfl
  · rw [h]
    by_cases hq : q = []
    · subst hq
      have hroot : Clean ([] ++ ['/']) = ['/'] := by decide
      rw [hroot]
      rcases p with _ | ⟨a, _ | ⟨b, t⟩⟩
      · simp at hl
      · unfold lastSlashPrefix at h
        by_cases ha : a = '/'
        · left; rw [ha]
        · simp [List.dropWhile_cons, ha] at h
      · right; right
        simp
    · right; right
      exact lt_of_lt_of_le (length_Clean_trailing_slash q hq) hl

/-! ## The uninstall loop (C5) -/

theorem uninstallLoop_calls {σ : Type} (env : Env) (ops : RemoveOps σ) (ms : List Mapping)
    (s : σ) : (uninstallLoop env ops s ms).2.1.map Prod.fst = ms.map Mapping.To := by
  induction ms generalizing s with
  | nil => rfl
  | cons m ms ih =>
    simp only [uninstallLoop, List.map_cons]
    rw [ih]

theorem uninstallLoop_append {σ : Type} (env : Env) (ops : RemoveOps σ) (pre post : List Mapping)
    (s : σ) :
    uninstallLoop env ops s (pre ++ post) =
      ((uninstallLoop env ops (uninstallLoop env ops s pre).1 post).1,
        (uninstallLoop env ops s pre).2.1 ++
          (uninstallLoop env ops (uninstallLoop env ops s pre).1 post).2.1,
        (uninstallLoop env ops s pre).2.2 ++
          (uninstallLoop env ops (uninstallLoop env ops s pre).1 post).2.2) := by
  induction pre generalizing s with
  | nil => simp [uninstallLoop]
  | cons m ms ih =>
    rw [List.cons_append]
    simp only [uninstallLoop]
    rw [ih]
    simp

/-- C5: for every mapping set and every behaviour of the removal primitives,
`Uninstall` returns no error, and it calls `uninstallPath` exactly once per
mapping entry, in the declared order: the arguments of the calls are the
destinations of the entries.  The run is the chain of these calls and nothing
else: on no entry it leaves the world as it is and removes nothing; on
`m :: ms` its first call is `uninstallPath` on the destination of `m` in the
given world, and whatever that call returns the run goes on with `ms` in the
world that call left, so that the removals of the run are the removals of
that call followed by those of the rest.  Hence an entry is processed from
the world its predecessors left, whatever they returned: the run over
`pre ++ m :: post` records for `m` what `uninstallPath` returns on it after the
run over `pre`, makes its removals, and then goes on with `post`.  On the disk
`demoDisk` the removal of the second of five entries fails with a permission
error; the third entry is removed all the same, the run returns no error, and
the failing file, the protected directory `/etc` and its content are what is
left. -/
theorem Uninstall_calls_every_entry {σ : Type} (env : Env) (ops : RemoveOps σ) (s : σ)
    (config : Config) :
    (Uninstall env ops s config).err = none ∧
    (Uninstall env ops s config).calls.map Prod.fst = config.Mappings.map Mapping.To ∧
    (Uninstall env ops s config).calls.length = config.Mappings.length ∧
    (∀ pre m post, config.Mappings = pre ++ m :: post →
      (Uninstall env ops s config).calls =
        (uninstallLoop env ops s pre).2.1 ++
          (m.To, (uninstallPath env ops (uninstallLoop env ops s pre).1 m.To).1) ::
          (uninstallLoop env ops
            (uninstallPath env ops (uninstallLoop env ops s pre).1 m.To).2.1 post).2.1) ∧
    (∀ s0 : σ, (Uninstall env ops s0 ⟨[]⟩).st = s0 ∧ (Uninstall env ops s0 ⟨[]⟩).calls = [] ∧
      (Uninstall env ops s0 ⟨[]⟩).removals = []) ∧
    (∀ (s0 : σ) (m : Mapping) (ms : List Mapping),
      (Uninstall env ops s0 ⟨m :: ms⟩).err = none ∧
      (Uninstall env ops s0 ⟨m :: ms⟩).st =
        (Uninstall env ops (uninstallPath env ops s0 m.To).2.1 ⟨ms⟩).st ∧
      (Uninstall env ops s0 ⟨m :: ms⟩).calls =
        (m.To, (uninstallPath env ops s0 m.To).1) ::
          (Uninstall env ops (uninstallPath env ops s0 m.To).2.1 ⟨ms⟩).calls ∧
      (Uninstall env ops s0 ⟨m :: ms⟩).removals =
        (uninstallPath env ops s0 m.To).2.2 ++
          (Uninstall env ops (uninstallPath env ops s0 m.To).2.1 ⟨ms⟩).removals) ∧
    (∀ pre m post, config.Mappings = pre ++ m :: post →
      (Uninstall env ops s config).st =
        (Uninstall env ops
          (uninstallPath env ops (Uninstall env ops s ⟨pre⟩).st m.To).2.1 ⟨post⟩).st ∧
      (Uninstall env ops s config).removals =
        (Uninstall env ops s ⟨pre⟩).removals ++
          (uninstallPath env ops (Uninstall env ops s ⟨pre⟩).st m.To).2.2 ++
          (Uninstall env ops
            (uninstallPath env ops (Uninstall env ops s ⟨pre⟩).st m.To).2.1 ⟨post⟩).removals) ∧
    (Uninstall (plainEnv "/home/u") diskRemoveOps demoDisk demoUninstallConfig).err = none ∧
    (Uninstall (plainEnv "/home/u") diskRemoveOps demoDisk demoUninstallConfig).st =
      [("/home/u/.locked".toList, FileKind.file), ("/etc".toList, FileKind.dir),
        ("/etc/hosts".toList, FileKind.file)] ∧
    (Uninstall (plainEnv "/home/u") diskRemoveOps demoDisk demoUninstallConfig).calls =
      [("~/.a".toList, none), ("~/.locked".toList, some (Error.os OsErr.permission)),
        ("~/.d".toList, none), ("/etc".toList, none), ("~/.gone".toList, none)] ∧
    (Uninstall (plainEnv "/home/u") diskRemoveOps demoDisk demoUninstallConfig).removals =
      [RmOp.remove "/home/u/.a".toList, RmOp.remove "/home/u/.locked".toList,
        RmOp.removeAll "/home/u/.d".toList] := by
  have hcalls : (Uninstall env ops s config).calls = (uninstallLoop env ops s config.Mappings).2.1 := rfl
  have hst : ∀ (s0 : σ) (c : Config), (Uninstall env ops s0 c).st = (uninstallLoop env ops s0 c.Mappings).1 :=
    fun _ _ => rfl
  have hrm : ∀ (s0 : σ) (c : Config),
      (Uninstall env ops s0 c).removals = (uninstallLoop env ops s0 c.Mappings).2.2 :=
    fun _ _ => rfl
  refine ⟨rfl, ?_, ?_, ?_, ?_, ?_, ?_, ?_, ?_, ?_, ?_⟩
  · rw [hcalls]
    exact uninstallLoop_calls env ops config.Mappings s
  · rw [hcalls]
    have := congrArg List.length (uninstallLoop_calls env ops config.Mappings s)
    simpa using this
  · intro pre m post h
    rw [hcalls, h, uninstallLoop_append]
    simp [uninstallLoop]
  · intro s0
    exact ⟨rfl, rfl, rfl⟩
  · intro s0 m ms
    exact ⟨rfl, rfl, rfl, rfl⟩
  · intro pre m post h
    simp only [hst, hrm]
    rw [h, uninstallLoop_append]
    simp [uninstallLoop]
  · decide
  · decide
  · decide
  · decide

/-! ## The deployment loop of `Install` (C6) -/

theorem installLoop_stops {σ : Type} (im : σ → Path → Mapping → Option Error × σ) (dir : Path)
    (pre : List Mapping) (m : Mapping) (post : List Mapping) (s s4 : σ) (e : Error)
    (hpre : (installLoop im dir s pre).1 = none)
    (hm : im (installLoop im dir s pre).2.1 dir m = (some e, s4)) :
    installLoop im dir s (pre ++ m :: post) = (some (Error.failedInstall m.From e), s4, pre ++ [m]) := by
  induction pre generalizing s with
  | nil =>
    simp only [installLoop] at hm
    simp [installLoop, hm]
  | cons x xs ih =>
    rw [List.cons_append]
    simp only [installLoop] at hpre hm ⊢
    rcases hx : im s dir x with ⟨_ | ex, s1⟩
    · rw [hx] at hpre hm
      simp only at hpre hm ⊢
      rw [ih s1 hpre hm]
      simp
    · rw [hx] at hpre
      simp at hpre

theorem installLoop_ok {σ : Type} (im : σ → Path → Mapping → Option Error × σ) (dir : Path)
    (ms : List Mapping) (s : σ) (h : (installLoop im dir s ms).1 = none) :
    (installLoop im dir s ms).2.2 = ms := by
  induction ms generalizing s with
  | nil => rfl
  | cons x xs ih =>
    simp only [installLoop] at h ⊢
    rcases hx : im s dir x with ⟨_ | ex, s1⟩
    · rw [hx] at h
      simp only at h ⊢
      rw [ih s1 h]
    · rw [hx] at h
      simp at h

/-! ## The structure verifier (C7) -/

theorem verifyScan_abort {σ : Type} (stat : σ → Path → Except OsErr FileKind) (s : σ)
    (dir : Path) (pre : List Mapping) (m : Mapping) (post : List Mapping) (e : OsErr)
    (allValid : Bool)
    (hpre : ∀ x ∈ pre, ∀ e1, stat s (Join dir x.From) = Except.error e1 → e1 = OsErr.notExist)
    (hm : stat s (Join dir m.From) = Except.error e) (he : e ≠ OsErr.notExist) :
    verifyScan stat s dir (pre ++ m :: post) allValid =
      (Except.error (Error.failedCheck m.From e),
        pre.map (fun x => (x.From, sourceFound stat s dir x))) := by
  induction pre generalizing allValid with
  | nil => simp [verifyScan, hm, he]
  | cons x xs ih =>
    have hxs : ∀ y ∈ xs, ∀ e1, stat s (Join dir y.From) = Except.error e1 → e1 = OsErr.notExist :=
      fun y hy => hpre y (List.mem_cons_of_mem _ hy)
    rw [List.cons_append]
    simp only [verifyScan, List.map_cons]
    rcases hx : stat s (Join dir x.From) with e1 | k
    · have := hpre x (List.mem_cons_self _ _) e1 hx
      subst this
      simp [ih _ hxs, sourceFound, hx]
    · simp [ih _ hxs, sourceFound, hx]

theorem verifyScan_full {σ : Type} (stat : σ → Path → Except OsErr FileKind) (s : σ)
    (dir : Path) (ms : List Mapping) (allValid : Bool)
    (h : ∀ x ∈ ms, ∀ e1, stat s (Join dir x.From) = Except.error e1 → e1 = OsErr.notExist) :
    verifyScan stat s dir ms allValid =
      (Except.ok (allValid && ms.all (sourceFound stat s dir)),
        ms.map (fun x => (x.From, sourceFound stat s dir x))) := by
  induction ms generalizing allValid with
  | nil => simp [verifyScan]
  | cons x xs ih =>
    have hxs : ∀ y ∈ xs, ∀ e1, stat s (Join dir y.From) = Except.error e1 → e1 = OsErr.notExist :=
      fun y hy => h y (List.mem_cons_of_mem _ hy)
    simp only [verifyScan, List.map_cons, List.all_cons]
    rcases hx : stat s (Join dir x.From) with e1 | k
    · have := h x (List.mem_cons_self _ _) e1 hx
      subst this
      simp [ih _ hxs, sourceFound, hx]
    · simp [ih _ hxs, sourceFound, hx]

/-! ## Mapping validation (C8) -/

theorem validateMappings_none (ms : List Mapping) (i : Nat) :
    validateMappings ms i = none ↔ ∀ m ∈ ms, m.From ≠ [] ∧ m.To ≠ [] := by
  induction ms generalizing i with
  | nil => simp [validateMappings]
  | cons m ms ih =>
    unfold validateMappings
    by_cases h1 : m.From = []
    · simp [h1]
    · by_cases h2 : m.To = []
      · simp [h1, h2]
      · simp [h1, h2, ih]

theorem validateMappings_first (pre : List Mapping) (m : Mapping) (post : List Mapping) (i : Nat)
    (hpre : ∀ x ∈ pre, x.From ≠ [] ∧ x.To ≠ []) (hm : m.From = [] ∨ m.To = []) :
    validateMappings (pre ++ m :: post) i =
      some (if m.From = [] then Error.fromEmpty (i + pre.length)
        else Error.toEmpty (i + pre.length)) := by
  induction pre generalizing i with
  | nil =>
    unfold validateMappings
    by_cases h1 : m.From = []
    · simp [h1]
    · have h2 : m.To = [] := hm.resolve_left h1
      simp [h1, h2]
  | cons x xs ih =>
    obtain ⟨hx1, hx2⟩ := hpre x (List.mem_cons_self _ _)
    rw [List.cons_append]
    simp only [validateMappings, if_neg hx1, if_neg hx2]
    rw [ih (i + 1) (fun y hy => hpre y (List.mem_cons_of_mem _ hy))]
    simp only [List.length_cons]
    have : i + 1 + xs.length = i + (xs.length + 1) := by omega
    rw [this]

/-- C6 (counterexample): with the entries `c`, `a`, `b` and a deployment of
`a` that fails, `Install` returns the error naming `a` but never attempts `b`:
the attempted entries are `c` and `a`, and the world has seen `installMapping`
called on `c` and `a` only. -/
theorem Install_skips_entries_after_failure :
    (Install demoInstallOps [] "http://h/x.tgz".toList demoConfig false).1 =
        some (Error.failedInstall "a".toList (Error.os OsErr.permission)) ∧
      (Install demoInstallOps [] "http://h/x.tgz".toList demoConfig false).2.2 =
        [⟨"c".toList, "/x/c".toList⟩, ⟨"a".toList, "/x/a".toList⟩] ∧
      (Install demoInstallOps [] "http://h/x.tgz".toList demoConfig false).2.1 =
        ["c".toList, "a".toList] ∧
      (⟨"b".toList, "/x/b".toList⟩ : Mapping) ∉
        (Install demoInstallOps [] "http://h/x.tgz".toList demoConfig false).2.2 := by
  decide

/-- C6 (amended): when the steps before deployment succeed, the entries
before `m` deploy without error and the deployment of `m` fails with `e`,
`Install` stops there: it returns the error `failed to install` naming the
source of `m` and wrapping `e`, the entries whose deployment was attempted are
exactly those up to and including `m`, and none after `m` is attempted. -/
theorem Install_stops_at_first_failure {σ : Type} (ops : InstallOps σ) (s s0 s1 s2 s4 : σ)
    (url tempDir : Path) (config : Config) (keepTemp : Bool) (log : List FsOp)
    (pre : List Mapping) (m : Mapping) (post : List Mapping) (e : Error)
    (htemp : ops.mkdirTemp s = (Except.ok tempDir, s0))
    (hdown : ops.DownloadArchive s0 url (Join tempDir "archive.tar.gz".toList) = (none, s1))
    (hext : ExtractTarGz ops.extract s1 (Join tempDir "archive.tar.gz".toList)
      (Join tempDir "extracted".toList) = (none, s2, log))
    (hver : (VerifyArchiveStructure ops.stat s2 (Join tempDir "extracted".toList) config).1 = none)
    (hms : config.Mappings = pre ++ m :: post)
    (hpre : (installLoop ops.installMapping (Join tempDir "extracted".toList) s2 pre).1 = none)
    (hm : ops.installMapping
      (installLoop ops.installMapping (Join tempDir "extracted".toList) s2 pre).2.1
      (Join tempDir "extracted".toList) m = (some e, s4)) :
    Install ops s url config keepTemp =
      (some (Error.failedInstall m.From e),
        (if !keepTemp then ops.removeAll s4 tempDir else s4), pre ++ [m]) := by
  unfold Install
  rw [htemp]
  simp only
  unfold installSteps
  simp only [hdown, hext]
  rcases hv : VerifyArchiveStructure ops.stat s2 (Join tempDir "extracted".toList) config with
    ⟨r, vlog⟩
  rw [hv] at hver
  simp only at hver
  subst hver
  simp only [hms]
  rw [installLoop_stops ops.installMapping _ pre m post s2 s4 e hpre hm]

/-- C6 (witness): the amended statement at the entries `c`, `a`, `b`, the
deployment of `a` failing. -/
theorem Install_stops_at_first_failure_witness :
    Install demoInstallOps [] "http://h/x.tgz".toList demoConfig false =
      (some (Error.failedInstall "a".toList (Error.os OsErr.permission)),
        ["c".toList, "a".toList],
        [⟨"c".toList, "/x/c".toList⟩, ⟨"a".toList, "/x/a".toList⟩]) :=
  Install_stops_at_first_failure demoInstallOps [] [] [] [] ["c".toList, "a".toList]
    "http://h/x.tgz".toList "/tmp/t".toList demoConfig false []
    [⟨"c".toList, "/x/c".toList⟩] ⟨"a".toList, "/x/a".toList⟩ [⟨"b".toList, "/x/b".toList⟩]
    (Error.os OsErr.permission) rfl rfl (by decide) (by decide) rfl (by decide) (by decide)

/-- C7: `VerifyArchiveStructure` stops at the first entry whose stat fails
with an error other than not-found, returning the error `failed to check` that
names this entry, after having examined exactly the entries before it; when no
stat fails with such an error it examines every entry of the mapping set, in
order, returns the aggregate error if and only if some source was not found,
and returns success if and only if every source exists. -/
theorem VerifyArchiveStructure_outcome {σ : Type} (stat : σ → Path → Except OsErr FileKind)
    (s : σ) (dir : Path) (config : Config) :
    (∀ pre m post e, config.Mappings = pre ++ m :: post →
      (∀ x ∈ pre, ∀ e1, stat s (Join dir x.From) = Except.error e1 → e1 = OsErr.notExist) →
      stat s (Join dir m.From) = Except.error e → e ≠ OsErr.notExist →
      VerifyArchiveStructure stat s dir config =
        (some (Error.failedCheck m.From e),
          pre.map (fun x => (x.From, sourceFound stat s dir x)))) ∧
    ((∀ x ∈ config.Mappings, ∀ e1,
        stat s (Join dir x.From) = Except.error e1 → e1 = OsErr.notExist) →
      (VerifyArchiveStructure stat s dir config).2 =
          config.Mappings.map (fun x => (x.From, sourceFound stat s dir x)) ∧
        ((VerifyArchiveStructure stat s dir config).1 = some Error.structureMismatch ↔
          ∃ x ∈ config.Mappings, stat s (Join dir x.From) = Except.error OsErr.notExist) ∧
        ((VerifyArchiveStructure stat s dir config).1 = none ↔
          ∀ x ∈ config.Mappings, ∃ k, stat s (Join dir x.From) = Except.ok k)) := by
  constructor
  · intro pre m post e hms hpre hm he
    unfold VerifyArchiveStructure
    rw [hms, verifyScan_abort stat s dir pre m post e true hpre hm he]
  · intro h
    have hfound : ∀ x ∈ config.Mappings,
        (sourceFound stat s dir x = true ↔ ∃ k, stat s (Join dir x.From) = Except.ok k) ∧
        (sourceFound stat s dir x = false ↔
          stat s (Join dir x.From) = Except.error OsErr.notExist) := by
      intro x hx
      unfold sourceFound
      rcases hst : stat s (Join dir x.From) with e1 | k
      · have := h x hx e1 hst
        subst this
        simp
      · simp
    unfold VerifyArchiveStructure
    rw [verifyScan_full stat s dir config.Mappings true h]
    simp only [Bool.true_and]
    by_cases hall : config.Mappings.all (sourceFound stat s dir) = true
    · rw [hall]
      simp only [Bool.not_true, Bool.false_eq_true, if_false, true_and]
      rw [List.all_eq_true] at hall
      constructor
      · constructor
        · intro hc
          cases hc
        · rintro ⟨x, hx, hne⟩
          have h1 := hall x hx
          have h2 := ((hfound x hx).2).2 hne
          rw [h1] at h2
          cases h2
      · constructor
        · intro _ x hx
          exact ((hfound x hx).1).1 (hall x hx)
        · intro _
          trivial
    · have hall2 : config.Mappings.all (sourceFound stat s dir) = false := by
        simpa using hall
      rw [hall2]
      simp only [Bool.not_false, if_true, true_and]
      have hex : ∃ x ∈ config.Mappings, sourceFound stat s dir x = false := by
        by_contra hcon
        apply hall
        rw [List.all_eq_true]
        intro x hx
        by_contra hx2
        exact hcon ⟨x, hx, by simpa using hx2⟩
      obtain ⟨x, hx, hxf⟩ := hex
      constructor
      · constructor
        · intro _
          exact ⟨x, hx, ((hfound x hx).2).1 hxf⟩
        · intro _
          trivial
      · constructor
        · intro hc
          cases hc
        · intro hall3
          obtain ⟨k, hk⟩ := hall3 x hx
          have := ((hfound x hx).2).1 hxf
          rw [hk] at this
          cases this

/-- C7 (witness): a scan that stops at the entry `bad`, and a scan that
reports the missing source. -/
theorem VerifyArchiveStructure_outcome_witness :
    VerifyArchiveStructure demoStat () "/x".toList
        ⟨[entryFrom "ok", entryFrom "missing", entryFrom "bad", entryFrom "ok"]⟩ =
        (some (Error.failedCheck "bad".toList OsErr.other),
          [("ok".toList, true), ("missing".toList, false)]) ∧
      ((VerifyArchiveStructure demoStat () "/x".toList
          ⟨[entryFrom "ok", entryFrom "missing", entryFrom "ok"]⟩).1 =
          some Error.structureMismatch ↔
        ∃ x ∈ [entryFrom "ok", entryFrom "missing", entryFrom "ok"],
          demoStat () (Join "/x".toList x.From) = Except.error OsErr.notExist) :=
  ⟨(VerifyArchiveStructure_outcome demoStat () "/x".toList
      ⟨[entryFrom "ok", entryFrom "missing", entryFrom "bad", entryFrom "ok"]⟩).1
      [entryFrom "ok", entryFrom "missing"] (entryFrom "bad") [entryFrom "ok"] OsErr.other rfl
      (by decide) (by decide) (by decide),
    ((VerifyArchiveStructure_outcome demoStat () "/x".toList
      ⟨[entryFrom "ok", entryFrom "missing", entryFrom "ok"]⟩).2 (by decide)).2.1⟩

/-- C8: for a mapping file that is read and parsed into `config`,
`LoadMapping` succeeds if and only if the list of mappings is non-empty and
every mapping has a non-empty `from` and a non-empty `to`; on success it
returns `config` itself, so the mappings unchanged and in their order; with no
mapping the error is `no mappings defined`; otherwise the error reports the
index of the first offending mapping, its `from` being checked before its
`to`. -/
theorem LoadMapping_validation (readFile : Path → Except OsErr (List Char))
    (unmarshal : List Char → Option Config) (path : Path) (data : List Char) (config : Config)
    (hread : readFile path = Except.ok data) (hparse : unmarshal data = some config) :
    ((∃ c, LoadMapping readFile unmarshal path = Except.ok c) ↔
      (config.Mappings ≠ [] ∧ ∀ m ∈ config.Mappings, m.From ≠ [] ∧ m.To ≠ [])) ∧
    (∀ c, LoadMapping readFile unmarshal path = Except.ok c → c = config) ∧
    (config.Mappings = [] → LoadMapping readFile unmarshal path = Except.error Error.noMappings) ∧
    (∀ pre m post, config.Mappings = pre ++ m :: post →
      (∀ x ∈ pre, x.From ≠ [] ∧ x.To ≠ []) → (m.From = [] ∨ m.To = []) →
      LoadMapping readFile unmarshal path =
        Except.error (if m.From = [] then Error.fromEmpty pre.length
          else Error.toEmpty pre.length)) := by
  have hload : LoadMapping readFile unmarshal path =
      if config.Mappings.length = 0 then Except.error Error.noMappings
      else
        match validateMappings config.Mappings 0 with
        | some e => Except.error e
        | none => Except.ok config := by
    unfold LoadMapping
    rw [hread]
    simp only [hparse]
  refine ⟨?_, ?_, ?_, ?_⟩
  · rw [hload]
    by_cases hlen : config.Mappings.length = 0
    · have hnil : config.Mappings = [] := List.length_eq_zero.1 hlen
      simp [hnil]
    · have hne : config.Mappings ≠ [] := fun h => hlen (by simp [h])
      rw [if_neg hlen]
      rcases hv : validateMappings config.Mappings 0 with _ | e
      · have := (validateMappings_none config.Mappings 0).1 hv
        exact ⟨fun _ => ⟨hne, this⟩, fun _ => ⟨config, rfl⟩⟩
      · constructor
        · rintro ⟨c, hc⟩
          cases hc
        · rintro ⟨_, hall⟩
          have := (validateMappings_none config.Mappings 0).2 hall
          rw [hv] at this
          cases this
  · intro c hc
    rw [hload] at hc
    by_cases hlen : config.Mappings.length = 0
    · rw [if_pos hlen] at hc
      cases hc
    · rw [if_neg hlen] at hc
      rcases hv : validateMappings config.Mappings 0 with _ | e
      · rw [hv] at hc
        simp only [Except.ok.injEq] at hc
        exact hc.symm
      · rw [hv] at hc
        cases hc
  · intro hnil
    rw [hload, hnil]
    simp
  · intro pre m post hms hpre hm
    rw [hload, hms]
    have hlen : (pre ++ m :: post).length ≠ 0 := by simp
    rw [if_neg hlen, validateMappings_first pre m post 0 hpre hm]
    simp

/-- C8 (witness): the second mapping has no destination, and the error names
index 1 and the field `to`. -/
theorem LoadMapping_validation_witness :
    LoadMapping demoReadFile (fun _ => some demoBadConfig) "mapping.yaml".toList =
      Except.error (Error.toEmpty 1) :=
  (LoadMapping_validation demoReadFile (fun _ => some demoBadConfig) "mapping.yaml".toList
    "doc".toList demoBadConfig rfl rfl).2.2.2
    [⟨"bin/tool".toList, "/usr/local/bin/tool".toList⟩] ⟨"share/x".toList, []⟩
    [⟨[], "~/.x".toList⟩] rfl (by decide) (by decide)

/-! ## The containment test (C3) -/

/-- For rooted paths and a directory other than the root, `isPathWithinDir`
holds exactly when the elements of the cleaned directory are a prefix of the
elements of the cleaned path. -/
theorem isPathWithinDir_iff_components (p d : Path) (hp : IsAbs p = true) (hd : IsAbs d = true)
    (hroot : Clean d ≠ ['/']) :
    isPathWithinDir p d = true ↔ pathComponents (Clean d) <+: pathComponents (Clean p) := by
  obtain ⟨cs, hcs, hpc⟩ := Clean_abs_form p hp
  obtain ⟨ds, hds, hdc⟩ := Clean_abs_form d hd
  have hne : ds ≠ [] := by
    intro h
    apply hroot
    rw [hdc, h]
    rfl
  unfold isPathWithinDir
  simp only [hpc, hdc, Bool.or_eq_true, decide_eq_true_eq]
  rw [absRender_slash_prefix_iff ds cs hds hcs hne, pathComponents_absRender cs hcs,
    pathComponents_absRender ds hds, prefix_iff_eq_or_proper]
  constructor
  · rintro (h | h)
    · exact Or.inr h
    · exact Or.inl (absRender_injective cs ds hcs hds h)
  · rintro (h | h)
    · exact Or.inr (by rw [h])
    · exact Or.inl h

/-- Under the root directory `isPathWithinDir` accepts the root only. -/
theorem isPathWithinDir_root (p d : Path) (hp : IsAbs p = true) (hd : Clean d = ['/']) :
    isPathWithinDir p d = true ↔ Clean p = ['/'] := by
  obtain ⟨cs, hcs, hpc⟩ := Clean_abs_form p hp
  unfold isPathWithinDir
  simp only [hpc, hd, Bool.or_eq_true, decide_eq_true_eq]
  have h := absRender_root_rejects cs hcs
  have e : absRender [] ++ ['/'] = ['/'] ++ ['/'] := rfl
  rw [e] at h
  rw [h]
  simp

/-- C3 (counterexample): `/etc/passwd` lies under the root directory, the
elements of the cleaned root being a prefix of its elements, and yet
`isPathWithinDir` rejects it. -/
theorem isPathWithinDir_rejects_paths_under_root :
    isPathWithinDir "/etc/passwd".toList "/".toList = false ∧
      pathComponents (Clean "/".toList) <+: pathComponents (Clean "/etc/passwd".toList) := by
  decide

/-- C3 (amended): for all absolute paths `p` and `d`, when `d` does not clean
to the root, `isPathWithinDir p d` is true exactly when the path elements of
the cleaned `d` are a prefix of the path elements of the cleaned `p`; when `d`
cleans to the root, it is true exactly when `p` cleans to the root as well. -/
theorem isPathWithinDir_iff_components_unless_root (p d : Path) (hp : IsAbs p = true)
    (hd : IsAbs d = true) :
    (Clean d ≠ ['/'] →
      (isPathWithinDir p d = true ↔ pathComponents (Clean d) <+: pathComponents (Clean p))) ∧
    (Clean d = ['/'] → (isPathWithinDir p d = true ↔ Clean p = ['/'])) :=
  ⟨fun hroot => isPathWithinDir_iff_components p d hp hd hroot,
    fun hroot => isPathWithinDir_root p d hp hroot⟩

/-- C3 (witness): the three examples of the claim under `/home/u`. -/
theorem isPathWithinDir_iff_components_unless_root_witness :
    isPathWithinDir "/home/u/.app".toList "/home/u".toList = true ∧
      isPathWithinDir "/home/u".toList "/home/u".toList = true ∧
      ¬ isPathWithinDir "/home/u2".toList "/home/u".toList = true :=
  ⟨((isPathWithinDir_iff_components_unless_root "/home/u/.app".toList "/home/u".toList
      (by decide) (by decide)).1 (by decide)).2 (by decide),
    ((isPathWithinDir_iff_components_unless_root "/home/u".toList "/home/u".toList
      (by decide) (by decide)).1 (by decide)).2 (by decide),
    fun h => absurd
      (((isPathWithinDir_iff_components_unless_root "/home/u2".toList "/home/u".toList
        (by decide) (by decide)).1 (by decide)).1 h) (by decide)⟩

/-! ## The protected-directory guard (C2, C4) -/

theorem pathComponents_append_slash (h r : Path) :
    pathComponents (h ++ '/' :: r) = pathComponents h ++ pathComponents r := by
  unfold pathComponents
  rw [splitSlash_append, List.filter_append]

/-- The separator-aware string test implies the prefix relation on path
elements, for any two strings. -/
theorem components_prefix_of_HasPrefix (x h : Path) (hx : HasPrefix x (h ++ ['/']) = true) :
    pathComponents h <+: pathComponents x := by
  rw [HasPrefix_iff] at hx
  obtain ⟨r, hr⟩ := hx
  have e : x = h ++ '/' :: r := by
    rw [← hr]
    simp
  rw [e, pathComponents_append_slash]
  exact List.prefix_append _ _

/-- Whenever the guard lets a directory through, the directory is strictly
inside the real home directory and is not the home directory itself. -/
theorem canRemoveDirectory_sound (env : Env) (path : Path)
    (h : canRemoveDirectory env path = true) : strictlyInsideHome env path = true := by
  unfold canRemoveDirectory at h
  unfold strictlyInsideHome
  by_cases hh : getRealHomeDir env = []
  · simp [hh] at h
  · simp only [hh, if_false] at h ⊢
    rcases hp : Abs env (Clean path) with _ | ap
    · simp [hp] at h
    · rcases hhome : Abs env (Clean (getRealHomeDir env)) with _ | ah
      · simp [hp, hhome] at h
      · simp only [hp, hhome] at h ⊢
        by_cases heq : ap = ah
        · simp [heq] at h
        · rw [if_neg heq] at h
          simp only [Bool.and_eq_true, decide_eq_true_eq]
          exact ⟨components_prefix_of_HasPrefix ap ah h, heq⟩

theorem Abs_of_IsAbs (env : Env) (p : Path) (hp : IsAbs p = true) :
    Abs env (Clean p) = some (Clean p) ∧
      ∃ cs, (∀ c ∈ cs, NormalComp c) ∧ Clean p = absRender cs := by
  obtain ⟨cs, hcs, hpc⟩ := Clean_abs_form p hp
  refine ⟨?_, cs, hcs, hpc⟩
  unfold Abs
  rw [IsAbs_Clean p hp, if_pos rfl, hpc, Clean_absRender cs hcs]

/-- What `filepath.Abs` returns is a cleaned rooted path, given that
`os.Getwd` returns a rooted path. -/
theorem Abs_form (env : Env) (p ap : Path)
    (hwd : ∀ wd, env.getwd = some wd → IsAbs wd = true) (h : Abs env p = some ap) :
    ∃ cs, (∀ c ∈ cs, NormalComp c) ∧ ap = absRender cs := by
  unfold Abs at h
  by_cases hp : IsAbs p = true
  · rw [if_pos hp] at h
    cases h
    exact Clean_abs_form p hp
  · rw [if_neg hp] at h
    rcases hg : env.getwd with _ | wd
    · rw [hg] at h
      cases h
    · rw [hg] at h
      simp only [Option.some.injEq] at h
      obtain ⟨t, ht⟩ := (IsAbs_iff wd).1 (hwd wd hg)
      have hj : Join wd p = Clean (('/' :: t) ++ '/' :: p) := by
        rw [ht]
        simp [Join]
      rw [← h, hj]
      exact Clean_abs_form _ ((IsAbs_iff _).2 ⟨t ++ '/' :: p, rfl⟩)

/-- For a home directory that does not resolve to the root, the guard lets
through exactly the directories strictly inside the home directory. -/
theorem canRemoveDirectory_iff_of_not_root (env : Env) (path : Path)
    (hwd : ∀ wd, env.getwd = some wd → IsAbs wd = true)
    (hroot : Abs env (Clean (getRealHomeDir env)) ≠ some ['/']) :
    canRemoveDirectory env path = true ↔ strictlyInsideHome env path = true := by
  constructor
  · exact canRemoveDirectory_sound env path
  · intro h
    unfold strictlyInsideHome at h
    unfold canRemoveDirectory
    by_cases hne : getRealHomeDir env = []
    · simp [hne] at h
    · simp only [hne, if_false] at h ⊢
      rcases hp : Abs env (Clean path) with _ | ap
      · simp [hp] at h
      · rcases hh : Abs env (Clean (getRealHomeDir env)) with _ | ah
        · simp [hp, hh] at h
        · simp only [hp, hh, Bool.and_eq_true, decide_eq_true_eq] at h ⊢
          obtain ⟨hpre, hneq⟩ := h
          rw [if_neg hneq]
          obtain ⟨cs, hcs, hpc⟩ := Abs_form env _ ap hwd hp
          obtain ⟨ds, hds, hdc⟩ := Abs_form env _ ah hwd hh
          have hdne : ds ≠ [] := by
            intro h0
            apply hroot
            rw [hh, hdc, h0]
            rfl
          rw [hpc, hdc, pathComponents_absRender cs hcs, pathComponents_absRender ds hds,
            prefix_iff_eq_or_proper] at hpre
          rw [hpc, hdc, absRender_slash_prefix_iff ds cs hds hcs hdne]
          rcases hpre with h1 | h1
          · exact absurd (by rw [hpc, hdc, h1]) hneq
          · exact h1

/-- When the home directory resolves to the root, the guard lets nothing
through. -/
theorem canRemoveDirectory_of_root (env : Env) (path : Path)
    (hwd : ∀ wd, env.getwd = some wd → IsAbs wd = true)
    (hroot : Abs env (Clean (getRealHomeDir env)) = some ['/']) :
    canRemoveDirectory env path = false := by
  unfold canRemoveDirectory
  by_cases hne : getRealHomeDir env = []
  · simp [hne]
  · simp only [hne, if_false, hroot]
    rcases hp : Abs env (Clean path) with _ | ap
    · rfl
    · simp only
      by_cases heq : ap = ['/']
      · rw [if_pos heq]
      · rw [if_neg heq]
        obtain ⟨cs, hcs, hpc⟩ := Abs_form env _ ap hwd hp
        rw [hpc]
        exact absRender_root_rejects cs hcs

/-- C2 (counterexample): with the home directory `/`, the directory
`/opt/app` is strictly inside the home directory and is not the home
directory, and yet `canRemoveDirectory` is false for it. -/
theorem canRemoveDirectory_false_under_root_home :
    canRemoveDirectory (plainEnv "/") "/opt/app".toList = false ∧
      strictlyInsideHome (plainEnv "/") "/opt/app".toList = true := by
  decide

/-- C2 (amended): with `os.Getwd` returning a rooted path, for every
directory path and every real home directory that does not resolve to the
root, `canRemoveDirectory` is true if and only if the resolved directory is
strictly inside the resolved home directory and is not the home directory
itself; when the home directory resolves to the root, `canRemoveDirectory` is
false for every directory. -/
theorem canRemoveDirectory_iff_strictly_inside_unless_root (env : Env) (path : Path)
    (hwd : ∀ wd, env.getwd = some wd → IsAbs wd = true) :
    (Abs env (Clean (getRealHomeDir env)) ≠ some ['/'] →
      (canRemoveDirectory env path = true ↔ strictlyInsideHome env path = true)) ∧
    (Abs env (Clean (getRealHomeDir env)) = some ['/'] →
      canRemoveDirectory env path = false) :=
  ⟨fun hroot => canRemoveDirectory_iff_of_not_root env path hwd hroot,
    fun hroot => canRemoveDirectory_of_root env path hwd hroot⟩

/-- C2 (witness): the four examples of the claim with the home directory
`/home/u`, and a directory under the home directory `/`. -/
theorem canRemoveDirectory_iff_strictly_inside_unless_root_witness :
    canRemoveDirectory (plainEnv "/home/u") "/home/u/.app/data".toList = true ∧
      ¬ canRemoveDirectory (plainEnv "/home/u") "/home/u".toList = true ∧
      ¬ canRemoveDirectory (plainEnv "/home/u") "/home/u2".toList = true ∧
      ¬ canRemoveDirectory (plainEnv "/home/u") "/etc/app".toList = true ∧
      canRemoveDirectory (plainEnv "/") "/opt/app".toList = false :=
  ⟨((canRemoveDirectory_iff_strictly_inside_unless_root (plainEnv "/home/u")
      "/home/u/.app/data".toList (by decide)).1 (by decide)).2 (by decide),
    fun h => absurd (((canRemoveDirectory_iff_strictly_inside_unless_root (plainEnv "/home/u")
      "/home/u".toList (by decide)).1 (by decide)).1 h) (by decide),
    fun h => absurd (((canRemoveDirectory_iff_strictly_inside_unless_root (plainEnv "/home/u")
      "/home/u2".toList (by decide)).1 (by decide)).1 h) (by decide),
    fun h => absurd (((canRemoveDirectory_iff_strictly_inside_unless_root (plainEnv "/home/u")
      "/etc/app".toList (by decide)).1 (by decide)).1 h) (by decide),
    (canRemoveDirectory_iff_strictly_inside_unless_root (plainEnv "/")
      "/opt/app".toList (by decide)).2 (by decide)⟩

/-- C4: `uninstallPath` calls `os.RemoveAll` only on the expanded destination,
and only when that is a directory strictly inside the real home directory and
not the home directory itself; when the destination is a directory that fails
this test, `uninstallPath` returns success, makes no removal call of any kind
and leaves the world unchanged. -/
theorem uninstallPath_removes_only_inside_home {σ : Type} (env : Env) (ops : RemoveOps σ)
    (s : σ) (mappingPath : Path) :
    (∀ p, RmOp.removeAll p ∈ (uninstallPath env ops s mappingPath).2.2 →
      p = expandPath env mappingPath ∧ strictlyInsideHome env p = true ∧
        ops.stat s p = Except.ok FileKind.dir) ∧
    (ops.stat s (expandPath env mappingPath) = Except.ok FileKind.dir →
      strictlyInsideHome env (expandPath env mappingPath) = false →
      uninstallPath env ops s mappingPath = (none, s, [])) := by
  constructor
  · intro p hp
    unfold uninstallPath at hp
    simp only at hp
    rcases hst : ops.stat s (expandPath env mappingPath) with e | k
    · rw [hst] at hp
      simp only at hp
      split at hp <;> simp at hp
    · rw [hst] at hp
      simp only at hp
      cases k with
      | dir =>
        simp only [if_true] at hp
        unfold uninstallDirectory at hp
        by_cases hc : canRemoveDirectory env (expandPath env mappingPath) = true
        · have hmem : RmOp.removeAll p ∈ [RmOp.removeAll (expandPath env mappingPath)] := by
            rw [hc] at hp
            simp only [Bool.not_true, Bool.false_eq_true, if_false] at hp
            rcases hr : ops.removeAll s (expandPath env mappingPath) with ⟨_ | e, s1⟩
            · rw [hr] at hp
              exact hp
            · rw [hr] at hp
              exact hp
          simp only [List.mem_singleton, RmOp.removeAll.injEq] at hmem
          subst hmem
          exact ⟨rfl, canRemoveDirectory_sound env _ hc, hst⟩
        · have hc2 : canRemoveDirectory env (expandPath env mappingPath) = false := by
            simpa using hc
          rw [hc2] at hp
          simp at hp
      | file =>
        simp only [reduceCtorEq, if_false] at hp
        unfold uninstallFile at hp
        rcases hr : ops.remove s (expandPath env mappingPath) with ⟨_ | e, s1⟩
        · rw [hr] at hp
          simp at hp
        · rw [hr] at hp
          simp at hp
  · intro hst hnot
    have hc : canRemoveDirectory env (expandPath env mappingPath) = false := by
      rcases hcr : canRemoveDirectory env (expandPath env mappingPath) with _ | _
      · rfl
      · have := canRemoveDirectory_sound env _ hcr
        rw [hnot] at this
        cases this
    unfold uninstallPath
    simp only [hst, if_true]
    unfold uninstallDirectory
    rw [hc]
    simp

/-- C4 (witness): `/usr/local/bin` and the home directory are skipped with
success, and a removal under `~/.app` is one strictly inside the home
directory. -/
theorem uninstallPath_removes_only_inside_home_witness :
    uninstallPath (plainEnv "/home/u") demoRemoveOps [] "/usr/local/bin".toList = (none, [], []) ∧
      uninstallPath (plainEnv "/home/u") demoRemoveOps [] "~/".toList = (none, [], []) ∧
      strictlyInsideHome (plainEnv "/home/u") "/home/u/.app".toList = true :=
  ⟨(uninstallPath_removes_only_inside_home (plainEnv "/home/u") demoRemoveOps []
      "/usr/local/bin".toList).2 (by decide) (by decide),
    (uninstallPath_removes_only_inside_home (plainEnv "/home/u") demoRemoveOps []
      "~/".toList).2 (by decide) (by decide),
    ((uninstallPath_removes_only_inside_home (plainEnv "/home/u") demoRemoveOps []
      "~/.app".toList).1 "/home/u/.app".toList (by decide)).2.1⟩

/-! ## The ancestor-chain walk of `fixOwnershipPath` (C10) -/

theorem ownershipWalk_succ {σ : Type} (env : Env)
    (chown : σ → Path → Int → Int → Option OsErr × σ) (homeDir : Path) (uid gid : Int)
    (n : Nat) (s : σ) (current : Path) :
    ownershipWalk env chown homeDir uid gid (n + 1) s current =
      if (chownStep env chown uid gid s current).1 ≠ none ∧
          (chownStep env chown uid gid s current).1 ≠ some OsErr.permission then
        some ((chownStep env chown uid gid s current).1.map Error.os,
          (chownStep env chown uid gid s current).2.1, (chownStep env chown uid gid s current).2.2)
      else if current = homeDir then
        some (none, (chownStep env chown uid gid s current).2.1,
          (chownStep env chown uid gid s current).2.2)
      else if Dir current = current then
        some (none, (chownStep env chown uid gid s current).2.1,
          (chownStep env chown uid gid s current).2.2)
      else
        match ownershipWalk env chown homeDir uid gid n
            (chownStep env chown uid gid s current).2.1 (Dir current) with
        | none => none
        | some r => some (r.1, r.2.1, (chownStep env chown uid gid s current).2.2 ++ r.2.2) := by
  rw [ownershipWalk]
  rcases chownStep env chown uid gid s current with ⟨e, s1, log⟩
  simp only
  split
  · rfl
  · split
    · rfl
    · split
      · rfl
      · rcases ownershipWalk env chown homeDir uid gid n s1 (Dir current) with _ | ⟨r2, s2, log2⟩
        · rfl
        · rfl

theorem chownStep_log {σ : Type} (env : Env) (chown : σ → Path → Int → Int → Option OsErr × σ)
    (uid gid : Int) (s : σ) (current : Path) :
    (chownStep env chown uid gid s current).2.2 = chownCallsFor env uid gid [current] := by
  unfold chownStep chownCallsFor
  by_cases h : isInHomeDirectory env current = true
  · simp [h]
  · have h2 : isInHomeDirectory env current = false := by simpa using h
    simp [h2]

theorem chownStep_err {σ : Type} (env : Env) (chown : σ → Path → Int → Int → Option OsErr × σ)
    (uid gid : Int) (s : σ) (current : Path)
    (hsoft : ∀ s q, (chown s q uid gid).1 = none ∨ (chown s q uid gid).1 = some OsErr.permission) :
    (chownStep env chown uid gid s current).1 = none ∨
      (chownStep env chown uid gid s current).1 = some OsErr.permission := by
  unfold chownStep
  by_cases h : isInHomeDirectory env current = true
  · simp only [h, if_true]
    exact hsoft s current
  · have h2 : isInHomeDirectory env current = false := by simpa using h
    simp [h2]

theorem chownCallsFor_cons (env : Env) (uid gid : Int) (a : Path) (l : List Path) :
    chownCallsFor env uid gid (a :: l) =
      chownCallsFor env uid gid [a] ++ chownCallsFor env uid gid l := by
  unfold chownCallsFor
  by_cases h : isInHomeDirectory env a = true
  · simp [h]
  · have h2 : isInHomeDirectory env a = false := by simpa using h
    simp [h2]

theorem chownCallsFor_eq_nil (env : Env) (uid gid : Int) (l : List Path)
    (h : ∀ q ∈ l, isInHomeDirectory env q = false) : chownCallsFor env uid gid l = [] := by
  unfold chownCallsFor
  rw [List.map_eq_nil_iff, List.filter_eq_nil_iff]
  intro q hq
  simp [h q hq]

theorem mem_chownCallsFor (env : Env) (uid gid : Int) (l : List Path) (c : ChownCall)
    (h : c ∈ chownCallsFor env uid gid l) :
    c.path ∈ l ∧ isInHomeDirectory env c.path = true ∧ c.uid = uid ∧ c.gid = gid := by
  unfold chownCallsFor at h
  rw [List.mem_map] at h
  obtain ⟨q, hq, rfl⟩ := h
  rw [List.mem_filter] at hq
  exact ⟨hq.1, hq.2, rfl, rfl⟩

/-- Every `os.Chown` call of the walk names a path within the home
directory, whatever the start path. -/
theorem ownershipWalk_calls_in_home {σ : Type} (env : Env)
    (chown : σ → Path → Int → Int → Option OsErr × σ) (homeDir : Path) (uid gid : Int)
    (n : Nat) (s : σ) (p : Path) (r : Option Error × σ × List ChownCall)
    (h : ownershipWalk env chown homeDir uid gid n s p = some r) :
    ∀ c ∈ r.2.2, isInHomeDirectory env c.path = true := by
  induction n generalizing s p r with
  | zero => simp [ownershipWalk] at h
  | succ n ih =>
    rw [ownershipWalk_succ] at h
    have hlog : ∀ c ∈ (chownStep env chown uid gid s p).2.2,
        isInHomeDirectory env c.path = true := by
      intro c hc
      rw [chownStep_log] at hc
      exact (mem_chownCallsFor env uid gid _ c hc).2.1
    split at h
    · cases h
      exact hlog
    · split at h
      · cases h
        exact hlog
      · split at h
        · cases h
          exact hlog
        · rcases hrec : ownershipWalk env chown homeDir uid gid n
            (chownStep env chown uid gid s p).2.1 (Dir p) with _ | r2
          · rw [hrec] at h
            cases h
          · rw [hrec] at h
            cases h
            intro c hc
            rcases List.mem_append.1 hc with hc | hc
            · exact hlog c hc
            · exact ih _ _ r2 hrec c hc

theorem ownershipWalk_of_fix {σ : Type} (env : Env)
    (chown : σ → Path → Int → Int → Option OsErr × σ) (homeDir : Path) (uid gid : Int)
    (n : Nat) (s : σ) (p : Path) (h : Dir p = p) :
    ∃ r, ownershipWalk env chown homeDir uid gid (n + 1) s p = some r := by
  rw [ownershipWalk_succ]
  by_cases h1 : (chownStep env chown uid gid s p).1 ≠ none ∧
      (chownStep env chown uid gid s p).1 ≠ some OsErr.permission
  · rw [if_pos h1]
    exact ⟨_, rfl⟩
  · rw [if_neg h1]
    by_cases h2 : p = homeDir
    · rw [if_pos h2]
      exact ⟨_, rfl⟩
    · rw [if_neg h2, if_pos h]
      exact ⟨_, rfl⟩

theorem ownershipWalk_of_rec {σ : Type} (env : Env)
    (chown : σ → Path → Int → Int → Option OsErr × σ) (homeDir : Path) (uid gid : Int)
    (n : Nat) (s : σ) (p : Path)
    (h : ∃ r, ownershipWalk env chown homeDir uid gid n
      (chownStep env chown uid gid s p).2.1 (Dir p) = some r) :
    ∃ r, ownershipWalk env chown homeDir uid gid (n + 1) s p = some r := by
  obtain ⟨r, hr⟩ := h
  rw [ownershipWalk_succ]
  by_cases h1 : (chownStep env chown uid gid s p).1 ≠ none ∧
      (chownStep env chown uid gid s p).1 ≠ some OsErr.permission
  · rw [if_pos h1]
    exact ⟨_, rfl⟩
  · rw [if_neg h1]
    by_cases h2 : p = homeDir
    · rw [if_pos h2]
      exact ⟨_, rfl⟩
    · rw [if_neg h2]
      by_cases h3 : Dir p = p
      · rw [if_pos h3]
        exact ⟨_, rfl⟩
      · rw [if_neg h3, hr]
        exact ⟨_, rfl⟩

/-- The walk ends within the bound for every start path: a path of length at
most `n` needs at most `n + 2` iterations. -/
theorem ownershipWalk_terminates {σ : Type} (env : Env)
    (chown : σ → Path → Int → Int → Option OsErr × σ) (homeDir : Path) (uid gid : Int)
    (n : Nat) (s : σ) (p : Path) (hp : p.length ≤ n) :
    ∃ r, ownershipWalk env chown homeDir uid gid (n + 2) s p = some r := by
  induction n generalizing s p with
  | zero =>
    have hnil : p = [] := List.length_eq_zero.1 (Nat.le_zero.1 hp)
    have hd : Dir p = ['.'] := by rw [hnil]; decide
    apply ownershipWalk_of_rec
    rw [hd]
    exact ownershipWalk_of_fix env chown homeDir uid gid 0 _ ['.'] Dir_dot
  | succ n ih =>
    rcases Dir_cases p with h | h | h
    · exact ownershipWalk_of_fix env chown homeDir uid gid _ s p h
    · apply ownershipWalk_of_rec
      rw [h]
      exact ownershipWalk_of_fix env chown homeDir uid gid _ _ ['.'] Dir_dot
    · apply ownershipWalk_of_rec
      exact ih _ (Dir p) (by omega)

theorem Abs_absRender (env : Env) (cs : List Path) (hcs : ∀ c ∈ cs, NormalComp c) :
    Abs env (Clean (absRender cs)) = some (absRender cs) := by
  have h := (Abs_of_IsAbs env (absRender cs) (IsAbs_absRender cs)).1
  rw [Clean_absRender cs hcs] at h
  rw [Clean_absRender cs hcs]
  exact h

/-- Membership in the home directory of a cleaned rooted path, spelled out. -/
theorem isInHomeDirectory_absRender (env : Env) (cs : List Path)
    (hcs : ∀ c ∈ cs, NormalComp c) :
    isInHomeDirectory env (absRender cs) = true ↔
      getRealHomeDir env ≠ [] ∧ ∃ cleanHome,
        Abs env (Clean (getRealHomeDir env)) = some cleanHome ∧
        (cleanHome ++ ['/'] <+: absRender cs ∨ absRender cs = cleanHome) := by
  unfold isInHomeDirectory
  by_cases hh : getRealHomeDir env = []
  · simp [hh]
  · simp only [hh, if_false, Abs_absRender env cs hcs, ne_eq, not_false_eq_true, true_and]
    rcases Abs env (Clean (getRealHomeDir env)) with _ | ah
    · simp
    · simp [HasPrefix_iff]

theorem mem_chainRev (rs : List Path) (q : Path) :
    q ∈ chainRev rs ↔ ∃ t, t <:+ rs ∧ q = absRender t.reverse := by
  induction rs with
  | nil =>
    simp only [chainRev, List.mem_singleton, List.suffix_nil]
    constructor
    · rintro rfl
      exact ⟨[], rfl, rfl⟩
    · rintro ⟨t, rfl, h⟩
      exact h
  | cons c rs ih =>
    rw [chainRev, List.mem_cons, ih]
    constructor
    · rintro (h | ⟨t, ht, h⟩)
      · exact ⟨c :: rs, List.suffix_refl _, h⟩
      · exact ⟨t, ht.trans (List.suffix_cons c rs), h⟩
    · rintro ⟨t, ht, h⟩
      rcases List.suffix_cons_iff.1 ht with rfl | ht
      · exact Or.inl h
      · exact Or.inr ⟨t, ht, h⟩

/-- When the walk has reached the home directory, none of the ancestors still
ahead is within the home directory. -/
theorem not_in_home_above_home (env : Env) (c : Path) (rs : List Path)
    (hrs : ∀ x ∈ c :: rs, NormalComp x)
    (hhome : absRender (c :: rs).reverse = getRealHomeDir env) :
    ∀ q ∈ chainRev rs, isInHomeDirectory env q = false := by
  intro q hq
  obtain ⟨t, ht, rfl⟩ := (mem_chainRev rs q).1 hq
  have hcs : ∀ x ∈ (c :: rs).reverse, NormalComp x := fun x hx =>
    hrs x (List.mem_reverse.1 hx)
  have hts : ∀ x ∈ t.reverse, NormalComp x := fun x hx =>
    hrs x (List.mem_cons_of_mem _ (ht.subset (List.mem_reverse.1 hx)))
  have hlen : t.reverse.length < (c :: rs).reverse.length := by
    have := ht.length_le
    simp only [List.length_reverse, List.length_cons]
    omega
  rw [Bool.eq_false_iff]
  intro hin
  obtain ⟨_, ah, hah, hcase⟩ := (isInHomeDirectory_absRender env t.reverse hts).1 hin
  rw [← hhome, Abs_absRender env _ hcs] at hah
  cases hah
  rcases hcase with h | h
  · have h2 := (absRender_slash_prefix_iff (c :: rs).reverse t.reverse hcs hts (by simp)).1
      ((HasPrefix_iff _ _).2 h)
    obtain ⟨e, es, he⟩ := h2
    rw [he] at hlen
    simp only [List.length_append, List.length_cons] at hlen
    omega
  · have h2 := absRender_injective _ _ hts hcs h
    rw [h2] at hlen
    omega

theorem absRender_extends (ds t : List Path) (hne : ds ≠ []) :
    absRender ds <+: absRender (ds ++ t) := by
  rw [absRender, if_neg hne, absRender, if_neg (by simp [hne]), joinAbs_append]
  exact List.prefix_append _ _

/-- Membership in the home directory passes from an ancestor to a descendant,
unless the home directory resolves to the root. -/
theorem in_home_of_ancestor_in_home (env : Env) (ds t : List Path)
    (hds : ∀ x ∈ ds, NormalComp x) (hcs : ∀ x ∈ ds ++ t, NormalComp x)
    (hroot : Abs env (Clean (getRealHomeDir env)) ≠ some ['/'])
    (h : isInHomeDirectory env (absRender ds) = true) :
    isInHomeDirectory env (absRender (ds ++ t)) = true := by
  obtain ⟨hne, ah, hah, hcase⟩ := (isInHomeDirectory_absRender env ds hds).1 h
  rw [isInHomeDirectory_absRender env (ds ++ t) hcs]
  refine ⟨hne, ah, hah, ?_⟩
  cases t with
  | nil => simpa using hcase
  | cons e es =>
    left
    by_cases hd : ds = []
    · subst hd
      rcases hcase with h1 | h1
      · have hl := h1.length_le
        simp only [List.length_append, List.length_singleton, absRender, if_true] at hl
        have : ah = [] := List.length_eq_zero.1 (by omega)
        subst this
        obtain ⟨x, hx⟩ := absRender_head ([] ++ e :: es)
        rw [hx]
        simp
      · exfalso
        apply hroot
        rw [hah, ← h1]
        rfl
    · rcases hcase with h1 | h1
      · exact h1.trans (absRender_extends ds (e :: es) hd)
      · rw [← h1, ← HasPrefix_iff]
        exact (absRender_slash_prefix_iff ds (ds ++ e :: es) hds hcs hd).2 ⟨e, es, rfl⟩

/-- The walk from a cleaned rooted path, given by its elements last element
first: it ends, the `os.Chown` calls it makes are a prefix of the calls on those
members of the ancestor chain that are within the home directory, and they are
all of these calls when no `os.Chown` fails with an error other than a
permission error. -/
theorem ownershipWalk_chain {σ : Type} (env : Env)
    (chown : σ → Path → Int → Int → Option OsErr × σ) (uid gid : Int) (rs : List Path)
    (hrs : ∀ c ∈ rs, NormalComp c) :
    ∀ (fuel : Nat) (s : σ), rs.length + 1 ≤ fuel →
      ∃ r s1 calls,
        ownershipWalk env chown (getRealHomeDir env) uid gid fuel s (absRender rs.reverse) =
          some (r, s1, calls) ∧
        calls <+: chownCallsFor env uid gid (chainRev rs) ∧
        ((∀ s q, (chown s q uid gid).1 = none ∨ (chown s q uid gid).1 = some OsErr.permission) →
          r = none ∧ calls = chownCallsFor env uid gid (chainRev rs)) := by
  induction rs with
  | nil =>
    intro fuel s hfuel
    obtain ⟨n, rfl⟩ : ∃ n, fuel = n + 1 := ⟨fuel - 1, by omega⟩
    have hcur : absRender ([] : List Path).reverse = ['/'] := rfl
    rw [hcur, ownershipWalk_succ]
    have hchain : chownCallsFor env uid gid (chainRev []) =
        (chownStep env chown uid gid s ['/']).2.2 := by
      rw [chownStep_log]
      rfl
    by_cases h1 : (chownStep env chown uid gid s ['/']).1 ≠ none ∧
        (chownStep env chown uid gid s ['/']).1 ≠ some OsErr.permission
    · rw [if_pos h1]
      refine ⟨_, _, _, rfl, by rw [hchain], ?_⟩
      intro hsoft
      rcases chownStep_err env chown uid gid s ['/'] hsoft with h | h
      · exact absurd h h1.1
      · exact absurd h h1.2
    · rw [if_neg h1]
      by_cases h2 : ['/'] = getRealHomeDir env
      · rw [if_pos h2]
        exact ⟨_, _, _, rfl, by rw [hchain], fun _ => ⟨rfl, hchain.symm⟩⟩
      · rw [if_neg h2, if_pos Dir_root]
        exact ⟨_, _, _, rfl, by rw [hchain], fun _ => ⟨rfl, hchain.symm⟩⟩
  | cons c rs ih =>
    intro fuel s hfuel
    obtain ⟨n, rfl⟩ : ∃ n, fuel = n + 1 := ⟨fuel - 1, by omega⟩
    have hn : rs.length + 1 ≤ n := by
      simp only [List.length_cons] at hfuel
      omega
    have hrs2 : ∀ x ∈ rs, NormalComp x := fun x hx => hrs x (List.mem_cons_of_mem _ hx)
    have hrev : ∀ x ∈ rs.reverse, NormalComp x := fun x hx => hrs2 x (List.mem_reverse.1 hx)
    have hdir : Dir (absRender (c :: rs).reverse) = absRender rs.reverse := by
      rw [List.reverse_cons]
      exact Dir_absRender_snoc rs.reverse c hrev (hrs c (List.mem_cons_self _ _))
    have hneq : Dir (absRender (c :: rs).reverse) ≠ absRender (c :: rs).reverse := by
      rw [hdir]
      intro heq
      have := absRender_injective _ _ hrev
        (fun x hx => hrs x (List.mem_reverse.1 hx)) heq
      have hl := congrArg List.length this
      simp at hl
    have hchain : chownCallsFor env uid gid (chainRev (c :: rs)) =
        (chownStep env chown uid gid s (absRender (c :: rs).reverse)).2.2 ++
          chownCallsFor env uid gid (chainRev rs) := by
      rw [chownStep_log, chainRev, chownCallsFor_cons]
    rw [ownershipWalk_succ]
    by_cases h1 : (chownStep env chown uid gid s (absRender (c :: rs).reverse)).1 ≠ none ∧
        (chownStep env chown uid gid s (absRender (c :: rs).reverse)).1 ≠ some OsErr.permission
    · rw [if_pos h1]
      refine ⟨_, _, _, rfl, by rw [hchain]; exact List.prefix_append _ _, ?_⟩
      intro hsoft
      rcases chownStep_err env chown uid gid s _ hsoft with h | h
      · exact absurd h h1.1
      · exact absurd h h1.2
    · rw [if_neg h1]
      by_cases h2 : absRender (c :: rs).reverse = getRealHomeDir env
      · rw [if_pos h2]
        refine ⟨_, _, _, rfl, by rw [hchain]; exact List.prefix_append _ _, ?_⟩
        intro _
        refine ⟨rfl, ?_⟩
        rw [hchain, chownCallsFor_eq_nil env uid gid (chainRev rs)
          (not_in_home_above_home env c rs hrs h2)]
        simp
      · rw [if_neg h2, if_neg hneq, hdir]
        obtain ⟨r, s1, calls, hwalk, hpre, hall⟩ :=
          ih hrs2 n (chownStep env chown uid gid s (absRender (c :: rs).reverse)).2.1 hn
        rw [hwalk]
        refine ⟨r, s1, _, rfl, ?_, ?_⟩
        · rw [hchain]
          exact (List.prefix_append_right_inj _).2 hpre
        · intro hsoft
          obtain ⟨hr, hc⟩ := hall hsoft
          exact ⟨hr, by rw [hchain, hc]⟩

theorem length_le_weight (cs : List Path) : cs.length ≤ weight cs := by
  induction cs with
  | nil => simp [weight]
  | cons c cs ih =>
    rw [weight_cons]
    simp only [List.length_cons]
    omega

theorem length_le_length_absRender (cs : List Path) : cs.length ≤ (absRender cs).length := by
  unfold absRender
  split
  · rename_i h
    simp [h]
  · rw [length_joinAbs]
    exact length_le_weight cs

/-! ## Cleaned relative paths -/

theorem normal_relComp {c : Path} (h : NormalComp c) : RelComp c := ⟨h.1, h.2.1, h.2.2.1⟩

theorem dotdot_relComp : RelComp ['.', '.'] := by
  refine ⟨by simp, by decide, by simp⟩

theorem RelForm_relComp {cs : List Path} (h : RelForm cs) : ∀ c ∈ cs, RelComp c := by
  obtain ⟨k, n, rfl, hn⟩ := h
  intro c hc
  rcases List.mem_append.1 hc with hc | hc
  · rw [List.eq_of_mem_replicate hc]
    exact dotdot_relComp
  · exact normal_relComp (hn c hc)

theorem RelForm_nil : RelForm [] := ⟨0, [], rfl, by simp⟩

/-- A prefix of a cleaned element list is a cleaned element list. -/
theorem RelForm_of_append {a b : List Path} (h : RelForm (a ++ b)) : RelForm a := by
  obtain ⟨k, n, hkn, hn⟩ := h
  rcases List.append_eq_append_iff.1 hkn with ⟨t, h1, h2⟩ | ⟨t, h1, h2⟩
  · have hrep : a = List.replicate a.length ['.', '.'] := by
      apply List.eq_replicate_iff.2
      refine ⟨rfl, ?_⟩
      intro c hc
      have : c ∈ List.replicate k ['.', '.'] := by
        rw [h1]
        exact List.mem_append_left _ hc
      exact List.eq_of_mem_replicate this
    exact ⟨a.length, [], by simpa using hrep, by simp⟩
  · refine ⟨k, t, h1, ?_⟩
    intro c hc
    exact hn c (by rw [h2]; exact List.mem_append_left _ hc)

/-- The stack of the clean-up of a relative path holds normal elements on top
of `..` elements. -/
theorem cleanStep_false_form (st : List Path) (c : Path) (hc : '/' ∉ c)
    (hst : RelForm st.reverse) : RelForm (cleanStep false st c).reverse := by
  unfold cleanStep
  split
  · exact hst
  · rename_i h1
    split
    · rename_i h2
      cases st with
      | nil =>
        simp only [Bool.false_eq_true, if_false]
        exact ⟨1, [], by simp [h2], by simp⟩
      | cons t rest =>
        simp only
        split
        · rename_i ht
          obtain ⟨k, n, hkn, hn⟩ := hst
          have hnnil : n = [] := by
            rcases List.eq_nil_or_concat n with h | ⟨n2, x, h⟩
            · exact h
            · exfalso
              rw [h, List.concat_eq_append, List.reverse_cons, ← List.append_assoc] at hkn
              have := List.append_inj_right' hkn (by simp)
              simp only [List.cons.injEq, and_true] at this
              have hx := hn x (by rw [h]; simp)
              exact hx.2.2.2 (by rw [← this, ht])
          subst hnnil
          refine ⟨k + 1, [], ?_, by simp⟩
          rw [List.reverse_cons, hkn, h2]
          simp [List.replicate_succ']
        · rename_i ht
          obtain ⟨k, n, hkn, hn⟩ := hst
          rcases List.eq_nil_or_concat n with h | ⟨n2, x, h⟩
          · exfalso
            subst h
            rw [List.append_nil, List.reverse_cons] at hkn
            have hmem : t ∈ List.replicate k ['.', '.'] := by
              rw [← hkn]
              simp
            exact ht (List.eq_of_mem_replicate hmem)
          · rw [h, List.concat_eq_append, List.reverse_cons, ← List.append_assoc] at hkn
            have := List.append_inj_left' hkn (by simp)
            exact ⟨k, n2, this, fun c hc => hn c (by rw [h]; simp [hc])⟩
    · rename_i h2
      obtain ⟨k, n, hkn, hn⟩ := hst
      refine ⟨k, n ++ [c], ?_, ?_⟩
      · rw [List.reverse_cons, hkn, List.append_assoc]
      · intro x hx
        rcases List.mem_append.1 hx with hx | hx
        · exact hn x hx
        · rw [List.mem_singleton] at hx
          subst hx
          exact ⟨fun h => h1 (Or.inl h), hc, fun h => h1 (Or.inr h), h2⟩

theorem foldl_cleanStep_false_form (cs st : List Path) (hcs : ∀ c ∈ cs, '/' ∉ c)
    (hst : RelForm st.reverse) : RelForm (cs.foldl (cleanStep false) st).reverse := by
  induction cs generalizing st with
  | nil => simpa using hst
  | cons c cs ih =>
    rw [List.foldl_cons]
    exact ih _ (fun x hx => hcs x (List.mem_cons_of_mem _ hx))
      (cleanStep_false_form st c (hcs c (List.mem_cons_self _ _)) hst)

theorem cleanComps_false_form (s : Path) : RelForm (cleanComps false (splitSlash s)) := by
  unfold cleanComps
  exact foldl_cleanStep_false_form _ [] (splitSlash_noSlash s) (by simpa using RelForm_nil)

theorem foldl_cleanStep_dotdots (k : Nat) (j : Nat) :
    (List.replicate k ['.', '.']).foldl (cleanStep false) (List.replicate j ['.', '.']) =
      List.replicate (j + k) ['.', '.'] := by
  induction k generalizing j with
  | zero => simp
  | succ k ih =>
    rw [List.replicate_succ, List.foldl_cons]
    have hstep : cleanStep false (List.replicate j ['.', '.']) ['.', '.'] =
        List.replicate (j + 1) ['.', '.'] := by
      cases j with
      | zero => simp [cleanStep]
      | succ j => simp [cleanStep, List.replicate_succ]
    rw [hstep, ih]
    congr 1
    omega

/-- The clean-up leaves a cleaned relative element list unchanged. -/
theorem cleanComps_false_of_form (cs : List Path) (h : RelForm cs) :
    cleanComps false cs = cs := by
  obtain ⟨k, n, rfl, hn⟩ := h
  unfold cleanComps
  have h0 := foldl_cleanStep_dotdots k 0
  simp only [List.replicate_zero, Nat.zero_add] at h0
  rw [List.foldl_append, h0, foldl_cleanStep_normal false n _ hn]
  simp

theorem relRender_head (cs : List Path) (h : ∀ c ∈ cs, RelComp c) :
    ∃ a t, relRender cs = a :: t ∧ a ≠ '/' := by
  cases cs with
  | nil => exact ⟨'.', [], rfl, by decide⟩
  | cons c cs =>
    obtain ⟨hne, hslash, _⟩ := h c (List.mem_cons_self _ _)
    cases c with
    | nil => exact absurd rfl hne
    | cons a c =>
      refine ⟨a, c ++ joinAbs cs, by simp [relRender, joinAbs], ?_⟩
      intro ha
      exact hslash (by simp [ha])

theorem relRender_cons (c : Path) (cs : List Path) : relRender (c :: cs) = c ++ joinAbs cs := by
  simp [relRender, joinAbs]

theorem Clean_of_not_IsAbs (a : Char) (t : Path) (ha : a ≠ '/') :
    Clean (a :: t) = relRender (cleanComps false (splitSlash (a :: t))) := by
  simp [Clean, ha]

/-- Cleaning is the identity on a rendered cleaned relative element list, with
or without a trailing separator. -/
theorem Clean_relRender (cs : List Path) (h : RelForm cs) :
    Clean (relRender cs) = relRender cs ∧
      (cs ≠ [] → Clean (relRender cs ++ ['/']) = relRender cs) := by
  have hrc := RelForm_relComp h
  have hns : ∀ c ∈ cs, '/' ∉ c := fun c hc => (hrc c hc).2.1
  cases cs with
  | nil =>
    refine ⟨by decide, fun h => absurd rfl h⟩
  | cons c cs =>
    obtain ⟨a, t, hat, ha⟩ := relRender_head (c :: cs) hrc
    have hc := hns c (List.mem_cons_self _ _)
    have hcs : ∀ x ∈ cs, '/' ∉ x := fun x hx => hns x (List.mem_cons_of_mem _ hx)
    constructor
    · rw [hat, Clean_of_not_IsAbs a t ha, ← hat, relRender_cons,
        splitSlash_append_joinAbs c cs hc hcs, cleanComps_false_of_form _ h, relRender_cons]
    · intro _
      have e : relRender (c :: cs) ++ ['/'] = a :: (t ++ ['/']) := by rw [hat]; rfl
      rw [e, Clean_of_not_IsAbs a _ ha, ← e, relRender_cons, List.append_assoc,
        splitSlash_append_joinAbs_slash c cs hc hcs, ← List.cons_append,
        cleanComps_append_empty, cleanComps_false_of_form _ h, relRender_cons]

/-- Every cleaned path is the rendering of a cleaned element list: rooted
with normal elements, or relative. -/
theorem Clean_form (s : Path) :
    (∃ cs, (∀ c ∈ cs, NormalComp c) ∧ Clean s = absRender cs) ∨
      (∃ cs, RelForm cs ∧ Clean s = relRender cs) := by
  cases s with
  | nil => exact Or.inr ⟨[], RelForm_nil, rfl⟩
  | cons a t =>
    by_cases ha : a = '/'
    · subst ha
      exact Or.inl (Clean_abs_form _ ((IsAbs_iff _).2 ⟨t, rfl⟩))
    · exact Or.inr ⟨_, cleanComps_false_form _, Clean_of_not_IsAbs a t ha⟩

/-- `filepath.Clean` is idempotent. -/
theorem Clean_idem (s : Path) : Clean (Clean s) = Clean s := by
  rcases Clean_form s with ⟨cs, hcs, h⟩ | ⟨cs, hcs, h⟩
  · rw [h, Clean_absRender cs hcs]
  · rw [h, (Clean_relRender cs hcs).1]

/-- The parent of a cleaned relative path: its last element is dropped. -/
theorem Dir_relRender_snoc (cs : List Path) (c : Path) (h : RelForm (cs ++ [c])) :
    Dir (relRender (cs ++ [c])) = relRender cs := by
  have hrc := RelForm_relComp h
  have hc : '/' ∉ c := (hrc c (by simp)).2.1
  unfold Dir
  cases cs with
  | nil =>
    have e : relRender ([] ++ [c]) = c := by simp [relRender, joinAbs]
    rw [e, lastSlashPrefix_noSlash c hc]
    rfl
  | cons d ds =>
    have e : relRender ((d :: ds) ++ [c]) = relRender (d :: ds) ++ '/' :: c := by
      rw [List.cons_append, relRender_cons, relRender_cons, joinAbs_append]
      simp [joinAbs]
    rw [e, lastSlashPrefix_append _ _ hc]
    exact (Clean_relRender (d :: ds) (RelForm_of_append h)).2 (by simp)

/-- The separator-aware prefix test on cleaned relative paths. -/
theorem relRender_slash_prefix_iff (hs cs : List Path) (hhs : ∀ c ∈ hs, RelComp c)
    (hcs : ∀ c ∈ cs, RelComp c) (hne : hs ≠ []) :
    HasPrefix (relRender cs) (relRender hs ++ ['/']) = true ↔ ∃ e es, cs = hs ++ e :: es := by
  rw [HasPrefix_iff]
  cases hs with
  | nil => exact absurd rfl hne
  | cons h hs =>
    cases cs with
    | nil =>
      constructor
      · intro hp
        have hl := hp.length_le
        have h1 : h ≠ [] := (hhs h (List.mem_cons_self _ _)).1
        have : 0 < h.length := List.length_pos.2 h1
        rw [relRender_cons] at hl
        have hl2 : (relRender ([] : List Path)).length = 1 := rfl
        simp only [List.length_append, List.length_singleton, hl2] at hl
        omega
      · rintro ⟨e, es, h⟩
        simp at h
    | cons c cs =>
      have key := joinAbs_slash_prefix_iff (h :: hs) (c :: cs) (fun x hx => (hhs x hx).2.1)
        (fun x hx => (hcs x hx).2.1)
      rw [← key, relRender_cons, relRender_cons]
      simp [joinAbs, List.cons_prefix_cons]

theorem snoc_of_proper_extension {α : Type} (hs : List α) (e : α) (es : List α) :
    ∃ mid last, hs ++ e :: es = (hs ++ mid) ++ [last] := by
  rcases List.eq_nil_or_concat (e :: es) with h | ⟨mid, last, h⟩
  · cases h
  · exact ⟨mid, last, by rw [h, List.concat_eq_append, List.append_assoc]⟩

/-- The parent of a cleaned path that lies strictly under a cleaned directory
is the directory or lies under it. -/
theorem Dir_under (t d : Path) (h : HasPrefix (Clean t) (Clean d ++ ['/']) = true) :
    HasPrefix (Dir (Clean t)) (Clean d ++ ['/']) = true ∨ Dir (Clean t) = Clean d := by
  rcases Clean_form t with ⟨cs, hcs, ht⟩ | ⟨cs, hcs, ht⟩
  · rcases Clean_form d with ⟨hs, hhs, hd⟩ | ⟨hs, hhs, hd⟩
    · rw [ht, hd] at h ⊢
      by_cases hne : hs = []
      · subst hne
        rw [absRender_root_rejects cs hcs] at h
        cases h
      · obtain ⟨e, es, hces⟩ := (absRender_slash_prefix_iff hs cs hhs hcs hne).1 h
        obtain ⟨mid, last, hml⟩ := snoc_of_proper_extension hs e es
        rw [hml] at hces
        subst hces
        have hmidn : ∀ x ∈ hs ++ mid, NormalComp x := fun x hx =>
          hcs x (List.mem_append_left _ hx)
        rw [Dir_absRender_snoc (hs ++ mid) last hmidn (hcs last (by simp))]
        cases mid with
        | nil => exact Or.inr (by simp)
        | cons m ms =>
          exact Or.inl ((absRender_slash_prefix_iff hs _ hhs hmidn hne).2 ⟨m, ms, rfl⟩)
    · exfalso
      obtain ⟨a, u, hau, ha⟩ := relRender_head hs (RelForm_relComp hhs)
      obtain ⟨v, hv⟩ := absRender_head cs
      rw [ht, hd, hau, hv, HasPrefix_iff] at h
      have := (List.cons_prefix_cons.1 (by simpa using h)).1
      exact ha this
  · have hrc := RelForm_relComp hcs
    rcases Clean_form d with ⟨hs, hhs, hd⟩ | ⟨hs, hhs, hd⟩
    · exfalso
      obtain ⟨a, u, hau, ha⟩ := relRender_head cs hrc
      obtain ⟨v, hv⟩ := absRender_head hs
      rw [ht, hd, hau, hv, HasPrefix_iff] at h
      have := (List.cons_prefix_cons.1 (by simpa using h)).1
      exact ha this.symm
    · rw [ht, hd] at h ⊢
      have hhrc := RelForm_relComp hhs
      by_cases hne : hs = []
      · exfalso
        subst hne
        rw [HasPrefix_iff] at h
        cases cs with
        | nil =>
          have hl := h.length_le
          simp [relRender] at hl
        | cons c cs =>
          have hc := hrc c (List.mem_cons_self _ _)
          rw [relRender_cons] at h
          have h2 : ['.'] ++ '/' :: [] <+: c ++ joinAbs cs := by simpa [relRender] using h
          have := (comp_prefix_iff ['.'] c [] (joinAbs cs) (by decide) hc.2.1
            (joinAbs_nil_or_slash cs)).1 h2
          exact hc.2.2 this.1.symm
      · obtain ⟨e, es, hces⟩ := (relRender_slash_prefix_iff hs cs hhrc hrc hne).1 h
        obtain ⟨mid, last, hml⟩ := snoc_of_proper_extension hs e es
        rw [hml] at hces
        subst hces
        rw [Dir_relRender_snoc (hs ++ mid) last hcs]
        cases mid with
        | nil => exact Or.inr (by simp)
        | cons m ms =>
          have hmid : ∀ x ∈ hs ++ m :: ms, RelComp x := fun x hx =>
            hrc x (List.mem_append_left _ hx)
          exact Or.inl ((relRender_slash_prefix_iff hs _ hhrc hmid hne).2 ⟨m, ms, rfl⟩)

theorem Join_cases (a b : Path) : (Join a b = [] ∧ a = []) ∨ ∃ x, Join a b = Clean x := by
  unfold Join
  by_cases ha : a = []
  · by_cases hb : b = []
    · left
      simp [ha, hb]
    · right
      exact ⟨b, by simp [ha, hb]⟩
  · right
    exact ⟨a ++ '/' :: b, by simp [ha]⟩

/-- The parent directory that `extractRegularFile` creates for a target within
the destination directory is within the destination directory, or it is the
parent of the destination directory itself (when the target is the destination
directory). -/
theorem Dir_target_within (destDir name : Path)
    (h : isPathWithinDir (Join destDir name) destDir = true) :
    isPathWithinDir (Dir (Join destDir name)) destDir = true ∨
      Dir (Join destDir name) = Dir (Clean destDir) := by
  rcases Join_cases destDir name with ⟨hj, hd⟩ | ⟨x, hx⟩
  · right
    rw [hj, hd]
    decide
  · rw [hx] at h ⊢
    unfold isPathWithinDir at h ⊢
    simp only [Clean_idem, Bool.or_eq_true, decide_eq_true_eq] at h
    have hdir : Clean (Dir (Clean x)) = Dir (Clean x) := by
      unfold Dir
      exact Clean_idem _
    simp only [hdir, Bool.or_eq_true, decide_eq_true_eq]
    rcases h with h | h
    · exact Or.inl (Dir_under x destDir h)
    · right
      rw [h]

/-! ## Extraction and the destination directory (C1) -/

theorem extractRegularFile_log {σ : Type} (ops : ExtractOps σ) (s : σ) (header : Header)
    (target : Path) :
    ∀ op ∈ (extractRegularFile ops s header target).2.2,
      op = FsOp.mkdirAll (Dir target) 493 ∨ op = FsOp.openFile target (fileMode header.Mode) ∨
        op = FsOp.copy target := by
  intro op hop
  unfold extractRegularFile at hop
  rcases h1 : ops.mkdirAll s (Dir target) 493 with ⟨_ | e1, s1⟩
  · rw [h1] at hop
    simp only at hop
    rcases h2 : ops.openFile s1 target (fileMode header.Mode) with ⟨_ | e2, s2⟩
    · rw [h2] at hop
      simp only [List.mem_cons, List.mem_singleton, List.not_mem_nil, or_false] at hop
      exact hop
    · rw [h2] at hop
      simp only [List.mem_cons, List.mem_singleton, List.not_mem_nil, or_false] at hop
      rcases hop with h | h
      · exact Or.inl h
      · exact Or.inr (Or.inl h)
  · rw [h1] at hop
    simp only [List.mem_singleton] at hop
    exact Or.inl hop

theorem extractEntries_stop {σ : Type} (ops : ExtractOps σ) (destDir : Path) (truncated : Bool)
    (pre : List Header) (e : Header) (post : List Header) (s : σ)
    (hpre : ∀ x ∈ pre, isPathWithinDir (Join destDir x.Name) destDir = true)
    (he : isPathWithinDir (Join destDir e.Name) destDir = false) :
    extractEntries ops destDir truncated s (pre ++ e :: post) =
      (some (Error.invalidFilePath e.Name), (extractEntries ops destDir false s pre).2.1,
        (extractEntries ops destDir false s pre).2.2) := by
  induction pre generalizing s with
  | nil => simp [extractEntries, he]
  | cons x xs ih =>
    have hx := hpre x (List.mem_cons_self _ _)
    have hxs : ∀ y ∈ xs, isPathWithinDir (Join destDir y.Name) destDir = true :=
      fun y hy => hpre y (List.mem_cons_of_mem _ hy)
    rw [List.cons_append]
    simp only [extractEntries, hx, Bool.not_true, Bool.false_eq_true, if_false]
    cases x.Typeflag with
    | dir => simp only [ih _ hxs]
    | reg => simp only [ih _ hxs]
    | other => simp only [ih _ hxs]

theorem extractEntries_log_within {σ : Type} (ops : ExtractOps σ) (destDir : Path)
    (truncated : Bool) (entries : List Header) (s : σ) :
    ∀ op ∈ (extractEntries ops destDir truncated s entries).2.2,
      isPathWithinDir op.path destDir = true ∨ op = FsOp.mkdirAll (Dir (Clean destDir)) 493 := by
  induction entries generalizing s with
  | nil => simp [extractEntries]
  | cons x xs ih =>
    intro op hop
    simp only [extractEntries] at hop
    by_cases hx : isPathWithinDir (Join destDir x.Name) destDir = true
    · simp only [hx, Bool.not_true, Bool.false_eq_true, if_false] at hop
      cases hty : x.Typeflag with
      | dir =>
        rw [hty] at hop
        simp only [List.mem_cons] at hop
        rcases hop with h | h
        · left
          rw [h]
          exact hx
        · exact ih _ op h
      | reg =>
        rw [hty] at hop
        simp only [List.mem_append] at hop
        rcases hop with h | h
        · rcases extractRegularFile_log ops s x _ op h with h1 | h1 | h1
          · rcases Dir_target_within destDir x.Name hx with h2 | h2
            · left
              rw [h1]
              exact h2
            · right
              rw [h1, h2]
          · left
            rw [h1]
            exact hx
          · left
            rw [h1]
            exact hx
        · exact ih _ op h
      | other =>
        rw [hty] at hop
        exact ih _ op hop
    · have hx2 : isPathWithinDir (Join destDir x.Name) destDir = false := by simpa using hx
      simp [hx2] at hop

theorem extractEntries_log_paths {σ : Type} (ops : ExtractOps σ) (destDir : Path)
    (truncated : Bool) (entries : List Header) (s : σ) :
    ∀ op ∈ (extractEntries ops destDir truncated s entries).2.2,
      ∃ name, isPathWithinDir (Join destDir name) destDir = true ∧
        (op.path = Join destDir name ∨ op = FsOp.mkdirAll (Dir (Join destDir name)) 493) := by
  induction entries generalizing s with
  | nil => simp [extractEntries]
  | cons x xs ih =>
    intro op hop
    simp only [extractEntries] at hop
    by_cases hx : isPathWithinDir (Join destDir x.Name) destDir = true
    · simp only [hx, Bool.not_true, Bool.false_eq_true, if_false] at hop
      cases hty : x.Typeflag with
      | dir =>
        rw [hty] at hop
        simp only [List.mem_cons] at hop
        rcases hop with h | h
        · exact ⟨x.Name, hx, Or.inl (by rw [h]; rfl)⟩
        · exact ih _ op h
      | reg =>
        rw [hty] at hop
        simp only [List.mem_append] at hop
        rcases hop with h | h
        · rcases extractRegularFile_log ops s x _ op h with h1 | h1 | h1
          · exact ⟨x.Name, hx, Or.inr h1⟩
          · exact ⟨x.Name, hx, Or.inl (by rw [h1]; rfl)⟩
          · exact ⟨x.Name, hx, Or.inl (by rw [h1]; rfl)⟩
        · exact ih _ op h
      | other =>
        rw [hty] at hop
        exact ih _ op hop
    · have hx2 : isPathWithinDir (Join destDir x.Name) destDir = false := by simpa using hx
      simp [hx2] at hop

/-- For rooted cleaned paths the containment test implies that the elements
of the directory begin the elements of the path. -/
theorem within_components (d : Path) (ds cs : List Path) (hds : ∀ c ∈ ds, NormalComp c)
    (hcs : ∀ c ∈ cs, NormalComp c) (hd : Clean d = absRender ds)
    (hw : isPathWithinDir (absRender cs) d = true) : ds <+: cs := by
  unfold isPathWithinDir at hw
  simp only [Clean_absRender cs hcs, hd, Bool.or_eq_true, decide_eq_true_eq] at hw
  rcases hw with h | h
  · by_cases hne : ds = []
    · subst hne
      exact List.nil_prefix
    · obtain ⟨e, es, hces⟩ := (absRender_slash_prefix_iff ds cs hds hcs hne).1 h
      exact ⟨e :: es, hces.symm⟩
  · rw [absRender_injective cs ds hcs hds h]

theorem Dir_absRender (cs : List Path) (hcs : ∀ c ∈ cs, NormalComp c) :
    ∃ t, t <+: cs ∧ Dir (absRender cs) = absRender t := by
  rcases List.eq_nil_or_concat cs with h | ⟨init, last, h⟩
  · subst h
    exact ⟨[], List.prefix_refl _, Dir_root⟩
  · rw [List.concat_eq_append] at h
    subst h
    exact ⟨init, List.prefix_append _ _,
      Dir_absRender_snoc init last (fun x hx => hcs x (List.mem_append_left _ hx))
        (hcs last (by simp))⟩

theorem mem_ancestorChain_absRender (cs : List Path) (hcs : ∀ c ∈ cs, NormalComp c) (q : Path) :
    q ∈ ancestorChain (absRender cs) ↔ ∃ u, u <+: cs ∧ q = absRender u := by
  unfold ancestorChain
  rw [pathComponents_absRender cs hcs, mem_chainRev]
  constructor
  · rintro ⟨t, ht, h⟩
    refine ⟨t.reverse, ?_, h⟩
    have := List.reverse_prefix.2 ht
    simpa using this
  · rintro ⟨u, hu, h⟩
    exact ⟨u.reverse, List.reverse_suffix.2 hu, by simpa using h⟩

theorem Join_rooted_form (d name : Path) (hd : IsAbs d = true) :
    ∃ cs, (∀ c ∈ cs, NormalComp c) ∧ Join d name = absRender cs := by
  obtain ⟨t, rfl⟩ := (IsAbs_iff d).1 hd
  have e : Join ('/' :: t) name = Clean (('/' :: t) ++ '/' :: name) := by simp [Join]
  rw [e]
  exact Clean_abs_form _ ((IsAbs_iff _).2 ⟨t ++ '/' :: name, rfl⟩)

/-- For a rooted destination directory, every call of the extraction names a
rooted cleaned path; that path lies in the destination directory, unless the
call is `os.MkdirAll` on the parent of the destination directory; and every
directory on the way from the root to that path lies in the destination
directory or on the way from the root to the destination directory. -/
theorem extractEntries_log_rooted {σ : Type} (ops : ExtractOps σ) (destDir : Path)
    (truncated : Bool) (entries : List Header) (s : σ) (hd : IsAbs destDir = true) :
    ∀ op ∈ (extractEntries ops destDir truncated s entries).2.2,
      IsAbs op.path = true ∧ Clean op.path = op.path ∧
      (pathComponents (Clean destDir) <+: pathComponents op.path ∨
        op = FsOp.mkdirAll (Dir (Clean destDir)) 493) ∧
      (∀ q ∈ ancestorChain op.path,
        pathComponents (Clean destDir) <+: pathComponents q ∨
          q ∈ ancestorChain (Clean destDir)) := by
  intro op hop
  obtain ⟨ds, hds, hcd⟩ := Clean_abs_form destDir hd
  obtain ⟨name, hw, hform⟩ := extractEntries_log_paths ops destDir truncated entries s op hop
  obtain ⟨cs, hcs, hj⟩ := Join_rooted_form destDir name hd
  rw [hj] at hw hform
  have hdc : ds <+: cs := within_components destDir ds cs hds hcs hcd hw
  have ht : ∃ t, t <+: cs ∧ op.path = absRender t := by
    rcases hform with h | h
    · exact ⟨cs, List.prefix_refl _, h⟩
    · obtain ⟨t, ht, hdir⟩ := Dir_absRender cs hcs
      refine ⟨t, ht, ?_⟩
      rw [h]
      exact hdir
  obtain ⟨t, htcs, hpt⟩ := ht
  have htn : ∀ c ∈ t, NormalComp c := fun c hc => hcs c (htcs.subset hc)
  refine ⟨?_, ?_, ?_, ?_⟩
  · rw [hpt]
    exact IsAbs_absRender t
  · rw [hpt]
    exact Clean_absRender t htn
  · rcases extractEntries_log_within ops destDir truncated entries s op hop with h | h
    · left
      rw [hpt] at h ⊢
      rw [hcd, pathComponents_absRender ds hds, pathComponents_absRender t htn]
      exact within_components destDir ds t hds htn hcd h
    · exact Or.inr h
  · intro q hq
    rw [hpt, mem_ancestorChain_absRender t htn] at hq
    obtain ⟨u, hu, rfl⟩ := hq
    have hun : ∀ c ∈ u, NormalComp c := fun c hc => htn c (hu.subset hc)
    rcases List.prefix_or_prefix_of_prefix (hu.trans htcs) hdc with h | h
    · right
      rw [hcd, mem_ancestorChain_absRender ds hds]
      exact ⟨u, h, rfl⟩
    · left
      rw [hcd, pathComponents_absRender ds hds, pathComponents_absRender u hun]
      exact h

/-- C1 (the code at the failing input, and what holds): the containment test
compares strings, and a destination directory that consists of `..` elements
defeats it.  For the destination directory `..` and an archive whose only
entry is a regular file named `../../etc/passwd`, the target is
`../../../etc/passwd`; `isPathWithinDir` accepts it, because it begins with
`../`; the extraction succeeds, and in the working directory `/srv/app/run`,
where the destination directory is `/srv/app`, it creates the file
`/etc/passwd`, which did not exist and is not in `/srv/app`.  With the
destination directory written `/srv/app` the same entry stops the extraction.

The rest of the claim holds.  For every destination directory, the first
entry whose target is not contained in it (per `isPathWithinDir`) makes
`ExtractTarGz` return the error `invalid file path in archive` naming that
entry, and the world and the calls made are those of the extraction of the
entries before it: nothing is written for that entry or any later one.  For a
rooted destination directory nothing is written outside it: every creating or writing
call names a rooted cleaned path whose elements begin with those of the
destination directory, except `os.MkdirAll` on the parent of the destination
directory (made for a regular-file entry whose target is the destination
directory itself), and every directory on the way from the root to a path
named in a call, which is all that `os.MkdirAll` can create, lies in the
destination directory or is the destination directory or one of its
ancestors. -/
theorem ExtractTarGz_escapes_dotdot_destDir :
    ExtractTarGz
        (diskExtractOps "/srv/app/run".toList [⟨"../../etc/passwd".toList, Typeflag.reg, 420⟩])
        demoTree "/tmp/a.tgz".toList "..".toList =
      (none, demoTree ++ ["/etc/passwd".toList],
        [FsOp.mkdirAll "../../../etc".toList 493, FsOp.openFile "../../../etc/passwd".toList 420,
          FsOp.copy "../../../etc/passwd".toList]) ∧
    Join "..".toList "../../etc/passwd".toList = "../../../etc/passwd".toList ∧
    isPathWithinDir "../../../etc/passwd".toList "..".toList = true ∧
    resolveFrom "/srv/app/run".toList "..".toList = "/srv/app".toList ∧
    resolveFrom "/srv/app/run".toList "../../../etc/passwd".toList = "/etc/passwd".toList ∧
    ¬ (pathComponents "/srv/app".toList <+: pathComponents "/etc/passwd".toList) ∧
    "/etc/passwd".toList ∉ demoTree ∧
    ExtractTarGz
        (diskExtractOps "/srv/app/run".toList [⟨"a".toList, Typeflag.dir, 493⟩,
          ⟨"../../etc/passwd".toList, Typeflag.reg, 420⟩, ⟨"b".toList, Typeflag.reg, 420⟩])
        demoTree "/tmp/a.tgz".toList "/srv/app".toList =
      (some (Error.invalidFilePath "../../etc/passwd".toList),
        demoTree ++ ["/srv/app/a".toList], [FsOp.mkdirAll "/srv/app/a".toList 493]) ∧
    (∀ (σ : Type) (ops : ExtractOps σ) (s : σ) (archivePath destDir : Path) (archive : Archive)
        (pre : List Header) (e : Header) (post : List Header),
      ops.readArchive s archivePath = Except.ok archive →
      archive.entries = pre ++ e :: post →
      (∀ x ∈ pre, isPathWithinDir (Join destDir x.Name) destDir = true) →
      isPathWithinDir (Join destDir e.Name) destDir = false →
      ExtractTarGz ops s archivePath destDir =
        (some (Error.invalidFilePath e.Name), (extractEntries ops destDir false s pre).2.1,
          (extractEntries ops destDir false s pre).2.2)) ∧
    (∀ (σ : Type) (ops : ExtractOps σ) (s : σ) (archivePath destDir : Path),
      IsAbs destDir = true →
      ∀ op ∈ (ExtractTarGz ops s archivePath destDir).2.2,
        IsAbs op.path = true ∧ Clean op.path = op.path ∧
        (pathComponents (Clean destDir) <+: pathComponents op.path ∨
          op = FsOp.mkdirAll (Dir (Clean destDir)) 493) ∧
        (∀ q ∈ ancestorChain op.path,
          pathComponents (Clean destDir) <+: pathComponents q ∨
            q ∈ ancestorChain (Clean destDir))) := by
  refine ⟨by decide, by decide, by decide, by decide, by decide, by decide, by decide,
    by decide, ?_, ?_⟩
  · intro σ ops s archivePath destDir archive pre e post hread hent hpre he
    unfold ExtractTarGz
    rw [hread]
    simp only [hent]
    exact extractEntries_stop ops destDir _ pre e post s hpre he
  · intro σ ops s archivePath destDir hd op hop
    unfold ExtractTarGz at hop
    rcases hread : ops.readArchive s archivePath with e | archive
    · rw [hread] at hop
      simp at hop
    · rw [hread] at hop
      exact extractEntries_log_rooted ops destDir _ _ s hd op hop

/-! ## Ownership correction: the no-op cases (C9) -/

theorem chownStep_outside {σ : Type} (env : Env)
    (chown : σ → Path → Int → Int → Option OsErr × σ) (uid gid : Int) (s : σ) (current : Path)
    (h : isInHomeDirectory env current = false) :
    chownStep env chown uid gid s current = (none, s, []) := by
  unfold chownStep
  simp [h]

/-- From a cleaned rooted path none of whose ancestors is within the home
directory, the walk succeeds without calling `os.Chown`. -/
theorem ownershipWalk_outside {σ : Type} (env : Env)
    (chown : σ → Path → Int → Int → Option OsErr × σ) (uid gid : Int) (rs : List Path)
    (hrs : ∀ c ∈ rs, NormalComp c)
    (hout : ∀ q ∈ chainRev rs, isInHomeDirectory env q = false) :
    ∀ (fuel : Nat) (s : σ), rs.length + 1 ≤ fuel →
      ownershipWalk env chown (getRealHomeDir env) uid gid fuel s (absRender rs.reverse) =
        some (none, s, []) := by
  induction rs with
  | nil =>
    intro fuel s hfuel
    obtain ⟨n, rfl⟩ : ∃ n, fuel = n + 1 := ⟨fuel - 1, by omega⟩
    have hcur : absRender ([] : List Path).reverse = ['/'] := rfl
    have hstep := chownStep_outside env chown uid gid s ['/'] (hout _ (by simp [chainRev]))
    rw [hcur, ownershipWalk_succ, hstep]
    simp [Dir_root]
  | cons c rs ih =>
    intro fuel s hfuel
    obtain ⟨n, rfl⟩ : ∃ n, fuel = n + 1 := ⟨fuel - 1, by omega⟩
    have hn : rs.length + 1 ≤ n := by
      simp only [List.length_cons] at hfuel
      omega
    have hrs2 : ∀ x ∈ rs, NormalComp x := fun x hx => hrs x (List.mem_cons_of_mem _ hx)
    have hrev : ∀ x ∈ rs.reverse, NormalComp x := fun x hx => hrs2 x (List.mem_reverse.1 hx)
    have hdir : Dir (absRender (c :: rs).reverse) = absRender rs.reverse := by
      rw [List.reverse_cons]
      exact Dir_absRender_snoc rs.reverse c hrev (hrs c (List.mem_cons_self _ _))
    have hstep := chownStep_outside env chown uid gid s (absRender (c :: rs).reverse)
      (hout _ (by simp [chainRev]))
    have hrec := ih hrs2 (fun q hq => hout q (by rw [chainRev]; exact List.mem_cons_of_mem _ hq))
      n s hn
    rw [ownershipWalk_succ, hstep]
    simp only [ne_eq, not_true_eq_false, false_and, if_false]
    by_cases h2 : absRender (c :: rs).reverse = getRealHomeDir env
    · rw [if_pos h2]
    · rw [if_neg h2]
      by_cases h3 : Dir (absRender (c :: rs).reverse) = absRender (c :: rs).reverse
      · rw [if_pos h3]
      · rw [if_neg h3, hdir, hrec]
        simp

/-- For an absolute, cleaned path that is not within the home directory, and
a home directory that does not resolve to the root, `fixOwnershipPath` succeeds
without calling `os.Chown` once the ids of the named user are resolved. -/
theorem fixOwnershipPath_outside {σ : Type} (env : Env)
    (chown : σ → Path → Int → Int → Option OsErr × σ) (s : σ) (path : Path) (uid gid : Int)
    (habs : IsAbs path = true) (hclean : Clean path = path)
    (hids : lookupIds env env.SUDO_USER = Except.ok (uid, gid))
    (hroot : Abs env (Clean (getRealHomeDir env)) ≠ some ['/'])
    (hout : isInHomeDirectory env path = false) :
    fixOwnershipPath env chown s path = some (none, s, []) := by
  unfold fixOwnershipPath
  by_cases h1 : env.SUDO_USER = []
  · rw [if_pos h1]
  · rw [if_neg h1]
    simp only
    by_cases h2 : getRealHomeDir env = []
    · rw [if_pos h2]
    · rw [if_neg h2, hids]
      obtain ⟨cs, hcs, hform⟩ := Clean_abs_form path habs
      rw [hclean] at hform
      have hrev : ∀ c ∈ cs.reverse, NormalComp c := fun c hc => hcs c (List.mem_reverse.1 hc)
      have hall : ∀ q ∈ chainRev cs.reverse, isInHomeDirectory env q = false := by
        intro q hq
        obtain ⟨t, ht, rfl⟩ := (mem_chainRev cs.reverse q).1 hq
        have hpref : t.reverse <+: cs := by
          have := List.reverse_prefix.2 ht
          simpa using this
        obtain ⟨t2, ht2⟩ := hpref
        rw [Bool.eq_false_iff]
        intro hin
        have hts : ∀ x ∈ t.reverse, NormalComp x := fun x hx =>
          hcs x (by rw [← ht2]; exact List.mem_append_left _ hx)
        have := in_home_of_ancestor_in_home env t.reverse t2 hts (by rw [ht2]; exact hcs)
          hroot hin
        rw [ht2, ← hform, hout] at this
        cases this
      have hfuel : cs.reverse.length + 1 ≤ path.length + 2 := by
        have := length_le_length_absRender cs
        rw [← hform] at this
        simp only [List.length_reverse]
        omega
      have := ownershipWalk_outside env chown uid gid cs.reverse hrev hall (path.length + 2) s
        hfuel
      rw [List.reverse_reverse, ← hform] at this
      exact this

/-- C9 (the code at the failing input, and what holds): with `SUDO_USER`
empty each of the three ownership operations returns success, calls
`os.Chown` not at all and leaves the world unchanged; so do `fixOwnership` and
`fixOwnershipRecursive` for a path that is not within the real home directory,
whatever the user lookup gives, and so does `fixOwnershipPath` for an absolute
cleaned path outside a home directory other than the root when the lookup
succeeds.  But for `SUDO_USER` naming an unknown user, the home directory
`/root` and the path `/usr/local/bin`, which is not within the home directory,
`fixOwnershipPath` returns the error of the failed lookup, where `fixOwnership`
and `fixOwnershipRecursive` return success. -/
theorem fixOwnershipPath_fails_on_lookup_outside_home :
    (∀ (σ : Type) (env : Env) (chown : σ → Path → Int → Int → Option OsErr × σ)
        (walk : σ → Path → List (Path × Option OsErr)) (s : σ) (path : Path),
        env.SUDO_USER = [] →
        fixOwnership env chown s path = (none, s, []) ∧
          fixOwnershipRecursive env chown walk s path = (none, s, []) ∧
          fixOwnershipPath env chown s path = some (none, s, [])) ∧
      (∀ (σ : Type) (env : Env) (chown : σ → Path → Int → Int → Option OsErr × σ)
        (walk : σ → Path → List (Path × Option OsErr)) (s : σ) (path : Path),
        isInHomeDirectory env path = false →
        fixOwnership env chown s path = (none, s, []) ∧
          fixOwnershipRecursive env chown walk s path = (none, s, [])) ∧
      (∀ (σ : Type) (env : Env) (chown : σ → Path → Int → Int → Option OsErr × σ)
        (s : σ) (path : Path) (uid gid : Int),
        IsAbs path = true → Clean path = path →
        lookupIds env env.SUDO_USER = Except.ok (uid, gid) →
        Abs env (Clean (getRealHomeDir env)) ≠ some ['/'] →
        isInHomeDirectory env path = false →
        fixOwnershipPath env chown s path = some (none, s, [])) ∧
      isInHomeDirectory ghostEnv "/usr/local/bin".toList = false ∧
      fixOwnership ghostEnv demoChown [] "/usr/local/bin".toList = (none, [], []) ∧
      fixOwnershipRecursive ghostEnv demoChown demoWalk [] "/usr/local/bin".toList =
        (none, [], []) ∧
      fixOwnershipPath ghostEnv demoChown [] "/usr/local/bin".toList =
        some (some (Error.lookupUser "ghost".toList), [], []) := by
  refine ⟨?_, ?_, ?_, by decide, by decide, by decide, by decide⟩
  · intro σ env chown walk s path h
    simp [fixOwnership, fixOwnershipRecursive, fixOwnershipPath, h]
  · intro σ env chown walk s path h
    by_cases hs : env.SUDO_USER = []
    · simp [fixOwnership, fixOwnershipRecursive, hs]
    · simp [fixOwnership, fixOwnershipRecursive, hs, h]
  · intro σ env chown s path uid gid habs hclean hids hroot hout
    exact fixOwnershipPath_outside env chown s path uid gid habs hclean hids hroot hout

/-! ## The ancestor-chain walk: the claim (C10) -/

/-- C10 (counterexample): four runs of `fixOwnershipPath` under elevation for
`alice` that contradict the claim.  From the relative start path `../../v` in
the working directory `/home/u/a`, which is outside the home directory
`/home/u`, the walk applies ownership to `..` and `.`, that is to the home
directory and a directory in it.  From `/home/u/a/b`, when `os.Chown` fails
with an error other than a permission error, the walk stops after the start
path and applies ownership neither to `/home/u/a` nor to the home directory.
From the uncleaned start path `/a/b/..`, which is outside the home directory
`/a/b`, the walk applies ownership to `/a/b`.  With the home directory `/` the
start path `/a` is not within the home directory for `isInHomeDirectory`, and
the walk applies ownership to `/`. -/
theorem fixOwnershipPath_claim_fails :
    (isInHomeDirectory (sudoEnv "/home/u" "/home/u/a") "../../v".toList = false ∧
      fixOwnershipPath (sudoEnv "/home/u" "/home/u/a") demoChown [] "../../v".toList =
        some (none, [⟨"..".toList, 1000, 1000⟩, ⟨".".toList, 1000, 1000⟩],
          [⟨"..".toList, 1000, 1000⟩, ⟨".".toList, 1000, 1000⟩])) ∧
      (isInHomeDirectory (sudoEnv "/home/u" "/work") "/home/u/a".toList = true ∧
        fixOwnershipPath (sudoEnv "/home/u" "/work") failingChown [] "/home/u/a/b".toList =
          some (some (Error.os OsErr.other), [⟨"/home/u/a/b".toList, 1000, 1000⟩],
            [⟨"/home/u/a/b".toList, 1000, 1000⟩])) ∧
      (isInHomeDirectory (sudoEnv "/a/b" "/work") "/a/b/..".toList = false ∧
        fixOwnershipPath (sudoEnv "/a/b" "/work") demoChown [] "/a/b/..".toList =
          some (none, [⟨"/a/b".toList, 1000, 1000⟩], [⟨"/a/b".toList, 1000, 1000⟩])) ∧
      (isInHomeDirectory (sudoEnv "/" "/work") "/a".toList = false ∧
        fixOwnershipPath (sudoEnv "/" "/work") demoChown [] "/a".toList =
          some (none, [⟨"/".toList, 1000, 1000⟩], [⟨"/".toList, 1000, 1000⟩])) := by
  decide

/-- C10 (amended): the walk of `fixOwnershipPath` ends for every start path
and every home directory, and every path it applies ownership to is within the
home directory.  For an absolute, cleaned start path, under elevation with the
ids of the named user resolved: the `os.Chown` calls are a prefix of the calls
on the start path and those of its ancestors that are within the home
directory, nearest first; when no `os.Chown` fails with an error other than a
permission error the walk succeeds and makes exactly these calls; when the
home directory does not resolve to the root and the start path is outside the
home directory, the walk succeeds and nothing is chowned; and when the start path is within the
home directory (`os.Getwd` returning a rooted path), the calls include the one
on the resolved home directory itself. -/
theorem fixOwnershipPath_walks_ancestors_in_home {σ : Type} (env : Env)
    (chown : σ → Path → Int → Int → Option OsErr × σ) (s : σ) (path : Path) (uid gid : Int) :
    (∃ r, fixOwnershipPath env chown s path = some r) ∧
    (∀ r, fixOwnershipPath env chown s path = some r →
      ∀ c ∈ r.2.2, isInHomeDirectory env c.path = true) ∧
    (IsAbs path = true → Clean path = path → env.SUDO_USER ≠ [] → getRealHomeDir env ≠ [] →
      lookupIds env env.SUDO_USER = Except.ok (uid, gid) →
      ∃ r s1 calls, fixOwnershipPath env chown s path = some (r, s1, calls) ∧
        calls <+: chownCallsFor env uid gid (ancestorChain path) ∧
        ((∀ s q, (chown s q uid gid).1 = none ∨ (chown s q uid gid).1 = some OsErr.permission) →
          r = none ∧ calls = chownCallsFor env uid gid (ancestorChain path)) ∧
        (Abs env (Clean (getRealHomeDir env)) ≠ some ['/'] →
          isInHomeDirectory env path = false → r = none ∧ s1 = s ∧ calls = []) ∧
        ((∀ s q, (chown s q uid gid).1 = none ∨ (chown s q uid gid).1 = some OsErr.permission) →
          (∀ wd, env.getwd = some wd → IsAbs wd = true) → isInHomeDirectory env path = true →
          ∃ cleanHome, Abs env (Clean (getRealHomeDir env)) = some cleanHome ∧
            (⟨cleanHome, uid, gid⟩ : ChownCall) ∈ calls)) := by
  refine ⟨?_, ?_, ?_⟩
  · unfold fixOwnershipPath
    by_cases h1 : env.SUDO_USER = []
    · exact ⟨_, by rw [if_pos h1]⟩
    · rw [if_neg h1]
      simp only
      by_cases h2 : getRealHomeDir env = []
      · exact ⟨_, by rw [if_pos h2]⟩
      · rw [if_neg h2]
        rcases lookupIds env env.SUDO_USER with e | ⟨u, g⟩
        · exact ⟨_, rfl⟩
        · exact ownershipWalk_terminates env chown _ u g path.length s path (le_refl _)
  · intro r hr
    unfold fixOwnershipPath at hr
    by_cases h1 : env.SUDO_USER = []
    · rw [if_pos h1] at hr
      cases hr
      simp
    · rw [if_neg h1] at hr
      simp only at hr
      by_cases h2 : getRealHomeDir env = []
      · rw [if_pos h2] at hr
        cases hr
        simp
      · rw [if_neg h2] at hr
        rcases hl : lookupIds env env.SUDO_USER with e | ⟨u, g⟩
        · rw [hl] at hr
          cases hr
          simp
        · rw [hl] at hr
          exact ownershipWalk_calls_in_home env chown _ u g _ s path r hr
  · intro habs hclean hsudo hhome hids
    obtain ⟨cs, hcs, hform⟩ := Clean_abs_form path habs
    rw [hclean] at hform
    have hrev : ∀ c ∈ cs.reverse, NormalComp c := fun c hc => hcs c (List.mem_reverse.1 hc)
    have hchain : ancestorChain path = chainRev cs.reverse := by
      unfold ancestorChain
      rw [hform, pathComponents_absRender cs hcs]
    have hfuel : cs.reverse.length + 1 ≤ path.length + 2 := by
      have := length_le_length_absRender cs
      rw [← hform] at this
      simp only [List.length_reverse]
      omega
    obtain ⟨r, s1, calls, hwalk, hpre, hall⟩ :=
      ownershipWalk_chain env chown uid gid cs.reverse hrev (path.length + 2) s hfuel
    rw [List.reverse_reverse, ← hform] at hwalk
    have hrun : fixOwnershipPath env chown s path = some (r, s1, calls) := by
      unfold fixOwnershipPath
      rw [if_neg hsudo]
      simp only
      rw [if_neg hhome, hids]
      exact hwalk
    refine ⟨r, s1, calls, hrun, by rw [hchain]; exact hpre, ?_, ?_, ?_⟩
    · intro hsoft
      rw [hchain]
      exact hall hsoft
    · intro hroot hout
      have hq := fixOwnershipPath_outside env chown s path uid gid habs hclean hids hroot hout
      rw [hrun] at hq
      simp only [Option.some.injEq, Prod.mk.injEq] at hq
      exact hq
    · intro hsoft hwd hin
      obtain ⟨_, hc⟩ := hall hsoft
      rw [hform] at hin
      obtain ⟨_, ah, hah, hcase⟩ := (isInHomeDirectory_absRender env cs hcs).1 hin
      obtain ⟨hs, hhs, hhc⟩ := Abs_form env _ ah hwd hah
      refine ⟨ah, hah, ?_⟩
      have hpref : hs <+: cs := by
        by_cases hne : hs = []
        · rw [hne]
          exact List.nil_prefix
        · rw [prefix_iff_eq_or_proper]
          rcases hcase with h | h
          · rw [hhc] at h
            exact Or.inr ((absRender_slash_prefix_iff hs cs hhs hcs hne).1
              ((HasPrefix_iff _ _).2 h))
          · rw [hhc] at h
            exact Or.inl (absRender_injective cs hs hcs hhs h)
      have hmem : absRender hs ∈ chainRev cs.reverse :=
        (mem_chainRev cs.reverse _).2 ⟨hs.reverse, List.reverse_suffix.2 hpref, by simp⟩
      have hinh : isInHomeDirectory env (absRender hs) = true := by
        rw [isInHomeDirectory_absRender env hs hhs]
        exact ⟨hhome, ah, hah, Or.inr hhc.symm⟩
      rw [hc, hhc]
      unfold chownCallsFor
      rw [List.mem_map]
      exact ⟨absRender hs, List.mem_filter.2 ⟨hmem, hinh⟩, rfl⟩

/-- C10 (witness): the amended statement at the start path `/home/u/a/b`
under elevation for `alice` with the home directory `/home/u`. -/
theorem fixOwnershipPath_walks_ancestors_in_home_witness :
    ∃ r s1 calls,
      fixOwnershipPath (sudoEnv "/home/u" "/work") demoChown [] "/home/u/a/b".toList =
          some (r, s1, calls) ∧
        calls <+: chownCallsFor (sudoEnv "/home/u" "/work") 1000 1000
          (ancestorChain "/home/u/a/b".toList) ∧
        ((∀ s q, (demoChown s q 1000 1000).1 = none ∨
            (demoChown s q 1000 1000).1 = some OsErr.permission) →
          r = none ∧ calls = chownCallsFor (sudoEnv "/home/u" "/work") 1000 1000
            (ancestorChain "/home/u/a/b".toList)) ∧
        (Abs (sudoEnv "/home/u" "/work") (Clean (getRealHomeDir (sudoEnv "/home/u" "/work"))) ≠
            some ['/'] →
          isInHomeDirectory (sudoEnv "/home/u" "/work") "/home/u/a/b".toList = false →
          r = none ∧ s1 = [] ∧ calls = []) ∧
        ((∀ s q, (demoChown s q 1000 1000).1 = none ∨
            (demoChown s q 1000 1000).1 = some OsErr.permission) →
          (∀ wd, (sudoEnv "/home/u" "/work").getwd = some wd → IsAbs wd = true) →
          isInHomeDirectory (sudoEnv "/home/u" "/work") "/home/u/a/b".toList = true →
          ∃ cleanHome,
            Abs (sudoEnv "/home/u" "/work") (Clean (getRealHomeDir (sudoEnv "/home/u" "/work"))) =
              some cleanHome ∧
            (⟨cleanHome, 1000, 1000⟩ : ChownCall) ∈ calls) :=
  (fixOwnershipPath_walks_ancestors_in_home (sudoEnv "/home/u" "/work") demoChown []
    "/home/u/a/b".toList 1000 1000).2.2 (by decide) (by decide) (by decide) (by decide)
    (by decide)

/-! ## Recursive ownership correction (C11) -/

theorem walkChown_calls_initial {σ : Type} (chown : σ → Path → Int → Int → Option OsErr × σ)
    (uid gid : Int) (evs : List (Path × Option OsErr)) (s : σ) :
    (walkChown chown uid gid s evs).2.2 <+: evs.map (chownCallOf uid gid) := by
  induction evs generalizing s with
  | nil => simp [walkChown]
  | cons x xs ih =>
    obtain ⟨p, e⟩ := x
    cases e with
    | some e => simp [walkChown]
    | none =>
      simp only [walkChown, List.map_cons]
      rcases hc : chown s p uid gid with ⟨_ | e, s1⟩
      · simp only
        exact List.cons_prefix_cons.2 ⟨rfl, ih s1⟩
      · simp only
        exact List.cons_prefix_cons.2 ⟨rfl, List.nil_prefix⟩

theorem walkChown_all {σ : Type} (chown : σ → Path → Int → Int → Option OsErr × σ)
    (uid gid : Int) (evs : List (Path × Option OsErr)) (s : σ)
    (hev : ∀ x ∈ evs, x.2 = none) (hch : ∀ s q, (chown s q uid gid).1 = none) :
    (walkChown chown uid gid s evs).1 = none ∧
      (walkChown chown uid gid s evs).2.2 = evs.map (chownCallOf uid gid) := by
  induction evs generalizing s with
  | nil => simp [walkChown]
  | cons x xs ih =>
    obtain ⟨p, e⟩ := x
    have he : e = none := hev (p, e) (List.mem_cons_self _ _)
    subst he
    simp only [walkChown, List.map_cons]
    rcases hc : chown s p uid gid with ⟨_ | e, s1⟩
    · simp only
      obtain ⟨h1, h2⟩ := ih s1 (fun x hx => hev x (List.mem_cons_of_mem _ hx))
      exact ⟨h1, by rw [h2]; rfl⟩
    · have := hch s p
      rw [hc] at this
      cases this

theorem walkChown_abort {σ : Type} (chown : σ → Path → Int → Int → Option OsErr × σ)
    (uid gid : Int) (pre : List (Path × Option OsErr)) (p : Path) (e : OsErr)
    (post : List (Path × Option OsErr)) (s : σ)
    (hev : ∀ x ∈ pre, x.2 = none) (hch : ∀ s q, (chown s q uid gid).1 = none) :
    (walkChown chown uid gid s (pre ++ (p, some e) :: post)).1 = some (Error.os e) ∧
      (walkChown chown uid gid s (pre ++ (p, some e) :: post)).2.2 =
        pre.map (chownCallOf uid gid) := by
  induction pre generalizing s with
  | nil => simp [walkChown]
  | cons x xs ih =>
    obtain ⟨q, eq⟩ := x
    have he : eq = none := hev (q, eq) (List.mem_cons_self _ _)
    subst he
    rw [List.cons_append]
    simp only [walkChown, List.map_cons]
    rcases hc : chown s q uid gid with ⟨_ | e1, s1⟩
    · simp only
      obtain ⟨h1, h2⟩ := ih s1 (fun x hx => hev x (List.mem_cons_of_mem _ hx))
      exact ⟨h1, by rw [h2]; rfl⟩
    · have := hch s q
      rw [hc] at this
      cases this

theorem walkChown_success {σ : Type} (chown : σ → Path → Int → Int → Option OsErr × σ)
    (uid gid : Int) (evs : List (Path × Option OsErr)) (s : σ)
    (h : (walkChown chown uid gid s evs).1 = none) :
    (∀ x ∈ evs, x.2 = none) ∧
      (walkChown chown uid gid s evs).2.2 = evs.map (chownCallOf uid gid) := by
  induction evs generalizing s with
  | nil => simp [walkChown]
  | cons x xs ih =>
    obtain ⟨p, e⟩ := x
    cases e with
    | some e => simp [walkChown] at h
    | none =>
      simp only [walkChown, List.map_cons] at h ⊢
      rcases hc : chown s p uid gid with ⟨_ | e, s1⟩
      · rw [hc] at h
        simp only at h ⊢
        obtain ⟨h1, h2⟩ := ih s1 h
        refine ⟨?_, by rw [h2]; rfl⟩
        intro x hx
        rcases List.mem_cons.1 hx with rfl | hx
        · rfl
        · exact h1 x hx
      · rw [hc] at h
        simp at h

/-- C11 (counterexample): under elevation for `alice`, in the directory
`/home/alice/.d` with an entry `a` that the walk cannot read and a file `b`,
`fixOwnershipRecursive` applies the ids to the directory, then returns the
error reported for `a`: it does not continue, and `b` is never chowned. -/
theorem fixOwnershipRecursive_aborts_on_unreadable_entry :
    walkTree "/home/alice/.d".toList treeWithUnreadable =
        [("/home/alice/.d".toList, none), ("/home/alice/.d/a".toList, some OsErr.permission),
          ("/home/alice/.d/b".toList, none)] ∧
      fixOwnershipRecursive (sudoEnv "/home/alice" "/work") demoChown
          (fun _ p => walkTree p treeWithUnreadable) [] "/home/alice/.d".toList =
        (some (Error.os OsErr.permission), [⟨"/home/alice/.d".toList, 1000, 1000⟩],
          [⟨"/home/alice/.d".toList, 1000, 1000⟩]) := by
  decide

/-- C11 (amended): for a path inside the real user's home, under elevation
with the ids of the named user resolved, `fixOwnershipRecursive` applies these
ids to the entries that the walk presents (the path and its descendants), in
the order of the walk, and to nothing else.  When the walk reports no error
and no `os.Chown` fails, it applies them to every entry and succeeds; it
succeeds only then.  When the walk reports an entry with an error, the
entries before it being read and chowned without error, it stops there: it
returns that error, and neither that entry nor any later one is chowned. -/
theorem fixOwnershipRecursive_stops_at_first_error {σ : Type} (env : Env)
    (chown : σ → Path → Int → Int → Option OsErr × σ)
    (walk : σ → Path → List (Path × Option OsErr)) (s : σ) (path : Path) (uid gid : Int)
    (hsudo : env.SUDO_USER ≠ []) (hin : isInHomeDirectory env path = true)
    (hids : lookupIds env env.SUDO_USER = Except.ok (uid, gid)) :
    (fixOwnershipRecursive env chown walk s path).2.2 <+:
        (walk s path).map (chownCallOf uid gid) ∧
    ((∀ x ∈ walk s path, x.2 = none) → (∀ s q, (chown s q uid gid).1 = none) →
      (fixOwnershipRecursive env chown walk s path).1 = none ∧
        (fixOwnershipRecursive env chown walk s path).2.2 =
          (walk s path).map (chownCallOf uid gid)) ∧
    ((fixOwnershipRecursive env chown walk s path).1 = none →
      (∀ x ∈ walk s path, x.2 = none) ∧
        (fixOwnershipRecursive env chown walk s path).2.2 =
          (walk s path).map (chownCallOf uid gid)) ∧
    (∀ pre p e post, walk s path = pre ++ (p, some e) :: post →
      (∀ x ∈ pre, x.2 = none) → (∀ s q, (chown s q uid gid).1 = none) →
      (fixOwnershipRecursive env chown walk s path).1 = some (Error.os e) ∧
        (fixOwnershipRecursive env chown walk s path).2.2 = pre.map (chownCallOf uid gid)) := by
  have hrun : fixOwnershipRecursive env chown walk s path =
      walkChown chown uid gid s (walk s path) := by
    unfold fixOwnershipRecursive
    rw [if_neg hsudo, hin, hids]
    rfl
  rw [hrun]
  refine ⟨walkChown_calls_initial chown uid gid _ s, ?_, ?_, ?_⟩
  · intro hev hch
    exact walkChown_all chown uid gid _ s hev hch
  · intro h
    exact walkChown_success chown uid gid _ s h
  · intro pre p e post hw hev hch
    rw [hw]
    exact walkChown_abort chown uid gid pre p e post s hev hch

/-- C11 (witness): in a tree that the walk reads without error, the ids are
applied to the directory and to each of its three descendants. -/
theorem fixOwnershipRecursive_stops_at_first_error_witness :
    (fixOwnershipRecursive (sudoEnv "/home/alice" "/work") demoChown
        (fun _ p => walkTree p readableTree) [] "/home/alice/.d".toList).1 = none ∧
      (fixOwnershipRecursive (sudoEnv "/home/alice" "/work") demoChown
        (fun _ p => walkTree p readableTree) [] "/home/alice/.d".toList).2.2 =
        [⟨"/home/alice/.d".toList, 1000, 1000⟩, ⟨"/home/alice/.d/a".toList, 1000, 1000⟩,
          ⟨"/home/alice/.d/b".toList, 1000, 1000⟩, ⟨"/home/alice/.d/b/c".toList, 1000, 1000⟩] :=
  ((fixOwnershipRecursive_stops_at_first_error (sudoEnv "/home/alice" "/work") demoChown
    (fun _ p => walkTree p readableTree) [] "/home/alice/.d".toList 1000 1000
    (by decide) (by decide) (by decide)).2.1 (by decide) (fun _ _ => rfl))

/-! ## Deployment and the ownership of new parent directories (C12) -/

/-- The bounded loop of `fixOwnershipPath` always yields its result. -/
theorem fixOwnershipPath_eq_run {σ : Type} (env : Env)
    (chown : σ → Path → Int → Int → Option OsErr × σ) (s : σ) (path : Path) :
    fixOwnershipPath env chown s path = some (fixOwnershipPathRun env chown s path) := by
  have h : ∃ r, fixOwnershipPath env chown s path = some r := by
    unfold fixOwnershipPath
    by_cases h1 : env.SUDO_USER = []
    · exact ⟨_, by rw [if_pos h1]⟩
    · rw [if_neg h1]
      simp only
      by_cases h2 : getRealHomeDir env = []
      · exact ⟨_, by rw [if_pos h2]⟩
      · rw [if_neg h2]
        rcases lookupIds env env.SUDO_USER with e | ⟨u, g⟩
        · exact ⟨_, rfl⟩
        · exact ownershipWalk_terminates env chown _ u g path.length s path (le_refl _)
  obtain ⟨r, hr⟩ := h
  unfold fixOwnershipPathRun
  rw [hr]

theorem fixOwnership_calls {σ : Type} (env : Env)
    (chown : σ → Path → Int → Int → Option OsErr × σ) (s : σ) (path : Path) :
    ∀ c ∈ (fixOwnership env chown s path).2.2, c.path = path := by
  intro c hc
  unfold fixOwnership at hc
  by_cases h1 : env.SUDO_USER = []
  · simp [h1] at hc
  · rw [if_neg h1] at hc
    by_cases h2 : isInHomeDirectory env path = true
    · rw [h2] at hc
      simp only [Bool.not_true, Bool.false_eq_true, if_false] at hc
      rcases hl : lookupIds env env.SUDO_USER with e | ⟨u, g⟩
      · rw [hl] at hc
        simp at hc
      · rw [hl] at hc
        simp only [List.mem_singleton] at hc
        rw [hc]
    · have h3 : isInHomeDirectory env path = false := by simpa using h2
      rw [h3] at hc
      simp at hc

theorem deployFixOwnership_log {σ : Type} (env : Env) (ops : DeployOps σ) (wrap : Bool) (s : σ)
    (path : Path) :
    ∀ op ∈ (deployFixOwnership env ops wrap s path).2.2,
      ∃ c, op = DeployOp.chown c ∧ c.path = path := by
  intro op hop
  unfold deployFixOwnership at hop
  simp only [List.mem_map] at hop
  obtain ⟨c, hc, rfl⟩ := hop
  exact ⟨c, rfl, fixOwnership_calls env ops.chown s path c hc⟩

theorem extractGzipFile_log {σ : Type} (ops : DeployOps σ) (s : σ) (src dst : Path) :
    ∀ op ∈ (extractGzipFile ops s src dst).2.2,
      op = DeployOp.mkdirAll (Dir dst) 493 ∨ op = DeployOp.gunzip src dst := by
  intro op hop
  unfold extractGzipFile at hop
  rcases h1 : ops.mkdirAll s (Dir dst) 493 with ⟨_ | e1, s1⟩
  · rw [h1] at hop
    simp only [List.mem_cons, List.mem_singleton, List.not_mem_nil, or_false] at hop
    exact hop
  · rw [h1] at hop
    simp only [List.mem_singleton] at hop
    exact Or.inl hop

/-- For a gzip source, the only `os.Chown` calls of `installFile` are on the
destination itself: the parent of the destination is never chowned. -/
theorem installFile_gzip_chowns_target_only {σ : Type} (env : Env) (ops : DeployOps σ) (s : σ)
    (sourcePath targetPath : Path) (hgz : Ext sourcePath = ".gz".toList) :
    ∀ c, DeployOp.chown c ∈ (installFile env ops s sourcePath targetPath).2.2 →
      c.path = targetPath := by
  intro c hc
  unfold installFile at hc
  rw [if_pos hgz] at hc
  have hgzlog := extractGzipFile_log ops s sourcePath targetPath
  rcases hx : extractGzipFile ops s sourcePath targetPath with ⟨_ | e, s1, log⟩
  · rw [hx] at hc hgzlog
    simp only at hc hgzlog
    have hnot : DeployOp.chown c ∉ log := by
      intro hmem
      rcases hgzlog _ hmem with h | h <;> cases h
    rcases hch : ops.chmod s1 targetPath 493 with ⟨_ | e2, s2⟩
    · rw [hch] at hc
      simp only [List.mem_append, List.mem_singleton, reduceCtorEq, or_false] at hc
      rcases hc with hc | hc
      · exact absurd hc hnot
      · obtain ⟨c2, h1, h2⟩ := deployFixOwnership_log env ops true s2 targetPath _ hc
        cases h1
        exact h2
    · rw [hch] at hc
      simp only [List.mem_append, List.mem_singleton, reduceCtorEq, or_false] at hc
      exact absurd hc hnot
  · rw [hx] at hc hgzlog
    simp only at hc hgzlog
    rcases hgzlog _ hc with h | h <;> cases h

/-- For a source that is no gzip file, `installFile` creates the parent of
the destination and at once applies the ancestor-chain ownership correction to
it: the calls of `fixOwnershipPath` on the parent follow `os.MkdirAll`. -/
theorem installFile_plain_corrects_parent {σ : Type} (env : Env) (ops : DeployOps σ) (s : σ)
    (sourcePath targetPath : Path) (hgz : Ext sourcePath ≠ ".gz".toList)
    (hmk : (ops.mkdirAll s (Dir targetPath) 493).1 = none) :
    ∃ rest, (installFile env ops s sourcePath targetPath).2.2 =
      DeployOp.mkdirAll (Dir targetPath) 493 ::
        (fixOwnershipPathRun env ops.chown (ops.mkdirAll s (Dir targetPath) 493).2
          (Dir targetPath)).2.2.map DeployOp.chown ++ rest := by
  have hcopy : ∃ rest, (copyFile env ops s sourcePath targetPath).2.2 =
      DeployOp.mkdirAll (Dir targetPath) 493 ::
        (fixOwnershipPathRun env ops.chown (ops.mkdirAll s (Dir targetPath) 493).2
          (Dir targetPath)).2.2.map DeployOp.chown ++ rest := by
    unfold copyFile
    rcases h1 : ops.mkdirAll s (Dir targetPath) 493 with ⟨_ | e1, s1⟩
    · rcases h2 : fixOwnershipPathRun env ops.chown s1 (Dir targetPath) with ⟨_ | e2, s2, calls⟩
      · exact ⟨[DeployOp.copyContents sourcePath targetPath], by simp [h1, h2]⟩
      · exact ⟨[], by simp [h1, h2]⟩
    · rw [h1] at hmk
      cases hmk
  obtain ⟨rest, hrest⟩ := hcopy
  unfold installFile
  rw [if_neg hgz]
  rcases hx : copyFile env ops s sourcePath targetPath with ⟨_ | e, s1, log⟩
  · rw [hx] at hrest
    simp only at hrest ⊢
    subst hrest
    by_cases hb : isBinary targetPath = true
    · rw [if_pos hb]
      rcases hch : ops.chmod s1 targetPath 493 with ⟨_ | e2, s2⟩
      · exact ⟨_, by simp only [List.cons_append, List.append_assoc]; rfl⟩
      · exact ⟨_, by simp only [List.cons_append, List.append_assoc]; rfl⟩
    · rw [if_neg hb]
      exact ⟨_, by simp only [List.cons_append, List.append_assoc]; rfl⟩
  · rw [hx] at hrest
    simp only at hrest ⊢
    exact ⟨rest, hrest⟩

/-- C12 (the code at the failing inputs, and what holds): under elevation
for `alice`, whose home directory `/home/alice` exists, with the elevated
process creating directories and files owned by uid 0.  Deploying the gzip
file `tool.gz` to `~/.x/bin/tool` succeeds with the calls `os.MkdirAll` on
the parent, the decompression, `os.Chmod` and one `os.Chown` on the
destination: the new parent directories `/home/alice/.x` and
`/home/alice/.x/bin` stay owned by uid 0.  Deploying the directory `emptydir`
without entries to `~/.z/share/d` succeeds and leaves the new parent
directories `/home/alice/.z` and `/home/alice/.z/share` owned by uid 0.
Deploying the plain file `tool` to `~/.y/bin/tool`, or the directory
`withfile` that holds a file, leaves every new parent directory owned by uid
1000.  In every world, the deployment of a gzip file chowns nothing but the
destination itself, and the deployment of a plain file applies the calls of
`fixOwnershipPath` to the parent of the destination right after creating
it. -/
theorem installMapping_leaves_new_parents_to_root :
    installMapping (sudoEnv "/home/alice" "/work") ownersDeployOps homeOnly
        "/tmp/t/extracted".toList ⟨"tool.gz".toList, "~/.x/bin/tool".toList⟩ =
      (none,
        [("/".toList, 0), ("/home".toList, 0), ("/home/alice".toList, 1000),
          ("/home/alice/.x".toList, 0), ("/home/alice/.x/bin".toList, 0),
          ("/home/alice/.x/bin/tool".toList, 1000)],
        [DeployOp.mkdirAll "/home/alice/.x/bin".toList 493,
          DeployOp.gunzip "/tmp/t/extracted/tool.gz".toList "/home/alice/.x/bin/tool".toList,
          DeployOp.chmod "/home/alice/.x/bin/tool".toList 493,
          DeployOp.chown ⟨"/home/alice/.x/bin/tool".toList, 1000, 1000⟩]) ∧
    (installMapping (sudoEnv "/home/alice" "/work") ownersDeployOps homeOnly
        "/tmp/t/extracted".toList ⟨"emptydir".toList, "~/.z/share/d".toList⟩).1 = none ∧
    (installMapping (sudoEnv "/home/alice" "/work") ownersDeployOps homeOnly
        "/tmp/t/extracted".toList ⟨"emptydir".toList, "~/.z/share/d".toList⟩).2.1 =
      [("/".toList, 0), ("/home".toList, 0), ("/home/alice".toList, 1000),
        ("/home/alice/.z".toList, 0), ("/home/alice/.z/share".toList, 0),
        ("/home/alice/.z/share/d".toList, 1000)] ∧
    (installMapping (sudoEnv "/home/alice" "/work") ownersDeployOps homeOnly
        "/tmp/t/extracted".toList ⟨"tool".toList, "~/.y/bin/tool".toList⟩).2.1 =
      [("/".toList, 0), ("/home".toList, 0), ("/home/alice".toList, 1000),
        ("/home/alice/.y".toList, 1000), ("/home/alice/.y/bin".toList, 1000),
        ("/home/alice/.y/bin/tool".toList, 1000)] ∧
    (installMapping (sudoEnv "/home/alice" "/work") ownersDeployOps homeOnly
        "/tmp/t/extracted".toList ⟨"withfile".toList, "~/.w/share/d".toList⟩).2.1 =
      [("/".toList, 0), ("/home".toList, 0), ("/home/alice".toList, 1000),
        ("/home/alice/.w".toList, 1000), ("/home/alice/.w/share".toList, 1000),
        ("/home/alice/.w/share/d".toList, 1000), ("/home/alice/.w/share/d/f".toList, 1000)] ∧
    (∀ (σ : Type) (env : Env) (ops : DeployOps σ) (s : σ) (sourcePath targetPath : Path),
      Ext sourcePath = ".gz".toList →
      ∀ c, DeployOp.chown c ∈ (installFile env ops s sourcePath targetPath).2.2 →
        c.path = targetPath) ∧
    (∀ (σ : Type) (env : Env) (ops : DeployOps σ) (s : σ) (sourcePath targetPath : Path),
      Ext sourcePath ≠ ".gz".toList → (ops.mkdirAll s (Dir targetPath) 493).1 = none →
      ∃ rest, (installFile env ops s sourcePath targetPath).2.2 =
        DeployOp.mkdirAll (Dir targetPath) 493 ::
          (fixOwnershipPathRun env ops.chown (ops.mkdirAll s (Dir targetPath) 493).2
            (Dir targetPath)).2.2.map DeployOp.chown ++ rest) := by
  refine ⟨by decide, by decide, by decide, by decide, by decide, ?_, ?_⟩
  · intro σ env ops s sourcePath targetPath hgz
    exact installFile_gzip_chowns_target_only env ops s sourcePath targetPath hgz
  · intro σ env ops s sourcePath targetPath hgz hmk
    exact installFile_plain_corrects_parent env ops s sourcePath targetPath hgz hmk

end Tgzetup
